import Mathlib

/-!
# Block downloader of the Jetcash node (`src/Core/NodeDownloader.cpp`)

A shallow embedding of `Node::DownloaderV11` as explicit state passing.

* Pointers to peers are natural numbers (their address); `nullptr` is `none`.
  `std::map` iterates in key order, so the registry is an association list kept in ascending key
  order.
* `who->disconnect(std::string())` runs `on_disconnect(who)` synchronously (the source notes
  "Will recursively call advance_chain again"), so `advance_download` and `on_disconnect` are
  mutually recursive.  The recursion depth is bounded by a fuel argument; running out of fuel is
  reported as a fault, never as a result.  From a state that meets the invariant `Inv` a fuel
  above the size of the registry is enough (`advance_download_returns`, `handle_returns`).
* Everything the downloader reads from its collaborators (peers, blockchain, clocks) is gathered in
  `Env`; everything it does to them is appended, in order, to the `trace` of the state.
* `std::logic_error` is the fault `Fault.logic_error_*`.
-/

namespace Jetcash

abbrev Hash := Nat
abbrev Peer := Nat
abbrev Height := Nat
abbrev Address := Nat
abbrev BinaryArray := List Nat
abbrev TimePoint := Int

/-- The number of values of `size_t`. -/
def SIZE_T : Nat := 2 ^ 64

/-- The value of `std::numeric_limits<size_t>::max()`. -/
def SIZE_MAX : Nat := 2 ^ 64 - 1

/-- The number of values of `Height`, which is `uint32_t` (CryptoNote.hpp:29). -/
def HEIGHT_T : Nat := 2 ^ 32

def GOOD_LAG : Nat := 5

def TOTAL_DOWNLOAD_BLOCKS : Nat := 400

def TOTAL_DOWNLOAD_WINDOW : Nat := 2000

def multicore : Bool := true

/-- The struct `RawBlock` of CryptoNote.hpp:121. -/
structure RawBlock where
  block : BinaryArray := []
  transactions : List BinaryArray := []
  deriving DecidableEq, Repr, Inhabited

/-- Modelled from the spec: `PreparedBlock` (its class is not in the source) is built from a raw
block and a hash context that is present exactly when proof of work is to be checked; the model
records the two constructor arguments. -/
structure PreparedBlock where
  rb : RawBlock := {}
  pow_checked : Bool := false
  deriving DecidableEq, Repr, Inhabited

inductive Status where
  | DOWNLOADING
  | DOWNLOADED
  | PREPARING
  | PREPARED
  deriving DecidableEq, Repr, Inhabited

/-- The position of a status in the order DOWNLOADING, DOWNLOADED, PREPARING, PREPARED. -/
def Status.rank : Status → Nat
  | .DOWNLOADING => 0
  | .DOWNLOADED => 1
  | .PREPARING => 2
  | .PREPARED => 3

/-- Modelled from the spec: the values `add_block` can return (the enum is not in the source). -/
inductive BroadcastAction where
  | ADDED
  | BROADCAST_ALL
  | NOTHING
  | BAN
  deriving DecidableEq, Repr, Inhabited

/-- Modelled from the spec: `DownloadCell` (declared in Node.hpp, not in the source); a new cell
has status DOWNLOADING, a null `downloading_client` and `protect_from_disconnect = false`. -/
structure DownloadCell where
  bid : Hash := 0
  expected_height : Height := 0
  bid_source : Address := 0
  downloading_client : Option Peer := none
  request_time : TimePoint := 0
  rb : RawBlock := {}
  status : Status := .DOWNLOADING
  protect_from_disconnect : Bool := false
  pb : PreparedBlock := {}
  deriving DecidableEq, Repr, Inhabited

/-- What the downloader does to its collaborators, plus two marks (`promoted`, `add_block`) that
record which cell entered and which cell left the download queue. -/
inductive Effect where
  | send_request_chain (dest : Peer) (block_ids : List Hash)
  | send_request_get_objects (dest : Peer) (blocks : List Hash)
  | disconnect (who : Peer)
  | delay_connection_attempt (addr : Address) (now : Nat)
  | sync_transactions (who : Peer)
  | chain_timer_once
  | chain_timer_cancel
  | download_timer_once
  | advance_long_poll
  | promoted (cell : DownloadCell)
  | add_block (cell : DownloadCell) (tip_height_before : Height) (result : BroadcastAction)
  deriving DecidableEq, Repr

/-- The result of `get_last_received_sync_data()`. -/
structure SyncData where
  top_id : Hash := 0
  current_height : Height := 0
  deriving DecidableEq, Repr, Inhabited

/-- Modelled from the spec: what the downloader can observe of the blockchain store. -/
structure BlockChainState where
  tip_height : Height
  tip_bid : Hash
  has_block : Hash → Bool
  genesis_bid : Hash
  sparse_chain : List Hash
  internal_import_known_height : Height

/-- Everything the downloader reads from outside during one callback. -/
structure Env where
  is_incoming : Peer → Bool
  get_version : Peer → Nat
  get_address : Peer → Address
  sync_data : Peer → SyncData
  /-- Resolves the order of equal heights in `std::sort`, which is unspecified. -/
  sort_tie : Peer → Nat
  bc : BlockChainState
  add_block : BlockChainState → PreparedBlock → BroadcastAction × BlockChainState
  reader1 : Bool
  reader2 : Bool
  /-- The reading of `std::chrono::steady_clock::now()`, in nanoseconds. -/
  now : TimePoint
  /-- The value of `m_p2p.get_local_time()`. -/
  local_time : Nat
  /-- The constant `SYNC_TIMEOUT`, in seconds (its declaration is not in the source). -/
  SYNC_TIMEOUT : Nat
  is_in_checkpoint_zone : Height → Bool
  /-- Parsing of a block template and hashing of its header; `none` when parsing throws. -/
  block_hash : BinaryArray → Option Hash

/-- The state of `Node::DownloaderV11`. -/
structure DownloaderV11 where
  m_good_clients : List (Peer × Nat) := []
  total_downloading_blocks : Nat := 0
  m_who_downloaded_block : List Peer := []
  m_chain_client : Option Peer := none
  /-- Whether `m_chain_timer` is armed. -/
  m_chain_timer : Bool := false
  m_download_chain : List DownloadCell := []
  m_chain : List Hash := []
  m_chain_start_height : Height := 0
  chain_source : Address := 0
  /-- The job queue `work`. -/
  work : List (Hash × Bool × RawBlock) := []
  /-- Jobs taken by a worker thread and not yet published. -/
  running : List (Hash × Bool × RawBlock) := []
  /-- The map `prepared_blocks`, in key order. -/
  prepared_blocks : List (Hash × PreparedBlock) := []
  trace : List Effect := []
  deriving DecidableEq, Repr

inductive Fault where
  | logic_error_disconnect
  | logic_error_objects
  | out_of_fuel
  deriving DecidableEq, Repr

abbrev M := Except Fault

/-- The body of a chain response. -/
structure ChainResponse where
  start_height : Height
  m_block_ids : List Hash
  deriving DecidableEq, Repr

/-! ## `std::map<P2PClientJetcash *, size_t>` -/

/-- The call `m.find(p)`; `none` is `m.end()`. -/
def map_find : List (Peer × Nat) → Peer → Option Nat
  | [], _ => none
  | (k, v) :: rest, p => if k = p then some v else map_find rest p

/-- Reading `m[p]`: an absent key reads as 0. -/
def map_count (m : List (Peer × Nat)) (p : Peer) : Nat :=
  (map_find m p).getD 0

/-- The call `m.insert(make_pair(p, v))`: an existing entry is kept. -/
def map_insert : List (Peer × Nat) → Peer → Nat → List (Peer × Nat)
  | [], p, v => [(p, v)]
  | (k, w) :: rest, p, v =>
    if p < k then (p, v) :: (k, w) :: rest
    else if p = k then (k, w) :: rest
    else (k, w) :: map_insert rest p v

/-- The call `m.erase(p)`. -/
def map_erase (m : List (Peer × Nat)) (p : Peer) : List (Peer × Nat) :=
  m.filter (fun e => decide (e.1 ≠ p))

/-- The keys in iteration order. -/
def map_keys (m : List (Peer × Nat)) : List Peer :=
  m.map Prod.fst

/-- The value stored for `p` becomes `g` of it. -/
def map_update : List (Peer × Nat) → Peer → (Nat → Nat) → List (Peer × Nat)
  | [], _, _ => []
  | (k, v) :: rest, p, g =>
    if k = p then (k, g v) :: map_update rest p g else (k, v) :: map_update rest p g

/-- The statement `m[p] += 1`. -/
def map_add_one (m : List (Peer × Nat)) (p : Peer) : List (Peer × Nat) :=
  match map_find m p with
  | some _ => map_update m p (fun v => v + 1)
  | none => map_insert m p 1

/-- The statement `git->second -= 1` for the entry of `p`. -/
def map_sub_one (m : List (Peer × Nat)) (p : Peer) : List (Peer × Nat) :=
  map_update m p (fun v => v - 1)

/-- The insertion `m[bid] = pb` into `prepared_blocks`. -/
def prepared_insert : List (Hash × PreparedBlock) → Hash → PreparedBlock → List (Hash × PreparedBlock)
  | [], bid, pb => [(bid, pb)]
  | (k, w) :: rest, bid, pb =>
    if bid < k then (bid, pb) :: (k, w) :: rest
    else if bid = k then (k, pb) :: rest
    else (k, w) :: prepared_insert rest bid pb

/-- The cast `duration_cast<seconds>` of a difference of time points, which truncates. -/
def duration_seconds (d : Int) : Int :=
  Int.tdiv d 1000000000

/-- The cast `duration_cast<milliseconds>`. -/
def duration_milliseconds (d : Int) : Int :=
  Int.tdiv d 1000000

/-- The effects `es` are appended to the trace. -/
def log (s : DownloaderV11) (es : List Effect) : DownloaderV11 :=
  { s with trace := s.trace ++ es }

/-! ## `on_disconnect` (lines 94-118) -/

/-- Lines 107-111: the cell is released when it is DOWNLOADING and assigned to `who`. -/
def release_cell (who : Peer) (dc : DownloadCell) : DownloadCell :=
  if dc.status ≠ .DOWNLOADING ∨ dc.downloading_client ≠ some who then dc
  else { dc with downloading_client := none }

/-- Lines 100-116: the peer leaves the registry, the ring, the cells and the planner slot. -/
def scrub (who : Peer) (s : DownloaderV11) : DownloaderV11 :=
  let s1 : DownloaderV11 :=
    { s with
      total_downloading_blocks := s.total_downloading_blocks - map_count s.m_good_clients who
      m_good_clients := map_erase s.m_good_clients who
      m_who_downloaded_block := s.m_who_downloaded_block.filter (fun p => decide (p ≠ who))
      m_download_chain := s.m_download_chain.map (release_cell who) }
  if s1.m_chain_client = some who then
    log { s1 with m_chain_client := none, m_chain_timer := false } [.chain_timer_cancel]
  else s1

/-- The callback `on_disconnect`; `ad` is the call `advance_download(Hash{})` that ends it. -/
def on_disconnect (ad : DownloaderV11 → M DownloaderV11) (env : Env) (who : Peer)
    (s : DownloaderV11) : M DownloaderV11 :=
  if env.is_incoming who then pure s
  else if s.total_downloading_blocks < map_count s.m_good_clients who then
    throw .logic_error_disconnect
  else ad (scrub who s)

/-- Modelled from the spec: `P2PClientJetcash::disconnect` (not in the source) closes the
connection and invokes the downloader's `on_disconnect` for that peer before it returns. -/
def disconnect (ad : DownloaderV11 → M DownloaderV11) (env : Env) (who : Peer)
    (s : DownloaderV11) : M DownloaderV11 :=
  on_disconnect ad env who (log s [.disconnect who])

/-! ## `advance_chain` (lines 180-222) -/

/-- The comparison used by `std::sort` at line 192, refined by `sort_tie` on equal heights. -/
def height_le (env : Env) (a b : Peer) : Prop :=
  (env.sync_data a).current_height < (env.sync_data b).current_height ∨
    ((env.sync_data a).current_height = (env.sync_data b).current_height ∧
      env.sort_tie a ≤ env.sort_tie b)

instance (env : Env) : DecidableRel (height_le env) :=
  fun a b => inferInstanceAs (Decidable
    ((env.sync_data a).current_height < (env.sync_data b).current_height ∨
      ((env.sync_data a).current_height = (env.sync_data b).current_height ∧
        env.sort_tie a ≤ env.sort_tie b)))

/-- Line 187. -/
def is_lagging (env : Env) (who : Peer) : Bool :=
  decide ((env.sync_data who).current_height + GOOD_LAG < env.bc.tip_height)

/-- Lines 186-191: the vector `lagging_clients`. -/
def lagging_clients (env : Env) (s : DownloaderV11) : List Peer :=
  (map_keys s.m_good_clients).filter (fun who => is_lagging env who)

/-- Lines 186-194: the vector `sorted_clients` after `std::sort`. -/
def sorted_clients (env : Env) (s : DownloaderV11) : List Peer :=
  List.insertionSort (height_le env)
    ((map_keys s.m_good_clients).filter (fun who => ! is_lagging env who))

/-- Lines 209-221: the planner is elected and asked for a chain. -/
def elect (env : Env) (best : Peer) (s : DownloaderV11) : DownloaderV11 :=
  log { s with m_chain_client := some best, m_chain_timer := true }
    [.send_request_chain best env.bc.sparse_chain, .chain_timer_once]

/-- Lines 180-222; `disc` is `who->disconnect`. -/
def advance_chain (disc : Peer → DownloaderV11 → M DownloaderV11) (env : Env)
    (s : DownloaderV11) : M DownloaderV11 :=
  if s.m_chain_client.isSome ∨ s.m_chain ≠ [] then pure s
  else
    match lagging_clients env s with
    | who :: _ =>
      disc who (log s [.delay_connection_attempt (env.get_address who) env.local_time])
    | [] =>
      match (sorted_clients env s).getLast? with
      | none => pure s
      | some best =>
        if (env.sync_data best).current_height ≤ env.bc.tip_height + s.m_download_chain.length then
          pure s
        else
          pure (elect env best s)

/-! ## `advance_download` (lines 347-428) -/

/-- Lines 353-360: the promotion loop, on the queue, the chain of ids and its start height;
the last component lists the cells that were appended. -/
def promote_loop (source : Address) :
    List Hash → List DownloadCell → Height → List DownloadCell × List Hash × Height × List DownloadCell
  | [], cells, start => (cells, [], start, [])
  | bid :: rest, cells, start =>
    if cells.length < TOTAL_DOWNLOAD_WINDOW then
      let dc : DownloadCell := { bid := bid, expected_height := start, bid_source := source }
      let r := promote_loop source rest (cells ++ [dc]) ((start + 1) % HEIGHT_T)
      (r.1, r.2.1, r.2.2.1, dc :: r.2.2.2)
    else (cells, bid :: rest, start, [])

/-- Lines 353-360, on the state. -/
def promote (s : DownloaderV11) : DownloaderV11 :=
  let r := promote_loop s.chain_source s.m_chain s.m_download_chain s.m_chain_start_height
  { s with
    m_download_chain := r.1
    m_chain := r.2.1
    m_chain_start_height := r.2.2.1
    trace := s.trace ++ r.2.2.2.map Effect.promoted }

/-- Lines 363-364: the oldest entries of the ring are dropped. -/
def truncate_ring (ring : List Peer) : List Peer :=
  ring.drop (ring.length - TOTAL_DOWNLOAD_BLOCKS)

/-- Line 378-379: the clamped speed of a peer; `who_downloaded_counter[who]` is the number of
occurrences of `who` in the ring. -/
def speed_of (ring : List Peer) (who : Peer) : Nat :=
  max 1 (min (TOTAL_DOWNLOAD_BLOCKS / 4) (ring.count who))

/-- Lines 377-388: the loop over `m_good_clients`, with `ready_client`, `ready_counter` and
`ready_speed` as accumulators; the products are taken in `size_t`. -/
def choose_loop (env : Env) (ring : List Peer) (expected_height : Height) :
    List (Peer × Nat) → Option Peer → Nat → Nat → Option Peer
  | [], ready_client, _, _ => ready_client
  | who :: rest, ready_client, ready_counter, ready_speed =>
    let speed := speed_of ring who.1
    if (who.2 * ready_speed) % SIZE_T < (ready_counter * speed) % SIZE_T ∧
        (env.sync_data who.1).current_height ≥ expected_height then
      choose_loop env ring expected_height rest (some who.1) who.2 speed
    else
      choose_loop env ring expected_height rest ready_client ready_counter ready_speed

/-- Lines 374-388: `ready_client` after the loop. -/
def choose_client (env : Env) (ring : List Peer) (expected_height : Height)
    (clients : List (Peer × Nat)) : Option Peer :=
  choose_loop env ring expected_height clients none SIZE_MAX 1

/-- The part of the state that the assignment loop updates besides the cells. -/
structure Assigned where
  cells : List DownloadCell
  m_good_clients : List (Peer × Nat)
  total_downloading_blocks : Nat
  sent : List Effect

/-- Lines 369-408: the assignment loop over the cells that are still to be visited. -/
def assign_loop (env : Env) (ring : List Peer) :
    List DownloadCell → List (Peer × Nat) → Nat → Assigned
  | [], clients, total => ⟨[], clients, total, []⟩
  | dc :: rest, clients, total =>
    if dc.status ≠ .DOWNLOADING ∨ dc.downloading_client.isSome then
      let r := assign_loop env ring rest clients total
      { r with cells := dc :: r.cells }
    else if total ≥ TOTAL_DOWNLOAD_BLOCKS then
      ⟨dc :: rest, clients, total, []⟩
    else
      match choose_client env ring dc.expected_height clients with
      | none =>
        let r := assign_loop env ring rest clients total
        { r with cells := dc :: r.cells }
      | some ready_client =>
        let r := assign_loop env ring rest (map_add_one clients ready_client) (total + 1)
        { r with
          cells := { dc with downloading_client := some ready_client, request_time := env.now }
            :: r.cells
          sent := Effect.send_request_get_objects ready_client [dc.bid] :: r.sent }

/-- Lines 363-408. -/
def assign (env : Env) (s : DownloaderV11) : DownloaderV11 :=
  let ring := truncate_ring s.m_who_downloaded_block
  let r := assign_loop env ring s.m_download_chain s.m_good_clients s.total_downloading_blocks
  { s with
    m_who_downloaded_block := ring
    m_download_chain := r.cells
    m_good_clients := r.m_good_clients
    total_downloading_blocks := r.total_downloading_blocks
    trace := s.trace ++ r.sent }

/-- Lines 409-412. -/
def bad_timeout (env : Env) (s : DownloaderV11) : Bool :=
  match s.m_download_chain with
  | [] => false
  | front :: _ =>
    decide (front.status = .DOWNLOADING) && front.downloading_client.isSome &&
      ! front.protect_from_disconnect &&
      decide (duration_seconds (env.now - front.request_time) > 2 * (env.SYNC_TIMEOUT : Int))

/-- Lines 415-417. -/
def bad_relatively_slow (s : DownloaderV11) : Bool :=
  decide (s.total_downloading_blocks < TOTAL_DOWNLOAD_BLOCKS) &&
    decide (s.m_download_chain.length ≥ TOTAL_DOWNLOAD_WINDOW) &&
    decide (s.m_good_clients.length > 1) &&
    match s.m_download_chain with
    | [] => false
    | front :: _ =>
      decide (front.status = .DOWNLOADING) && front.downloading_client.isSome &&
        ! front.protect_from_disconnect

/-- Lines 420-422. -/
def protect_cell (who : Peer) (dc : DownloadCell) : DownloadCell :=
  if dc.downloading_client = some who then { dc with protect_from_disconnect := true } else dc

/-- Lines 420-423: the cells of the slacker are protected and its next connection is delayed. -/
def protect (env : Env) (who : Peer) (s : DownloaderV11) : DownloaderV11 :=
  log { s with m_download_chain := s.m_download_chain.map (protect_cell who) }
    [.delay_connection_attempt (env.get_address who) env.local_time]

/-- Lines 348-349: whether `advance_download` returns at once. -/
def importing (env : Env) : Prop :=
  env.reader1 ∨ env.reader2 ∨ env.bc.tip_height < env.bc.internal_import_known_height

instance (env : Env) : Decidable (importing env) :=
  inferInstanceAs (Decidable
    (env.reader1 ∨ env.reader2 ∨ env.bc.tip_height < env.bc.internal_import_known_height))

/-- The client of the head cell, `m_download_chain.front().downloading_client`. -/
def front_client (s : DownloaderV11) : Option Peer :=
  match s.m_download_chain with
  | [] => none
  | front :: _ => front.downloading_client

/-- The call `advance_download(Hash{})`; `fuel` bounds the depth of the nested calls that come
back through `disconnect`. -/
def advance_download : Nat → Env → DownloaderV11 → M DownloaderV11
  | 0, _, _ => throw .out_of_fuel
  | fuel + 1, env, s =>
    if importing env then pure s
    else do
      let s1 := promote s
      let s2 ← advance_chain (disconnect (advance_download fuel env) env) env s1
      let s3 := assign env s2
      if bad_relatively_slow s3 ∨ bad_timeout env s3 then
        match front_client s3 with
        | none => pure s3
        | some who =>
          disconnect (advance_download fuel env) env who (protect env who s3)
      else pure s3

/-! ## The callbacks -/

/-- The constructor (lines 14-31): everything is empty and the download timer is armed. -/
def init : DownloaderV11 :=
  { trace := [.download_timer_once] }

/-- Lines 84-89: the peer enters the registry. -/
def register (env : Env) (who : Peer) (s : DownloaderV11) : DownloaderV11 :=
  let s1 := { s with m_good_clients := map_insert s.m_good_clients who 0 }
  if (env.sync_data who).top_id = env.bc.tip_bid then log s1 [.sync_transactions who] else s1

/-- Lines 79-92. -/
def on_connect (fuel : Nat) (env : Env) (who : Peer) (s : DownloaderV11) : M DownloaderV11 :=
  if env.is_incoming who then pure s
  else if env.get_version who = 1 then advance_download fuel env (register env who s)
  else pure s

/-- A timer that fires is no longer armed. -/
def chain_timer_fired (s : DownloaderV11) : DownloaderV11 :=
  { s with m_chain_timer := false }

/-- Lines 120-125. -/
def on_chain_timer (fuel : Nat) (env : Env) (s : DownloaderV11) : M DownloaderV11 :=
  match s.m_chain_client with
  | some who => disconnect (advance_download fuel env) env who (chain_timer_fired s)
  | none => pure (chain_timer_fired s)

/-- Lines 142-146: the loop that drops the leading ids that are known or scheduled. -/
def skip_known (env : Env) (downloading_bids : List Hash) :
    List Hash → Height → List Hash × Height
  | [], start => ([], start)
  | bid :: rest, start =>
    if env.bc.has_block bid ∨ bid ∈ downloading_bids then
      skip_known env downloading_bids rest ((start + 1) % HEIGHT_T)
    else (bid :: rest, start)

/-- Line 138: the last id of the response, or `Hash{}` when it has none. -/
def last_block (req : ChainResponse) : Hash :=
  req.m_block_ids.getLast?.getD 0

/-- Lines 135-147: the response is stored and its known leading ids are dropped. -/
def store_chain (env : Env) (who : Peer) (req : ChainResponse) (s : DownloaderV11) :
    DownloaderV11 :=
  let r := skip_known env (s.m_download_chain.map (fun dc => dc.bid)) req.m_block_ids
    (req.start_height % HEIGHT_T)
  { s with m_chain_start_height := r.2, chain_source := env.get_address who, m_chain := r.1 }

/-- Lines 148-150, evaluated after the skip loop: whether more of the chain is requested. -/
def wants_more (env : Env) (who : Peer) (req : ChainResponse) (s : DownloaderV11) : Prop :=
  s.m_chain = [] ∧ req.m_block_ids.length > 1 ∧ last_block req ≠ 0 ∧
    (env.sync_data who).current_height > env.bc.tip_height + s.m_download_chain.length

instance (env : Env) (who : Peer) (req : ChainResponse) (s : DownloaderV11) :
    Decidable (wants_more env who req s) :=
  inferInstanceAs (Decidable
    (s.m_chain = [] ∧ req.m_block_ids.length > 1 ∧ last_block req ≠ 0 ∧
      (env.sync_data who).current_height > env.bc.tip_height + s.m_download_chain.length))

/-- Lines 151-165: the follow-up request. -/
def request_more (env : Env) (who : Peer) (req : ChainResponse) (s : DownloaderV11) :
    DownloaderV11 :=
  log { s with m_chain_timer := true }
    [.send_request_chain who [last_block req, env.bc.genesis_bid], .chain_timer_once]

/-- Lines 172-173: the planner slot is cleared. -/
def release_planner (s : DownloaderV11) : DownloaderV11 :=
  log { s with m_chain_client := none, m_chain_timer := false } [.chain_timer_cancel]

/-- Lines 127-176. -/
def on_msg_notify_request_chain (fuel : Nat) (env : Env) (who : Peer) (req : ChainResponse)
    (s : DownloaderV11) : M DownloaderV11 :=
  if s.m_chain_client ≠ some who ∨ s.m_chain ≠ [] then pure s
  else
    let s1 := store_chain env who req s
    if wants_more env who req s1 then pure (request_more env who req s1)
    else advance_download fuel env (release_planner s1)

/-- Line 224. -/
def on_msg_timed_sync (fuel : Nat) (env : Env) (s : DownloaderV11) : M DownloaderV11 :=
  advance_download fuel env s

/-- Lines 244-270: what a matching cell becomes when the block `rb` arrives.  With `multicore`
the raw block is moved into the job, which leaves `dc.rb` empty. -/
def received_cell (rb : RawBlock) (dc : DownloadCell) : DownloadCell :=
  if multicore then
    { dc with status := .PREPARING, downloading_client := none, rb := {} }
  else
    { dc with status := .PREPARED, downloading_client := none, rb := {}, pb := ⟨rb, false⟩ }

/-- Lines 241-272: the search for the first cell that is DOWNLOADING, assigned to `who` and has
the id `bid`; the result is the queue with that cell updated, and the cell as it was. -/
def take_cell (who : Peer) (bid : Hash) (rb : RawBlock) :
    List DownloadCell → Option (List DownloadCell × DownloadCell)
  | [] => none
  | dc :: rest =>
    if dc.status ≠ .DOWNLOADING ∨ dc.downloading_client ≠ some who ∨ dc.bid ≠ bid then
      match take_cell who bid rb rest with
      | none => none
      | some (cells, found) => some (dc :: cells, found)
    else some (received_cell rb dc :: rest, dc)

/-- Lines 244-270: the bookkeeping for a block that matched the cell `dc`; `cells` is the queue
with that cell updated. -/
def receive (env : Env) (who : Peer) (rb : RawBlock) (cells : List DownloadCell)
    (dc : DownloadCell) (s : DownloaderV11) : DownloaderV11 :=
  { s with
    m_download_chain := cells
    m_good_clients := map_sub_one s.m_good_clients who
    total_downloading_blocks := s.total_downloading_blocks - 1
    m_who_downloaded_block := s.m_who_downloaded_block ++ [who]
    work :=
      if multicore then
        s.work ++ [(dc.bid, ! env.is_in_checkpoint_zone dc.expected_height, rb)]
      else s.work }

/-- Lines 228-279: the loop over the blocks of an object response; `disc` is `who->disconnect`. -/
def objects_loop (disc : Peer → DownloaderV11 → M DownloaderV11) (env : Env) (who : Peer) :
    List RawBlock → DownloaderV11 → M DownloaderV11
  | [], s => pure s
  | rb :: rest, s =>
    match env.block_hash rb.block with
    | none => disc who s
    | some bid =>
      match take_cell who bid rb s.m_download_chain with
      | none => disc who s
      | some (cells, dc) =>
        if map_find s.m_good_clients who = none ∨ map_find s.m_good_clients who = some 0 ∨
            s.total_downloading_blocks = 0 then
          throw .logic_error_objects
        else objects_loop disc env who rest (receive env who rb cells dc s)

/-- Lines 226-281. -/
def on_msg_notify_request_objects (fuel : Nat) (env : Env) (who : Peer) (blocks : List RawBlock)
    (s : DownloaderV11) : M DownloaderV11 := do
  let s1 ← objects_loop (disconnect (advance_download fuel env) env) env who blocks s
  advance_download fuel env s1

/-- Lines 288-293: the first PREPARING cell with the id `bid` receives the prepared block. -/
def mark_prepared (bid : Hash) (pb : PreparedBlock) : List DownloadCell → List DownloadCell
  | [] => []
  | dc :: rest =>
    if dc.status = .PREPARING ∧ dc.bid = bid then { dc with pb := pb, status := .PREPARED } :: rest
    else dc :: mark_prepared bid pb rest

/-- Lines 287-294. -/
def collect_prepared (prepared : List (Hash × PreparedBlock)) (cells : List DownloadCell) :
    List DownloadCell :=
  prepared.foldl (fun acc pb => mark_prepared pb.1 pb.2 acc) cells

/-- What the drain loop leaves: the queue, the blockchain, and the calls of `add_block`. -/
structure Drained where
  cells : List DownloadCell
  bc : BlockChainState
  added : List Effect

/-- Lines 298-315: the drain loop.  The loop stops after an `add_block` when more than 100 ms
have passed since it started; `budget` is the number of further iterations the clock allows. -/
def drain (env : Env) : List DownloadCell → Nat → BlockChainState → Drained
  | [], _, bc => ⟨[], bc, []⟩
  | dc :: rest, budget, bc =>
    if dc.status = .PREPARED then
      let r := env.add_block bc dc.pb
      let e := Effect.add_block dc bc.tip_height r.1
      match budget with
      | 0 => ⟨rest, r.2, [e]⟩
      | b + 1 =>
        let d := drain env rest b r.2
        { d with added := e :: d.added }
    else ⟨dc :: rest, bc, []⟩

/-- Lines 319-326: the first registered peer whose top block is our tip. -/
def first_at_tip (env : Env) (tip_bid : Hash) : List (Peer × Nat) → Option Peer
  | [] => none
  | who :: rest =>
    if (env.sync_data who.1).top_id = tip_bid then some who.1 else first_at_tip env tip_bid rest

/-- The value `on_idle` returns (line 329). -/
def head_prepared (s : DownloaderV11) : Bool :=
  match s.m_download_chain with
  | [] => false
  | front :: _ => decide (front.status = .PREPARED)

/-- Lines 285-296: the results of the workers are moved into their cells. -/
def collect (s : DownloaderV11) : DownloaderV11 :=
  if multicore then
    { s with
      m_download_chain := collect_prepared s.prepared_blocks s.m_download_chain
      prepared_blocks := [] }
  else s

/-- Lines 298-315, on the state. -/
def drained (env : Env) (budget : Nat) (s : DownloaderV11) : DownloaderV11 :=
  let d := drain env s.m_download_chain budget env.bc
  log { s with m_download_chain := d.cells } d.added

/-- Lines 319-326. -/
def sync_at_tip (env : Env) (s : DownloaderV11) : DownloaderV11 :=
  if s.m_download_chain = [] then
    match first_at_tip env env.bc.tip_bid s.m_good_clients with
    | some who => log s [.sync_transactions who]
    | none => s
  else s

/-- Lines 283-330. -/
def on_idle (fuel : Nat) (env : Env) (budget : Nat) (s : DownloaderV11) :
    M (DownloaderV11 × Bool) :=
  let s1 := collect s
  let d := drain env s1.m_download_chain budget env.bc
  let s2 := drained env budget s1
  if d.added ≠ [] then do
    let env2 : Env := { env with bc := d.bc }
    let s3 ← advance_download fuel env2 (log s2 [.advance_long_poll])
    let s4 := sync_at_tip env2 s3
    pure (s4, head_prepared s4)
  else pure (s2, head_prepared s2)

/-- Lines 332-345. -/
def on_download_timer (fuel : Nat) (env : Env) (s : DownloaderV11) : M DownloaderV11 :=
  let s1 := log s [.download_timer_once]
  match s1.m_download_chain with
  | [] => pure s1
  | front :: _ =>
    match front.downloading_client with
    | none => pure s1
    | some who =>
      if front.status = .DOWNLOADING ∧ front.protect_from_disconnect ∧
          duration_seconds (env.now - front.request_time) > (env.SYNC_TIMEOUT : Int) then
        disconnect (advance_download fuel env) env who
          (log s1 [.delay_connection_attempt (env.get_address who) env.local_time])
      else pure s1

/-- Lines 52-63 of `thread_run`: a worker takes the first job. -/
def worker_take (s : DownloaderV11) : DownloaderV11 :=
  match s.work with
  | [] => s
  | wo :: rest => { s with work := rest, running := s.running ++ [wo] }

/-- Lines 64-69 of `thread_run`: the worker holding the `i`-th running job publishes its
result. -/
def worker_publish (i : Nat) (s : DownloaderV11) : DownloaderV11 :=
  match s.running.get? i with
  | none => s
  | some wo =>
    { s with
      running := s.running.eraseIdx i
      prepared_blocks := prepared_insert s.prepared_blocks wo.1 ⟨wo.2.2, wo.2.1⟩ }

/-- The events that drive the downloader. -/
inductive Input where
  | connect (who : Peer)
  | disconnected (who : Peer)
  | chain_response (who : Peer) (req : ChainResponse)
  | objects_response (who : Peer) (blocks : List RawBlock)
  | timed_sync
  | idle (budget : Nat)
  | chain_timer
  | download_timer
  | worker_take
  | worker_publish (i : Nat)

/-- The callback that an event invokes. -/
def handle (fuel : Nat) (env : Env) : Input → DownloaderV11 → M DownloaderV11
  | .connect who, s => on_connect fuel env who s
  | .disconnected who, s => on_disconnect (advance_download fuel env) env who s
  | .chain_response who req, s => on_msg_notify_request_chain fuel env who req s
  | .objects_response who blocks, s => on_msg_notify_request_objects fuel env who blocks s
  | .timed_sync, s => on_msg_timed_sync fuel env s
  | .idle budget, s => (on_idle fuel env budget s).map Prod.fst
  | .chain_timer, s => on_chain_timer fuel env s
  | .download_timer, s => on_download_timer fuel env s
  | .worker_take, s => pure (worker_take s)
  | .worker_publish i, s => pure (worker_publish i s)

/-- Whether an entry of the trace marks a cell entering or leaving the download queue. -/
def Effect.is_mark : Effect → Bool
  | .promoted _ => true
  | .add_block _ _ _ => true
  | _ => false

/-- The straight-line pieces of `advance_download` and `on_disconnect`, each with the conditions
under which the code runs it. -/
inductive Inner (incoming : Peer → Bool) : DownloaderV11 → DownloaderV11 → Prop where
  | note (s : DownloaderV11) (es : List Effect) :
      (∀ e ∈ es, e.is_mark = false) → Inner incoming s (log s es)
  | promote (env : Env) (s : DownloaderV11) : ¬ importing env → Inner incoming s (promote s)
  | elect (env : Env) (best : Peer) (s : DownloaderV11) :
      s.m_chain_client = none → s.m_chain = [] → lagging_clients env s = [] →
      (sorted_clients env s).getLast? = some best →
      ¬ (env.sync_data best).current_height ≤ env.bc.tip_height + s.m_download_chain.length →
      Inner incoming s (elect env best s)
  | assign (env : Env) (s : DownloaderV11) : Inner incoming s (assign env s)
  | protect (env : Env) (who : Peer) (s : DownloaderV11) :
      front_client s = some who → (bad_relatively_slow s ∨ bad_timeout env s) →
      Inner incoming s (protect env who s)
  | scrub (who : Peer) (s : DownloaderV11) :
      incoming who = false → ¬ s.total_downloading_blocks < map_count s.m_good_clients who →
      Inner incoming s (scrub who s)

/-- The straight-line pieces of all callbacks.  `chain_ok` is a condition that the accepted chain
responses of the run are known to meet. -/
inductive Prim (chain_ok : Env → Peer → ChainResponse → DownloaderV11 → Prop)
    (incoming : Peer → Bool) : DownloaderV11 → DownloaderV11 → Prop where
  | inner (s t : DownloaderV11) : Inner incoming s t → Prim chain_ok incoming s t
  | register (env : Env) (who : Peer) (s : DownloaderV11) :
      incoming who = false → env.get_version who = 1 →
      Prim chain_ok incoming s (register env who s)
  | chain_timer_fired (s : DownloaderV11) : Prim chain_ok incoming s (chain_timer_fired s)
  | request_more (env : Env) (who : Peer) (req : ChainResponse) (s : DownloaderV11) :
      s.m_chain_client = some who → s.m_chain = [] → chain_ok env who req s →
      wants_more env who req (store_chain env who req s) →
      Prim chain_ok incoming s (request_more env who req (store_chain env who req s))
  | accept_chain (env : Env) (who : Peer) (req : ChainResponse) (s : DownloaderV11) :
      s.m_chain_client = some who → s.m_chain = [] → chain_ok env who req s →
      ¬ wants_more env who req (store_chain env who req s) →
      Prim chain_ok incoming s (release_planner (store_chain env who req s))
  | receive (env : Env) (who : Peer) (rb : RawBlock) (bid : Hash) (cells : List DownloadCell)
      (dc : DownloadCell) (s : DownloaderV11) :
      env.block_hash rb.block = some bid →
      take_cell who bid rb s.m_download_chain = some (cells, dc) →
      map_find s.m_good_clients who ≠ none → map_find s.m_good_clients who ≠ some 0 →
      s.total_downloading_blocks ≠ 0 →
      Prim chain_ok incoming s (receive env who rb cells dc s)
  | collect (s : DownloaderV11) : Prim chain_ok incoming s (collect s)
  | drained (env : Env) (budget : Nat) (s : DownloaderV11) :
      Prim chain_ok incoming s (drained env budget s)
  | worker_take (s : DownloaderV11) : Prim chain_ok incoming s (worker_take s)
  | worker_publish (i : Nat) (s : DownloaderV11) : Prim chain_ok incoming s (worker_publish i s)

/-- A sequence of callbacks under one environment. -/
def run (fuel : Nat) (env : Env) : List Input → DownloaderV11 → M DownloaderV11
  | [], s => pure s
  | input :: rest, s =>
    match handle fuel env input s with
    | .ok t => run fuel env rest t
    | .error e => .error e

/-- The states the downloader can be in: those that a sequence of callbacks produces from the
freshly constructed downloader.  Whether a peer is incoming never changes; everything else the
environment reports may differ from one callback to the next. -/
inductive Reachable (incoming : Peer → Bool) : DownloaderV11 → Prop where
  | init : Reachable incoming init
  | step (fuel : Nat) (env : Env) (input : Input) (s t : DownloaderV11) :
      Reachable incoming s → env.is_incoming = incoming → handle fuel env input s = .ok t →
      Reachable incoming t

/-- Whether the chain response `req` of `who` is accepted in the state `s` (line 129). -/
def accepts (who : Peer) (s : DownloaderV11) : Prop :=
  s.m_chain_client = some who ∧ s.m_chain = []

/-- The states reachable when every accepted chain response meets `chain_ok`. -/
inductive ReachableIf (chain_ok : Env → Peer → ChainResponse → DownloaderV11 → Prop)
    (incoming : Peer → Bool) : DownloaderV11 → Prop where
  | init : ReachableIf chain_ok incoming init
  | step (fuel : Nat) (env : Env) (input : Input) (s t : DownloaderV11) :
      ReachableIf chain_ok incoming s → env.is_incoming = incoming →
      (∀ who req, input = .chain_response who req → accepts who s → chain_ok env who req s) →
      handle fuel env input s = .ok t → ReachableIf chain_ok incoming t

/-- A sequence of pieces of `advance_download` and `on_disconnect`. -/
abbrev InnerSteps (incoming : Peer → Bool) := Relation.ReflTransGen (Inner incoming)

/-- A sequence of pieces of callbacks. -/
abbrev Steps (chain_ok : Env → Peer → ChainResponse → DownloaderV11 → Prop)
    (incoming : Peer → Bool) :=
  Relation.ReflTransGen (Prim chain_ok incoming)

/-- The number of cells whose `downloading_client` is `p`. -/
def assigned_to (p : Peer) (cells : List DownloadCell) : Nat :=
  cells.countP (fun dc => decide (dc.downloading_client = some p))

/-- The number of cells with a non-null `downloading_client`. -/
def assigned (cells : List DownloadCell) : Nat :=
  cells.countP (fun dc => dc.downloading_client.isSome)

/-- The invariant of the bookkeeping: the registry is in key order, the count stored for a peer
is the number of cells assigned to it, `total_downloading_blocks` is the number of assigned
cells, an assigned cell is DOWNLOADING and its peer is registered, no registered peer is
incoming, and the ring names registered peers only. -/
structure Inv (incoming : Peer → Bool) (s : DownloaderV11) : Prop where
  sorted : (map_keys s.m_good_clients).Sorted (· < ·)
  counts : ∀ p, map_count s.m_good_clients p = assigned_to p s.m_download_chain
  total : s.total_downloading_blocks = assigned s.m_download_chain
  owner : ∀ dc ∈ s.m_download_chain, ∀ p, dc.downloading_client = some p →
    dc.status = .DOWNLOADING ∧ p ∈ map_keys s.m_good_clients
  outgoing : ∀ p ∈ map_keys s.m_good_clients, incoming p = false
  ring : ∀ p ∈ s.m_who_downloaded_block, p ∈ map_keys s.m_good_clients

/-- What the invariant reads of a cell: its client and whether it is DOWNLOADING. -/
def owner_key (dc : DownloadCell) : Option Peer × Bool :=
  (dc.downloading_client, decide (dc.status = .DOWNLOADING))

/-- What the assignment loop may do to one cell. -/
def AssignRel (keys : List Peer) (now : TimePoint) (dc dc' : DownloadCell) : Prop :=
  dc' = dc ∨ (dc.status = .DOWNLOADING ∧ dc.downloading_client = none ∧
    ∃ c ∈ keys, dc' = { dc with downloading_client := some c, request_time := now })

/-- A blockchain that holds the genesis block 1 only. -/
def demo_bc : BlockChainState where
  tip_height := 0
  tip_bid := 1
  has_block := fun h => h == 1
  genesis_bid := 1
  sparse_chain := [1]
  internal_import_known_height := 0

/-- Two outgoing peers of version 1: peer 1 claims height 1000, every other peer 500. -/
def demo_env : Env where
  is_incoming := fun _ => false
  get_version := fun _ => 1
  get_address := fun p => p + 1000
  sync_data := fun p => ⟨77, if p = 1 then 1000 else 500⟩
  sort_tie := fun p => p
  bc := demo_bc
  add_block := fun bc _ => (.ADDED, { bc with tip_height := bc.tip_height + 1 })
  reader1 := false
  reader2 := false
  now := 0
  local_time := 0
  SYNC_TIMEOUT := 20
  is_in_checkpoint_zone := fun _ => false
  block_hash := fun b => b.head?

/-- Peers 1 and 2 connect and peer 1, the planner, answers with three ids from height 100. -/
def demo_inputs : List Input :=
  [.connect 1, .connect 2, .chain_response 1 ⟨100, [7, 8, 9]⟩]

/-- The state after `demo_inputs`: three cells, two assigned to peer 1 and one to peer 2. -/
def demo_state : DownloaderV11 :=
  match run 3 demo_env demo_inputs init with
  | .ok t => t
  | .error _ => init

/-- The state after peer 1 has disconnected from `demo_state`. -/
def demo_after_disconnect : DownloaderV11 :=
  match on_disconnect (advance_download 2 demo_env) demo_env 1 demo_state with
  | .ok t => t
  | .error _ => init

/-- What identifies a cell: its block id, its expected height and the source of the id. -/
def cell_id (dc : DownloadCell) : Hash × Height × Address :=
  (dc.bid, dc.expected_height, dc.bid_source)

/-- The cells handed to `add_block`, in order, as recorded in a trace. -/
def applied (trace : List Effect) : List DownloadCell :=
  trace.filterMap (fun e => match e with
    | .add_block dc _ _ => some dc
    | _ => none)

/-- The cells appended to the download queue by promotion, in order, as recorded in a trace. -/
def promoted (trace : List Effect) : List DownloadCell :=
  trace.filterMap (fun e => match e with
    | .promoted dc => some dc
    | _ => none)

/-- Every cell that was ever in the download queue, in queue order: those already handed to
`add_block` followed by those still queued. -/
def history (s : DownloaderV11) : List DownloadCell :=
  applied s.trace ++ s.m_download_chain

/-- How a cell may change while it stays in the queue: its identity is fixed, its status does
not move backwards and `protect_from_disconnect` is never reset. -/
def CellStep (a b : DownloadCell) : Prop :=
  cell_id b = cell_id a ∧ a.status.rank ≤ b.status.rank ∧
    (a.protect_from_disconnect = true → b.protect_from_disconnect = true)

/-- How the history of the queue may change: cells change by `CellStep`, new cells are appended
at the back and are the promoted ones, and the cells handed to `add_block` are PREPARED. -/
def Grows (s t : DownloaderV11) : Prop :=
  ∃ kept added extra, history t = kept ++ added ∧ List.Forall₂ CellStep (history s) kept ∧
    (promoted t.trace).map cell_id = (promoted s.trace).map cell_id ++ added.map cell_id ∧
    applied t.trace = applied s.trace ++ extra ∧ ∀ dc ∈ extra, dc.status = .PREPARED

/-- From `demo_state`: peer 1 delivers block 7, a worker prepares it. -/
def demo_ready_state : DownloaderV11 :=
  match run 3 demo_env [.objects_response 1 [⟨[7], []⟩], .worker_take, .worker_publish 0]
    demo_state with
  | .ok t => t
  | .error _ => init

/-- From `demo_ready_state`: the idle callback hands block 7 to `add_block`. -/
def demo_idle_state : DownloaderV11 :=
  match handle 3 demo_env (.idle 10) demo_ready_state with
  | .ok t => t
  | .error _ => init

/-- The expected heights of consecutive cells increase by exactly 1. -/
def Ascending (cells : List DownloadCell) : Prop :=
  List.Chain' (fun a b => b.expected_height = a.expected_height + 1) cells

/-- The height that follows the last cell of the queue, when there is one. -/
def next_height (cells : List DownloadCell) : Option Height :=
  cells.getLast?.map (fun dc => dc.expected_height + 1)

/-- The ids waiting in `m_chain` continue the queue: the first of them is expected at the height
after the last cell, and their heights stay within `uint32_t`. -/
def Linked (cells : List DownloadCell) (chain : List Hash) (start : Height) : Prop :=
  chain ≠ [] → (∀ h ∈ next_height cells, start = h) ∧ start + chain.length ≤ HEIGHT_T

/-- The condition on an accepted chain response under which the queue stays ascending: what its
skip loop leaves continues the queue. -/
def continues_queue (env : Env) (who : Peer) (req : ChainResponse) (s : DownloaderV11) : Prop :=
  Linked s.m_download_chain (store_chain env who req s).m_chain
    (store_chain env who req s).m_chain_start_height

/-- The steps that leave the ids and the identity of the queued cells alone. -/
def Quiet (s t : DownloaderV11) : Prop :=
  t.m_chain = s.m_chain ∧ t.m_chain_start_height = s.m_chain_start_height ∧
    t.chain_source = s.chain_source ∧
    List.Forall₂ CellStep s.m_download_chain t.m_download_chain

/-- The invariant behind the ascending order of the queue. -/
def Contiguous (s : DownloaderV11) : Prop :=
  Ascending s.m_download_chain ∧ Linked s.m_download_chain s.m_chain s.m_chain_start_height

instance (cells : List DownloadCell) (chain : List Hash) (start : Height) :
    Decidable (Linked cells chain start) :=
  inferInstanceAs (Decidable
    (chain ≠ [] → (∀ h ∈ next_height cells, start = h) ∧ start + chain.length ≤ HEIGHT_T))

instance (env : Env) (who : Peer) (req : ChainResponse) (s : DownloaderV11) :
    Decidable (continues_queue env who req s) :=
  inferInstanceAs (Decidable (Linked _ _ _))

/-- The state after one callback, or the state before it when the callback faults. -/
def after (fuel : Nat) (env : Env) (input : Input) (s : DownloaderV11) : DownloaderV11 :=
  match handle fuel env input s with
  | .ok t => t
  | .error _ => s

/-- Peer 1 connects and, as planner, answers with block 7 at height 100. -/
def demo_one_cell : DownloaderV11 :=
  after 3 demo_env (.chain_response 1 ⟨100, [7]⟩) (after 3 demo_env (.connect 1) init)

/-- From `demo_one_cell`: the next answer of peer 1 is block 8 at height 101. -/
def demo_contiguous_state : DownloaderV11 :=
  after 3 demo_env (.chain_response 1 ⟨101, [8]⟩) demo_one_cell

/-- From `demo_one_cell`: the next answer of peer 1 is block 8 at height 500. -/
def demo_gap_state : DownloaderV11 :=
  after 3 demo_env (.chain_response 1 ⟨500, [8]⟩) demo_one_cell

/-- For each call of `add_block` recorded in a trace: the expected height of the cell handed
over and the tip height just before the call. -/
def handed (trace : List Effect) : List (Height × Height) :=
  trace.filterMap (fun e => match e with
    | .add_block dc tip _ => some (dc.expected_height, tip)
    | _ => none)

/-- The environment `demo_env` with the tip of the blockchain at height 99. -/
def demo_env_99 : Env :=
  { demo_env with bc := { demo_bc with tip_height := 99 } }

/-- What `on_idle` returns from `demo_ready_state` when the tip is at height 99. -/
def demo_idle_99 : DownloaderV11 × Bool :=
  match on_idle 3 demo_env_99 10 demo_ready_state with
  | .ok r => r
  | .error _ => (init, false)

/-- No cell is DOWNLOADING, assigned to `who` and has the id `bid`: a block with this id from
`who` is a stray block (line 273). -/
def stray (who : Peer) (bid : Hash) (cells : List DownloadCell) : Prop :=
  ∀ dc ∈ cells, ¬ (dc.status = .DOWNLOADING ∧ dc.downloading_client = some who ∧ dc.bid = bid)

instance (who : Peer) (bid : Hash) (cells : List DownloadCell) : Decidable (stray who bid cells) :=
  inferInstanceAs (Decidable (∀ dc ∈ cells, _))

/-- The loop of `on_msg_notify_request_objects` over blocks that all match a cell: the state
after them; `none` when one of them does not parse or matches no cell, or a counter would
underflow. -/
def accept_all (env : Env) (who : Peer) : List RawBlock → DownloaderV11 → Option DownloaderV11
  | [], s => some s
  | rb :: rest, s =>
    match env.block_hash rb.block with
    | none => none
    | some bid =>
      match take_cell who bid rb s.m_download_chain with
      | none => none
      | some (cells, dc) =>
        if map_find s.m_good_clients who = none ∨ map_find s.m_good_clients who = some 0 ∨
            s.total_downloading_blocks = 0 then none
        else accept_all env who rest (receive env who rb cells dc s)

/-- An object response of peer 1 in `demo_state`: block 7, which peer 1 was asked for, then
block 8, which peer 2 was asked for, then block 9. -/
def demo_stray_blocks : List RawBlock :=
  [⟨[7], []⟩, ⟨[8], []⟩, ⟨[9], []⟩]

/-- The state after block 7 of `demo_stray_blocks` has been accepted. -/
def demo_stray_accepted : DownloaderV11 :=
  (accept_all demo_env 1 [⟨[7], []⟩] demo_state).getD init

/-- The state after the callback for `demo_stray_blocks` has returned. -/
def demo_stray_state : DownloaderV11 :=
  match on_msg_notify_request_objects 3 demo_env 1 demo_stray_blocks demo_state with
  | .ok t => t
  | .error _ => init

/-- Some registered peer claims a height of at least `h`. -/
def eligible (env : Env) (h : Height) (clients : List (Peer × Nat)) : Prop :=
  ∃ p ∈ map_keys clients, (env.sync_data p).current_height ≥ h

/-- No per-peer count exceeds the total, and the total respects the cap. -/
def CountBound (clients : List (Peer × Nat)) (total : Nat) : Prop :=
  total ≤ TOTAL_DOWNLOAD_BLOCKS ∧ ∀ e ∈ clients, e.2 ≤ total

/-- The promotion loop has nothing to do: no id is waiting or the window is full. -/
def PromotionDone (s : DownloaderV11) : Prop :=
  s.m_chain = [] ∨ TOTAL_DOWNLOAD_WINDOW ≤ s.m_download_chain.length

/-- The planner step has nothing to do. -/
def PlanDone (env : Env) (s : DownloaderV11) : Prop :=
  s.m_chain_client.isSome ∨ s.m_chain ≠ [] ∨
    (lagging_clients env s = [] ∧
      ∀ best, (sorted_clients env s).getLast? = some best →
        (env.sync_data best).current_height ≤ env.bc.tip_height + s.m_download_chain.length)

/-- A state on which `advance_download` has nothing left to do. -/
def Settled (env : Env) (s : DownloaderV11) : Prop :=
  PromotionDone s ∧ PlanDone env s ∧ assign env s = s ∧
    ¬ (bad_relatively_slow s ∨ bad_timeout env s)

/-- The cap on the requests in flight is respected. -/
def Capped (s : DownloaderV11) : Prop :=
  s.total_downloading_blocks ≤ TOTAL_DOWNLOAD_BLOCKS

/-- The environment `demo_env` while a bulk import is running (`m_block_chain_reader1`). -/
def demo_env_importing : Env :=
  { demo_env with reader1 := true }

/-- Peer 1 has connected during a bulk import: it is registered and nothing else has happened. -/
def demo_waiting_state : DownloaderV11 :=
  after 3 demo_env_importing (.connect 1) init

/-- What `advance_download` makes of `demo_waiting_state` once the import is over. -/
def demo_planned_state : DownloaderV11 :=
  match advance_download 3 demo_env demo_waiting_state with
  | .ok t => t
  | .error _ => init

/-- Line 143: the skip loop passes over `bid` when the blockchain has it or a cell of
`m_download_chain` carries it. -/
def known (env : Env) (s : DownloaderV11) (bid : Hash) : Prop :=
  env.bc.has_block bid ∨ bid ∈ s.m_download_chain.map (fun dc => dc.bid)

instance (env : Env) (s : DownloaderV11) (bid : Hash) : Decidable (known env s bid) :=
  inferInstanceAs (Decidable (_ ∨ _))

/-- Peer 1 has connected and is the planner. -/
def demo_planner_state : DownloaderV11 :=
  after 3 demo_env (.connect 1) init

/-- A response at the top of the `uint32` range whose only id is the genesis block. -/
def demo_wrap_response : ChainResponse :=
  ⟨4294967295, [1]⟩

/-- The planner has answered with the ids 7 and `Hash{}`, both of which are now scheduled. -/
def demo_null_state : DownloaderV11 :=
  after 3 demo_env (.chain_response 1 ⟨100, [7, 0]⟩) demo_planner_state

/-- The planner repeats the ids that are already scheduled. -/
def demo_null_response : ChainResponse :=
  ⟨100, [7, 0]⟩

/-- The pieces of one call of `advance_download` under the environment `env`, the nested calls
that come back through `disconnect` included, each with the condition under which it runs. -/
inductive Piece (env : Env) : DownloaderV11 → DownloaderV11 → Prop where
  | promote (s : DownloaderV11) : ¬ importing env → Piece env s (promote s)
  | lagging (who : Peer) (rest : List Peer) (s : DownloaderV11) :
      s.m_chain_client = none → s.m_chain = [] → lagging_clients env s = who :: rest →
      Piece env s
        (log (log s [.delay_connection_attempt (env.get_address who) env.local_time])
          [.disconnect who])
  | elect (best : Peer) (s : DownloaderV11) :
      s.m_chain_client = none → s.m_chain = [] → lagging_clients env s = [] →
      (sorted_clients env s).getLast? = some best →
      ¬ (env.sync_data best).current_height ≤ env.bc.tip_height + s.m_download_chain.length →
      Piece env s (elect env best s)
  | assign (s : DownloaderV11) : ¬ importing env → Piece env s (assign env s)
  | slacker (who : Peer) (s : DownloaderV11) :
      front_client s = some who → (bad_relatively_slow s ∨ bad_timeout env s) →
      Piece env s (log (protect env who s) [.disconnect who])
  | scrub (who : Peer) (s : DownloaderV11) :
      env.is_incoming who = false →
      ¬ s.total_downloading_blocks < map_count s.m_good_clients who →
      Piece env s (scrub who s)

/-- The environment of the demonstration with the tip at height 600, so that a peer at height
500 lags. -/
def demo_env_600 : Env :=
  { demo_env with bc := { demo_bc with tip_height := 600 } }

/-- A sequence of pieces of `advance_download` under one environment. -/
abbrev Pieces (env : Env) := Relation.ReflTransGen (Piece env)

/-- Whether an entry of the trace belongs to the election of a planner or to a follow-up. -/
def Effect.is_chain_request : Effect → Bool
  | .send_request_chain _ _ => true
  | .chain_timer_once => true
  | _ => false

/-- No registered peer advertises more than the blocks that are applied or scheduled. -/
def Low (env : Env) (s : DownloaderV11) : Prop :=
  ∀ p ∈ map_keys s.m_good_clients,
    (env.sync_data p).current_height ≤ env.bc.tip_height + s.m_download_chain.length

/-- From `s` to `t` nothing was asked of a planner: no chain request was sent, the chain timer
was not armed and the planner slot was not filled. -/
def NoPlan (s t : DownloaderV11) : Prop :=
  (∃ es, t.trace = s.trace ++ es ∧ ∀ e ∈ es, e.is_chain_request = false) ∧
    (∀ p, t.m_chain_client = some p → s.m_chain_client = some p) ∧
    (t.m_chain_timer = true → s.m_chain_timer = true)

/-- The number of iterations of the drain loop: the PREPARED cells at the head of the queue, at
most `budget + 1` of them. -/
def drain_count (cells : List DownloadCell) (budget : Nat) : Nat :=
  min (budget + 1) (cells.takeWhile (fun dc => decide (dc.status = .PREPARED))).length

/-- A registry entry whose peer advertises at least the height `h` (line 383). -/
def candidate (env : Env) (h : Height) (e : Peer × Nat) : Prop :=
  (env.sync_data e.1).current_height ≥ h

instance (env : Env) (h : Height) (e : Peer × Nat) : Decidable (candidate env h e) :=
  inferInstanceAs (Decidable ((env.sync_data e.1).current_height ≥ h))

/-- The positions of the assignment loop (lines 369-408) that starts with the queue `cells0`, the
registry `clients0` and the counter `total0`: the cells still to be visited, with the registry
and the counter at that moment. -/
inductive Visits (env : Env) (ring : List Peer) (cells0 : List DownloadCell)
    (clients0 : List (Peer × Nat)) (total0 : Nat) :
    List DownloadCell → List (Peer × Nat) → Nat → Prop where
  | start : Visits env ring cells0 clients0 total0 cells0 clients0 total0
  | pass (dc : DownloadCell) (rest : List DownloadCell) (clients : List (Peer × Nat))
      (total : Nat) :
      Visits env ring cells0 clients0 total0 (dc :: rest) clients total →
      (dc.status ≠ .DOWNLOADING ∨ dc.downloading_client.isSome) →
      Visits env ring cells0 clients0 total0 rest clients total
  | idle (dc : DownloadCell) (rest : List DownloadCell) (clients : List (Peer × Nat))
      (total : Nat) :
      Visits env ring cells0 clients0 total0 (dc :: rest) clients total →
      ¬ (dc.status ≠ .DOWNLOADING ∨ dc.downloading_client.isSome) →
      ¬ total ≥ TOTAL_DOWNLOAD_BLOCKS →
      choose_client env ring dc.expected_height clients = none →
      Visits env ring cells0 clients0 total0 rest clients total
  | take (dc : DownloadCell) (rest : List DownloadCell) (clients : List (Peer × Nat))
      (total : Nat) (c : Peer) :
      Visits env ring cells0 clients0 total0 (dc :: rest) clients total →
      ¬ (dc.status ≠ .DOWNLOADING ∨ dc.downloading_client.isSome) →
      ¬ total ≥ TOTAL_DOWNLOAD_BLOCKS →
      choose_client env ring dc.expected_height clients = some c →
      Visits env ring cells0 clients0 total0 rest (map_add_one clients c) (total + 1)

/-- Every peer advertises height 5000. -/
def demo_env_high : Env :=
  { demo_env with sync_data := fun _ => ⟨77, 5000⟩ }

/-- What the loop of lines 377-388 has found among the entries `seen`: nothing, when none of
them is a candidate, or the first of the candidates with the least load per speed. -/
def Chosen (env : Env) (ring : List Peer) (h : Height) (seen : List (Peer × Nat))
    (ready_client : Option Peer) (ready_counter ready_speed : Nat) : Prop :=
  (ready_client = none ∧ ready_counter = SIZE_MAX ∧ ready_speed = 1 ∧
      ∀ q ∈ seen, ¬ candidate env h q) ∨
    ∃ c n pre post, ready_client = some c ∧ ready_counter = n ∧ ready_speed = speed_of ring c ∧
      seen = pre ++ (c, n) :: post ∧ candidate env h (c, n) ∧
      (∀ q ∈ seen, candidate env h q → n * speed_of ring q.1 ≤ q.2 * speed_of ring c) ∧
      (∀ q ∈ pre, candidate env h q → n * speed_of ring q.1 < q.2 * speed_of ring c)

/-- The environment of the demonstration 100 seconds after the requests were sent. -/
def demo_env_late : Env :=
  { demo_env with now := 100000000000 }

/-- The state after a timed sync that finds the request of the head cell 100 seconds old. -/
def demo_struck_state : DownloaderV11 :=
  after 3 demo_env_late .timed_sync demo_state

/-- The test of lines 335-338: the queue is not empty and its head cell is DOWNLOADING, assigned
and protected, with a request older than `SYNC_TIMEOUT` in whole seconds. -/
def overdue (env : Env) (s : DownloaderV11) : Bool :=
  match s.m_download_chain with
  | [] => false
  | front :: _ =>
    decide (front.status = .DOWNLOADING) && front.downloading_client.isSome &&
      front.protect_from_disconnect &&
      decide (duration_seconds (env.now - front.request_time) > (env.SYNC_TIMEOUT : Int))

/-- The head cell of the queue is protected. -/
def HeadProtected (s : DownloaderV11) : Prop :=
  ∃ front rest, s.m_download_chain = front :: rest ∧ front.protect_from_disconnect = true

/-- The environment of `demo_env_late` with every peer advertising height 3. -/
def demo_env_quiet : Env :=
  { demo_env_late with sync_data := fun _ => ⟨77, 3⟩ }

/-- After the strike of `demo_struck_state` the new planner, peer 2, answers with the genesis id
alone while no peer advertises more than is scheduled: no planner is left. -/
def demo_orphan_state : DownloaderV11 :=
  after 3 demo_env_quiet (.chain_response 2 ⟨0, [1]⟩) demo_struck_state

/-- The environment of the demonstration 200 seconds after the start, with the tip at height 600. -/
def demo_env_ahead : Env :=
  { demo_env with now := 200000000000, bc := { demo_bc with tip_height := 600 } }

/-- The states that callbacks produce when none of them runs while a bulk import is active. -/
inductive ReachableAwake (incoming : Peer → Bool) : DownloaderV11 → Prop where
  | init : ReachableAwake incoming init
  | step (fuel : Nat) (env : Env) (input : Input) (s t : DownloaderV11) :
      ReachableAwake incoming s → env.is_incoming = incoming → ¬ importing env →
      handle fuel env input s = .ok t → ReachableAwake incoming t

/-- The environment `demo_env_high` while a bulk import is running. -/
def demo_env_high_importing : Env :=
  { demo_env_high with reader1 := true }

/-- The state of the flood after `k` rounds: peer 1 is the only registered peer and the planner,
nothing is in flight, the ring holds `k` entries and the queue holds the `k` cells received so
far, whose ids are below `k + 10`. -/
def Flooding (k : Nat) (s : DownloaderV11) : Prop :=
  s.m_good_clients = [(1, 0)] ∧ s.total_downloading_blocks = 0 ∧ s.m_chain_client = some 1 ∧
    s.m_chain = [] ∧ s.m_who_downloaded_block = List.replicate k 1 ∧
    s.m_download_chain.length = k ∧
    ∀ dc ∈ s.m_download_chain, dc.status ≠ .DOWNLOADING ∧ dc.bid < k + 10

/-- The state of the flood in round `k`, after the block `k + 10` was requested from peer 1. -/
def Requested (k : Nat) (s : DownloaderV11) : Prop :=
  s.m_good_clients = [(1, 1)] ∧ s.total_downloading_blocks = 1 ∧ s.m_chain_client = some 1 ∧
    s.m_chain = [] ∧ s.m_who_downloaded_block = List.replicate k 1 ∧
    ∃ pre dc, s.m_download_chain = pre ++ [dc] ∧ pre.length = k ∧
      (∀ c ∈ pre, c.status ≠ .DOWNLOADING ∧ c.bid < k + 10) ∧
      dc.status = .DOWNLOADING ∧ dc.downloading_client = some 1 ∧ dc.bid = k + 10

/-- The planner, if there is one, is registered and no id is waiting for promotion. -/
def PlannerOk (s : DownloaderV11) : Prop :=
  ∀ p, s.m_chain_client = some p → p ∈ map_keys s.m_good_clients ∧ s.m_chain = []

/-- The ids of the queued cells followed by the ids that wait for promotion. -/
def scheduled_ids (s : DownloaderV11) : List Hash :=
  s.m_download_chain.map (fun dc => dc.bid) ++ s.m_chain

/-- The condition on an accepted chain response under which the ids stay distinct: the ids that
its skip loop keeps are pairwise distinct and none of them is the id of a queued cell. -/
def fresh_tail (env : Env) (who : Peer) (req : ChainResponse) (s : DownloaderV11) : Prop :=
  (scheduled_ids (store_chain env who req s)).Nodup

instance (env : Env) (who : Peer) (req : ChainResponse) (s : DownloaderV11) :
    Decidable (fresh_tail env who req s) :=
  inferInstanceAs (Decidable (List.Nodup _))

/-- The planner, peer 1, answers with the id 7 twice. -/
def demo_twin_state : DownloaderV11 :=
  after 3 demo_env (.chain_response 1 ⟨100, [7, 7]⟩) demo_planner_state

/-- The condition of lines 409-417 spelled out: the queue is not empty, its head cell is
DOWNLOADING, assigned and not protected, and either the request is more than `2 * SYNC_TIMEOUT`
whole seconds old or the queue is full while requests could still be sent and more than one peer
is registered. -/
def slacker_due (env : Env) (s : DownloaderV11) : Prop :=
  ∃ front rest who, s.m_download_chain = front :: rest ∧ front.status = .DOWNLOADING ∧
    front.downloading_client = some who ∧ front.protect_from_disconnect = false ∧
    (duration_seconds (env.now - front.request_time) > 2 * (env.SYNC_TIMEOUT : Int) ∨
      (s.total_downloading_blocks < 400 ∧ s.m_download_chain.length ≥ 2000 ∧
        s.m_good_clients.length > 1))

/-- The number of ids that the promotion loop moves: all of `m_chain`, or as many as fit into the
window of 2000 cells. -/
def promotion_count (s : DownloaderV11) : Nat :=
  min s.m_chain.length (2000 - s.m_download_chain.length)

/-- The state in which `advance_download` runs after the planner has answered with the ids 7 and
8 from height `2^32 - 1`. -/
def demo_edge_accepted : DownloaderV11 :=
  release_planner (store_chain demo_env 1 ⟨4294967295, [7, 8]⟩ demo_planner_state)

/-- The state after that chain response. -/
def demo_edge_state : DownloaderV11 :=
  after 3 demo_env (.chain_response 1 ⟨4294967295, [7, 8]⟩) demo_planner_state

/-- The largest in-flight count of the registry, the `max(m_good_clients)` of the fair-spread
property; 0 for the empty registry. -/
def count_max (m : List (Peer × Nat)) : Nat :=
  (m.map Prod.snd).foldr max 0

/-- The least in-flight count of the registry, the `min(m_good_clients)` of the fair-spread
property; 0 for the empty registry. -/
def count_min (m : List (Peer × Nat)) : Nat :=
  match m.map Prod.snd with
  | [] => 0
  | v :: vs => vs.foldr min v

/-- Any two in-flight counts of the registry differ by at most 1. -/
def Spread (m : List (Peer × Nat)) : Prop :=
  ∀ a ∈ m, ∀ b ∈ m, a.2 ≤ b.2 + 1

/-- Peers 1 and 2 are registered and the planner has answered with the blocks 7, 8 and 9 from
height 2000 on, which no peer of `demo_env` has reached, so that the three cells are
unassigned. -/
def demo_pair_state : DownloaderV11 :=
  after 3 demo_env (.chain_response 1 ⟨2000, [7, 8, 9]⟩)
    (after 3 demo_env (.connect 2) demo_planner_state)

/-- The environment of the demonstration 40.9 seconds after the requests were sent. -/
def demo_env_tardy : Env :=
  { demo_env with now := 40900000000 }

/-! ## Properties of the model -/

theorem ok_pure {s t : DownloaderV11} (h : (pure s : M DownloaderV11) = .ok t) : s = t := by
  cases h; rfl

theorem on_disconnect_steps {incoming : Peer → Bool} {env : Env} (hinc : env.is_incoming = incoming)
    {ad : DownloaderV11 → M DownloaderV11}
    (had : ∀ s t, ad s = .ok t → InnerSteps incoming s t) {who : Peer} {s t : DownloaderV11}
    (h : on_disconnect ad env who s = .ok t) : InnerSteps incoming s t := by
  unfold on_disconnect at h
  split at h
  · cases h; exact .refl
  · split at h
    · cases h
    · rename_i h1 h2
      refine .trans (.single (.scrub who s ?_ h2)) (had _ _ h)
      rw [← hinc]; simpa using h1

theorem disconnect_steps {incoming : Peer → Bool} {env : Env} (hinc : env.is_incoming = incoming)
    {ad : DownloaderV11 → M DownloaderV11}
    (had : ∀ s t, ad s = .ok t → InnerSteps incoming s t) {who : Peer} {s t : DownloaderV11}
    (h : disconnect ad env who s = .ok t) : InnerSteps incoming s t := by
  unfold disconnect at h
  exact .trans (.single (.note s _ (by simp [Effect.is_mark]))) (on_disconnect_steps hinc had h)

theorem advance_chain_steps {incoming : Peer → Bool} {env : Env}
    {disc : Peer → DownloaderV11 → M DownloaderV11}
    (hdisc : ∀ who s t, disc who s = .ok t → InnerSteps incoming s t) {s t : DownloaderV11}
    (h : advance_chain disc env s = .ok t) : InnerSteps incoming s t := by
  unfold advance_chain at h
  split at h
  · cases h; exact .refl
  · rename_i h0
    simp only [not_or, Option.isSome_iff_ne_none, ne_eq, not_not] at h0
    split at h
    · exact .trans (.single (.note s _ (by simp [Effect.is_mark]))) (hdisc _ _ _ h)
    · split at h
      · cases h; exact .refl
      · split at h
        · cases h; exact .refl
        · cases h
          rename_i hl _ best hb hh
          exact .single (.elect env best s h0.1 h0.2 hl hb hh)

theorem advance_download_steps {incoming : Peer → Bool} :
    ∀ (fuel : Nat) (env : Env), env.is_incoming = incoming → ∀ (s t : DownloaderV11),
      advance_download fuel env s = .ok t → InnerSteps incoming s t := by
  intro fuel
  induction fuel with
  | zero => intro env _ s t h; cases h
  | succ n ih =>
    intro env hinc s t h
    rw [advance_download] at h
    split at h
    · cases h; exact .refl
    · rename_i himp
      simp only [bind, Except.bind] at h
      split at h
      · cases h
      · rename_i s2 h2
        have st1 : InnerSteps incoming s (promote s) := .single (.promote env s himp)
        have st2 := advance_chain_steps (fun who a b hab => disconnect_steps hinc (ih env hinc) hab) h2
        have st3 : InnerSteps incoming s2 (assign env s2) := .single (.assign env s2)
        refine .trans st1 (.trans st2 (.trans st3 ?_))
        split at h
        · rename_i hbad
          split at h
          · cases h; exact .refl
          · rename_i who hf
            exact .trans (.single (.protect env who _ hf hbad)) (disconnect_steps hinc (ih env hinc) h)
        · cases h; exact .refl

theorem inner_to_steps {chain_ok : Env → Peer → ChainResponse → DownloaderV11 → Prop}
    {incoming : Peer → Bool} {s t : DownloaderV11} (h : InnerSteps incoming s t) :
    Steps chain_ok incoming s t :=
  Relation.ReflTransGen.mono (fun a b hab => Prim.inner a b hab) h

theorem objects_loop_steps {chain_ok : Env → Peer → ChainResponse → DownloaderV11 → Prop}
    {incoming : Peer → Bool} {env : Env}
    {disc : Peer → DownloaderV11 → M DownloaderV11}
    (hdisc : ∀ who s t, disc who s = .ok t → InnerSteps incoming s t) (who : Peer) :
    ∀ (blocks : List RawBlock) (s t : DownloaderV11),
      objects_loop disc env who blocks s = .ok t → Steps chain_ok incoming s t := by
  intro blocks
  induction blocks with
  | nil => intro s t h; cases h; exact .refl
  | cons rb rest ih =>
    intro s t h
    rw [objects_loop] at h
    split at h
    · exact inner_to_steps (hdisc _ _ _ h)
    · rename_i bid hbid
      split at h
      · exact inner_to_steps (hdisc _ _ _ h)
      · rename_i cells dc htake
        split at h
        · cases h
        · rename_i hg
          simp only [not_or] at hg
          exact .trans (.single (.receive env who rb bid cells dc s hbid htake hg.1 hg.2.1 hg.2.2))
            (ih _ _ h)

theorem handle_steps {chain_ok : Env → Peer → ChainResponse → DownloaderV11 → Prop}
    {incoming : Peer → Bool} {fuel : Nat} {env : Env} {input : Input} {s t : DownloaderV11}
    (hinc : env.is_incoming = incoming)
    (hok : ∀ who req, input = .chain_response who req → accepts who s → chain_ok env who req s)
    (h : handle fuel env input s = .ok t) : Steps chain_ok incoming s t := by
  have had := fun e (he : e.is_incoming = incoming) => advance_download_steps fuel e he
  cases input with
  | connect who =>
    simp only [handle, on_connect] at h
    split at h
    · cases h; exact .refl
    · rename_i h1
      split at h
      · rename_i h2
        refine .trans (.single (.register env who s ?_ h2)) (inner_to_steps (had env hinc _ _ h))
        rw [← hinc]; simpa using h1
      · cases h; exact .refl
  | disconnected who =>
    exact inner_to_steps (on_disconnect_steps hinc (had env hinc) h)
  | chain_response who req =>
    simp only [handle, on_msg_notify_request_chain] at h
    split at h
    · cases h; exact .refl
    · rename_i h1
      simp only [not_or, ne_eq, not_not] at h1
      have hc := hok who req rfl ⟨h1.1, h1.2⟩
      split at h
      · rename_i hw
        cases h
        exact .single (.request_more env who req s h1.1 h1.2 hc hw)
      · rename_i hw
        exact .trans (.single (.accept_chain env who req s h1.1 h1.2 hc hw))
          (inner_to_steps (had env hinc _ _ h))
  | objects_response who blocks =>
    simp only [handle, on_msg_notify_request_objects, bind, Except.bind] at h
    split at h
    · cases h
    · rename_i s1 h1
      exact .trans (objects_loop_steps
          (fun w a b hab => disconnect_steps hinc (had env hinc) hab) who blocks s s1 h1)
        (inner_to_steps (had env hinc _ _ h))
  | timed_sync => exact inner_to_steps (had env hinc _ _ h)
  | idle budget =>
    simp only [handle, on_idle] at h
    have c1 : Steps chain_ok incoming s (drained env budget (collect s)) :=
      .trans (.single (.collect s)) (.single (.drained env budget _))
    split at h
    · simp only [bind, Except.bind, Except.map] at h
      split at h
      · cases h
      · rename_i v hv
        split at hv
        · cases hv
        · rename_i s3 h3
          cases hv
          cases h
          refine .trans c1 (.trans (inner_to_steps (.single (.note _ _ (by simp [Effect.is_mark]))))
            (.trans (inner_to_steps (had _ (by exact hinc) _ _ h3)) ?_))
          unfold sync_at_tip
          split
          · split
            · exact inner_to_steps (.single (.note _ _ (by simp [Effect.is_mark])))
            · exact .refl
          · exact .refl
    · simp only [Except.map, pure, Except.pure] at h
      cases h
      exact c1
  | chain_timer =>
    simp only [handle, on_chain_timer] at h
    split at h
    · exact .trans (.single (.chain_timer_fired s))
        (inner_to_steps (disconnect_steps hinc (had env hinc) h))
    · cases h; exact .single (.chain_timer_fired s)
  | download_timer =>
    simp only [handle, on_download_timer] at h
    have n1 : Steps chain_ok incoming s (log s [Effect.download_timer_once]) :=
      inner_to_steps (.single (.note _ _ (by simp [Effect.is_mark])))
    split at h
    · cases h; exact n1
    · split at h
      · cases h; exact n1
      · split at h
        · exact .trans n1 (.trans (inner_to_steps (.single (.note _ _ (by simp [Effect.is_mark]))))
            (inner_to_steps (disconnect_steps hinc (had env hinc) h)))
        · cases h; exact n1
  | worker_take => cases h; exact .single (.worker_take s)
  | worker_publish i => cases h; exact .single (.worker_publish i s)

theorem reachable_steps {incoming : Peer → Bool} {s : DownloaderV11} (h : Reachable incoming s) :
    Steps (fun _ _ _ _ => True) incoming init s := by
  induction h with
  | init => exact .refl
  | step fuel env input s t _ hinc hh ih =>
    exact .trans ih (handle_steps hinc (fun _ _ _ _ => trivial) hh)

theorem reachableIf_steps {chain_ok : Env → Peer → ChainResponse → DownloaderV11 → Prop}
    {incoming : Peer → Bool} {s : DownloaderV11} (h : ReachableIf chain_ok incoming s) :
    Steps chain_ok incoming init s := by
  induction h with
  | init => exact .refl
  | step fuel env input s t _ hinc hok hh ih =>
    exact .trans ih (handle_steps hinc hok hh)

/-! ### The registry as a finite map -/

theorem mem_map_keys_iff (m : List (Peer × Nat)) (p : Peer) :
    p ∈ map_keys m ↔ map_find m p ≠ none := by
  induction m with
  | nil => simp [map_keys, map_find]
  | cons e rest ih =>
    obtain ⟨k, v⟩ := e
    by_cases hk : k = p
    · simp [map_keys, map_find, hk]
    · have hk2 : ¬ p = k := fun h => hk h.symm
      simp only [map_keys, List.map_cons, List.mem_cons, hk2, false_or, map_find, hk, if_false]
      exact ih

theorem map_find_erase (m : List (Peer × Nat)) (p q : Peer) :
    map_find (map_erase m p) q = if q = p then none else map_find m q := by
  induction m with
  | nil => simp [map_erase, map_find]
  | cons e rest ih =>
    obtain ⟨k, v⟩ := e
    unfold map_erase at ih ⊢
    by_cases hk : k = p
    · subst hk
      simp only [List.filter_cons, ne_eq, not_true_eq_false, decide_False, Bool.false_eq_true,
        if_false, ih, map_find]
      by_cases hq : q = k
      · simp [hq]
      · have : ¬ k = q := fun h => hq h.symm
        simp [hq, this]
    · simp only [List.filter_cons, ne_eq, hk, not_false_eq_true, decide_True, if_true, map_find, ih]
      by_cases hkq : k = q
      · subst hkq; simp [hk]
      · simp [hkq]

theorem map_keys_erase (m : List (Peer × Nat)) (p : Peer) :
    map_keys (map_erase m p) = (map_keys m).filter (fun k => decide (k ≠ p)) := by
  induction m with
  | nil => rfl
  | cons e rest ih =>
    unfold map_erase map_keys at ih ⊢
    by_cases hk : e.1 = p
    · simpa [List.filter_cons, hk] using ih
    · simpa [List.filter_cons, hk] using ih

theorem map_keys_update (m : List (Peer × Nat)) (p : Peer) (g : Nat → Nat) :
    map_keys (map_update m p g) = map_keys m := by
  induction m with
  | nil => rfl
  | cons e rest ih =>
    obtain ⟨k, v⟩ := e
    unfold map_keys at ih ⊢
    rw [map_update]
    split <;> simp [ih]

theorem map_find_update (m : List (Peer × Nat)) (p q : Peer) (g : Nat → Nat) :
    map_find (map_update m p g) q =
      if q = p then (map_find m p).map g else map_find m q := by
  induction m with
  | nil => simp [map_find, map_update]
  | cons e rest ih =>
    obtain ⟨k, v⟩ := e
    rw [map_update]
    by_cases hk : k = p
    · subst hk
      by_cases hq : q = k
      · subst hq; simp [map_find]
      · have : ¬ k = q := fun h => hq h.symm
        simp [map_find, hq, this, ih]
    · by_cases hq : q = p
      · subst hq
        simp [map_find, hk, ih]
      · by_cases hkq : k = q
        · simp [map_find, hk, hq, hkq]
        · simp [map_find, hk, hq, hkq, ih]

theorem map_keys_insert_mem (m : List (Peer × Nat)) (p : Peer) (v : Nat) (q : Peer) :
    q ∈ map_keys (map_insert m p v) ↔ q = p ∨ q ∈ map_keys m := by
  induction m with
  | nil => simp [map_insert, map_keys]
  | cons e rest ih =>
    obtain ⟨k, w⟩ := e
    unfold map_keys at ih ⊢
    rw [map_insert]
    split
    · simp
    · split
      · rename_i h; subst h; simp
      · simp only [List.map_cons, List.mem_cons, ih]; tauto

theorem map_insert_sorted (m : List (Peer × Nat)) (p : Peer) (v : Nat)
    (h : (map_keys m).Sorted (· < ·)) : (map_keys (map_insert m p v)).Sorted (· < ·) := by
  induction m with
  | nil => simp [map_insert, map_keys]
  | cons e rest ih =>
    obtain ⟨k, w⟩ := e
    rw [map_insert]
    split
    · rename_i hlt
      unfold map_keys at h ⊢
      simp only [List.map_cons, List.sorted_cons] at h ⊢
      refine ⟨?_, h⟩
      intro b hb
      rcases List.mem_cons.mp hb with rfl | hb
      · exact hlt
      · exact lt_trans hlt (h.1 b hb)
    · split
      · exact h
      · rename_i h1 h2
        have hlt : k < p := lt_of_le_of_ne (not_lt.mp h1) (fun hh => h2 hh.symm)
        have h' : (map_keys rest).Sorted (· < ·) := by
          unfold map_keys at h ⊢; exact (List.sorted_cons.mp h).2
        have hk : ∀ b ∈ map_keys rest, k < b := by
          unfold map_keys at h ⊢; exact (List.sorted_cons.mp h).1
        show List.Sorted (· < ·) (k :: map_keys (map_insert rest p v))
        refine List.sorted_cons.mpr ⟨?_, ih h'⟩
        intro b hb
        rcases (map_keys_insert_mem rest p v b).mp hb with rfl | hb
        · exact hlt
        · exact hk b hb

theorem map_find_insert (m : List (Peer × Nat)) (p : Peer) (v : Nat) (q : Peer)
    (h : (map_keys m).Sorted (· < ·)) :
    map_find (map_insert m p v) q =
      if q = p then some ((map_find m p).getD v) else map_find m q := by
  induction m with
  | nil =>
    by_cases hq : q = p
    · simp [map_insert, map_find, hq]
    · have : ¬ p = q := fun h => hq h.symm
      simp [map_insert, map_find, hq, this]
  | cons e rest ih =>
    obtain ⟨k, w⟩ := e
    have h' : (map_keys rest).Sorted (· < ·) := by
      unfold map_keys at h ⊢; exact (List.sorted_cons.mp h).2
    have hk : ∀ b ∈ map_keys rest, k < b := by
      unfold map_keys at h ⊢; exact (List.sorted_cons.mp h).1
    rw [map_insert]
    split
    · rename_i hlt
      have hne : ¬ k = p := fun hh => absurd hlt (by rw [hh]; exact lt_irrefl _)
      have hnone : map_find rest p = none := by
        by_contra hc
        have := hk p ((mem_map_keys_iff rest p).mpr hc)
        exact absurd (lt_trans hlt this) (lt_irrefl _)
      by_cases hq : q = p
      · subst hq; simp [map_find, hne, hnone]
      · have : ¬ p = q := fun h => hq h.symm
        simp [map_find, hq, this]
    · split
      · rename_i h1 h2
        subst h2
        by_cases hq : q = p
        · subst hq; simp [map_find]
        · simp [map_find, hq]
      · rename_i h1 h2
        have hne : ¬ k = p := fun hh => h2 hh.symm
        by_cases hq : q = p
        · subst hq; simp [map_find, hne, ih h']
        · by_cases hkq : k = q
          · simp [map_find, hkq, hq]
          · simp [map_find, hkq, hq, ih h']

theorem assigned_to_keys (p : Peer) (cells : List DownloadCell) :
    assigned_to p cells = (cells.map owner_key).countP (fun k => decide (k.1 = some p)) := by
  unfold assigned_to
  rw [List.countP_map]
  rfl

theorem assigned_keys (cells : List DownloadCell) :
    assigned cells = (cells.map owner_key).countP (fun k => k.1.isSome) := by
  unfold assigned
  rw [List.countP_map]
  rfl

theorem assigned_to_append (p : Peer) (a b : List DownloadCell) :
    assigned_to p (a ++ b) = assigned_to p a + assigned_to p b := by
  unfold assigned_to; exact List.countP_append _ _ _

theorem assigned_append (a b : List DownloadCell) :
    assigned (a ++ b) = assigned a + assigned b := by
  unfold assigned; exact List.countP_append _ _ _

theorem assigned_to_unassigned (p : Peer) (cells : List DownloadCell)
    (h : ∀ dc ∈ cells, dc.downloading_client = none) : assigned_to p cells = 0 := by
  unfold assigned_to
  rw [List.countP_eq_zero]
  intro dc hdc
  simp [h dc hdc]

theorem assigned_unassigned (cells : List DownloadCell)
    (h : ∀ dc ∈ cells, dc.downloading_client = none) : assigned cells = 0 := by
  unfold assigned
  rw [List.countP_eq_zero]
  intro dc hdc
  simp [h dc hdc]

/-- The invariant looks at the cells only through their owner and whether they are DOWNLOADING. -/
theorem Inv.congr {incoming : Peer → Bool} {s t : DownloaderV11}
    (hg : t.m_good_clients = s.m_good_clients)
    (ht : t.total_downloading_blocks = s.total_downloading_blocks)
    (hr : t.m_who_downloaded_block = s.m_who_downloaded_block)
    (hc : t.m_download_chain.map owner_key = s.m_download_chain.map owner_key)
    (h : Inv incoming s) : Inv incoming t := by
  refine ⟨?_, ?_, ?_, ?_, ?_, ?_⟩
  · rw [hg]; exact h.sorted
  · intro p; rw [hg, assigned_to_keys, hc, ← assigned_to_keys]; exact h.counts p
  · rw [ht, assigned_keys, hc, ← assigned_keys]; exact h.total
  · intro dc hdc p hp
    have hm : owner_key dc ∈ s.m_download_chain.map owner_key := by
      rw [← hc]; exact List.mem_map_of_mem _ hdc
    obtain ⟨dc0, hdc0, hk⟩ := List.mem_map.mp hm
    have h1 : dc0.downloading_client = dc.downloading_client := congrArg Prod.fst hk
    have h2 : decide (dc0.status = .DOWNLOADING) = decide (dc.status = .DOWNLOADING) :=
      congrArg Prod.snd hk
    have := h.owner dc0 hdc0 p (h1.trans hp)
    rw [hg]
    refine ⟨?_, this.2⟩
    have h3 := this.1
    simp only [h3, decide_True] at h2
    exact of_decide_eq_true h2.symm
  · rw [hg]; exact h.outgoing
  · rw [hg, hr]; exact h.ring

theorem inv_init (incoming : Peer → Bool) : Inv incoming init := by
  refine ⟨?_, ?_, ?_, ?_, ?_, ?_⟩ <;>
    simp [Jetcash.init, map_keys, map_count, map_find, assigned_to, assigned]

theorem owner_key_protect (who : Peer) (dc : DownloadCell) :
    owner_key (protect_cell who dc) = owner_key dc := by
  unfold protect_cell; split <;> rfl

theorem mark_prepared_keys (bid : Hash) (pb : PreparedBlock) (cells : List DownloadCell) :
    (mark_prepared bid pb cells).map owner_key = cells.map owner_key := by
  induction cells with
  | nil => rfl
  | cons dc rest ih =>
    rw [mark_prepared]
    split
    · rename_i h
      simp [owner_key, h.1]
    · simp [ih]

theorem collect_prepared_keys (prepared : List (Hash × PreparedBlock)) (cells : List DownloadCell) :
    (collect_prepared prepared cells).map owner_key = cells.map owner_key := by
  unfold collect_prepared
  induction prepared generalizing cells with
  | nil => rfl
  | cons pb rest ih => rw [List.foldl_cons, ih, mark_prepared_keys]

theorem promote_loop_spec (source : Address) (chain : List Hash) (cells : List DownloadCell)
    (start : Height) :
    (promote_loop source chain cells start).1 =
        cells ++ (promote_loop source chain cells start).2.2.2 ∧
      ∀ dc ∈ (promote_loop source chain cells start).2.2.2,
        dc.downloading_client = none ∧ dc.status = .DOWNLOADING := by
  induction chain generalizing cells start with
  | nil => simp [promote_loop]
  | cons bid rest ih =>
    rw [promote_loop]
    split
    · obtain ⟨h1, h2⟩ := ih (cells ++ [{ bid := bid, expected_height := start, bid_source := source }])
        ((start + 1) % HEIGHT_T)
      refine ⟨?_, ?_⟩
      · exact h1.trans (by simp)
      · intro dc hdc
        rcases List.mem_cons.mp hdc with rfl | hdc
        · exact ⟨rfl, rfl⟩
        · exact h2 dc hdc
    · simp

theorem drain_spec (env : Env) (cells : List DownloadCell) (budget : Nat) (bc : BlockChainState) :
    ∃ dropped, cells = dropped ++ (drain env cells budget bc).cells ∧
      (∀ dc ∈ dropped, dc.status = .PREPARED) ∧
      List.Forall₂ (fun e dc => ∃ h r, e = Effect.add_block dc h r)
        (drain env cells budget bc).added dropped := by
  induction cells generalizing budget bc with
  | nil => exact ⟨[], by simp [drain]⟩
  | cons dc rest ih =>
    rw [drain]
    split
    · rename_i hp
      cases budget with
      | zero =>
        refine ⟨[dc], by simp, by simpa using hp, ?_⟩
        exact .cons ⟨_, _, rfl⟩ .nil
      | succ b =>
        obtain ⟨dropped, h1, h2, h3⟩ := ih b (env.add_block bc dc.pb).2
        refine ⟨dc :: dropped, ?_, ?_, ?_⟩
        · simpa using h1
        · intro x hx
          rcases List.mem_cons.mp hx with rfl | hx
          · exact hp
          · exact h2 x hx
        · exact .cons ⟨_, _, rfl⟩ h3
    · exact ⟨[], by simp⟩

theorem map_count_erase (m : List (Peer × Nat)) (p q : Peer) :
    map_count (map_erase m p) q = if q = p then 0 else map_count m q := by
  unfold map_count
  rw [map_find_erase]
  split <;> rfl

theorem map_count_update (m : List (Peer × Nat)) (p q : Peer) (g : Nat → Nat)
    (hp : p ∈ map_keys m) :
    map_count (map_update m p g) q = if q = p then g (map_count m p) else map_count m q := by
  unfold map_count
  rw [map_find_update]
  split
  · have := (mem_map_keys_iff m p).mp hp
    cases hf : map_find m p with
    | none => exact absurd hf this
    | some v => rfl
  · rfl

theorem map_add_one_of_mem (m : List (Peer × Nat)) (p : Peer) (hp : p ∈ map_keys m) :
    map_add_one m p = map_update m p (fun v => v + 1) := by
  unfold map_add_one
  have := (mem_map_keys_iff m p).mp hp
  cases hf : map_find m p with
  | none => exact absurd hf this
  | some v => rfl

theorem assigned_to_release (who p : Peer) (cells : List DownloadCell)
    (hown : ∀ dc ∈ cells, dc.downloading_client = some who → dc.status = .DOWNLOADING) :
    assigned_to p (cells.map (release_cell who)) = if p = who then 0 else assigned_to p cells := by
  induction cells with
  | nil => simp [assigned_to]
  | cons dc rest ih =>
    have ih := ih (fun x hx => hown x (List.mem_cons_of_mem _ hx))
    have hd := hown dc (List.mem_cons_self _ _)
    unfold assigned_to at ih ⊢
    rw [List.map_cons, List.countP_cons, List.countP_cons, ih]
    unfold release_cell
    by_cases hc : dc.downloading_client = some who
    · have hs := hd hc
      by_cases hp : p = who
      · subst hp; simp [hc, hs]
      · have : ¬ who = p := fun h => hp h.symm
        simp [hc, hs, hp, this]
    · by_cases hp : p = who
      · subst hp; simp [hc]
      · simp [hc, hp]

theorem assigned_release (who : Peer) (cells : List DownloadCell)
    (hown : ∀ dc ∈ cells, dc.downloading_client = some who → dc.status = .DOWNLOADING) :
    assigned (cells.map (release_cell who)) + assigned_to who cells = assigned cells := by
  induction cells with
  | nil => simp [assigned, assigned_to]
  | cons dc rest ih =>
    have ih := ih (fun x hx => hown x (List.mem_cons_of_mem _ hx))
    have hd := hown dc (List.mem_cons_self _ _)
    unfold assigned assigned_to at ih ⊢
    rw [List.map_cons, List.countP_cons, List.countP_cons, List.countP_cons, ← ih]
    unfold release_cell
    by_cases hc : dc.downloading_client = some who
    · have hs := hd hc
      simp [hc, hs]; omega
    · simp [hc]; omega

theorem release_cell_client (who : Peer) (dc : DownloadCell) (p : Peer)
    (h : (release_cell who dc).downloading_client = some p) :
    dc.downloading_client = some p ∧ (release_cell who dc).status = dc.status ∧
      (dc.status = .DOWNLOADING → p ≠ who) := by
  unfold release_cell at h ⊢
  split at h
  · rename_i hc
    refine ⟨h, by simp [hc], ?_⟩
    intro hs hp
    subst hp
    rcases hc with hc | hc
    · exact hc hs
    · exact hc h
  · cases h

theorem scrub_fields (who : Peer) (s : DownloaderV11) :
    (scrub who s).m_good_clients = map_erase s.m_good_clients who ∧
    (scrub who s).total_downloading_blocks =
      s.total_downloading_blocks - map_count s.m_good_clients who ∧
    (scrub who s).m_who_downloaded_block =
      s.m_who_downloaded_block.filter (fun p => decide (p ≠ who)) ∧
    (scrub who s).m_download_chain = s.m_download_chain.map (release_cell who) := by
  unfold scrub
  dsimp only
  split <;> simp [log]

theorem inv_scrub {incoming : Peer → Bool} (who : Peer) (s : DownloaderV11)
    (h : Inv incoming s) : Inv incoming (scrub who s) := by
  obtain ⟨e1, e2, e3, e4⟩ := scrub_fields who s
  have hown : ∀ dc ∈ s.m_download_chain, dc.downloading_client = some who →
      dc.status = .DOWNLOADING := fun dc hdc hc => (h.owner dc hdc who hc).1
  have hkeys : ∀ p, p ∈ map_keys (map_erase s.m_good_clients who) ↔
      p ∈ map_keys s.m_good_clients ∧ p ≠ who := by
    intro p; rw [map_keys_erase]; simp
  refine ⟨?_, ?_, ?_, ?_, ?_, ?_⟩
  · rw [e1, map_keys_erase]; exact List.Pairwise.filter _ h.sorted
  · intro p
    rw [e1, e4, map_count_erase, assigned_to_release who p _ hown]
    split
    · rfl
    · exact h.counts p
  · rw [e2, e4, h.total, h.counts who]
    have := assigned_release who s.m_download_chain hown
    omega
  · intro dc hdc p hp
    rw [e4] at hdc
    obtain ⟨dc0, hdc0, rfl⟩ := List.mem_map.mp hdc
    obtain ⟨h1, h2, h3⟩ := release_cell_client who dc0 p hp
    have := h.owner dc0 hdc0 p h1
    rw [h2, e1, hkeys]
    exact ⟨this.1, this.2, h3 this.1⟩
  · intro p hp
    rw [e1, hkeys] at hp
    exact h.outgoing p hp.1
  · intro p hp
    rw [e3] at hp
    rw [e1, hkeys]
    have := List.mem_filter.mp hp
    exact ⟨h.ring p this.1, by simpa using this.2⟩

theorem inv_register {incoming : Peer → Bool} (env : Env) (who : Peer) (s : DownloaderV11)
    (hw : incoming who = false) (h : Inv incoming s) : Inv incoming (register env who s) := by
  have e : (register env who s).m_good_clients = map_insert s.m_good_clients who 0 ∧
      (register env who s).total_downloading_blocks = s.total_downloading_blocks ∧
      (register env who s).m_who_downloaded_block = s.m_who_downloaded_block ∧
      (register env who s).m_download_chain = s.m_download_chain := by
    unfold register; dsimp only; split <;> simp [log]
  obtain ⟨e1, e2, e3, e4⟩ := e
  refine ⟨?_, ?_, ?_, ?_, ?_, ?_⟩
  · rw [e1]; exact map_insert_sorted _ _ _ h.sorted
  · intro p
    rw [e1, e4, ← h.counts p]
    unfold map_count
    rw [map_find_insert _ _ _ _ h.sorted]
    split
    · rename_i hp; subst hp; cases map_find s.m_good_clients p <;> rfl
    · rfl
  · rw [e2, e4]; exact h.total
  · intro dc hdc p hp
    rw [e4] at hdc
    have := h.owner dc hdc p hp
    rw [e1, map_keys_insert_mem]
    exact ⟨this.1, Or.inr this.2⟩
  · intro p hp
    rw [e1, map_keys_insert_mem] at hp
    rcases hp with rfl | hp
    · exact hw
    · exact h.outgoing p hp
  · intro p hp
    rw [e3] at hp
    rw [e1, map_keys_insert_mem]
    exact Or.inr (h.ring p hp)

theorem choose_loop_mem (env : Env) (ring : List Peer) (h : Height) (clients : List (Peer × Nat))
    (rc : Option Peer) (n sp : Nat) (c : Peer)
    (hc : choose_loop env ring h clients rc n sp = some c) :
    c ∈ map_keys clients ∨ rc = some c := by
  induction clients generalizing rc n sp with
  | nil => right; simpa [choose_loop] using hc
  | cons who rest ih =>
    rw [choose_loop] at hc
    split at hc
    · rcases ih _ _ _ hc with h1 | h1
      · left; unfold map_keys at h1 ⊢; exact List.mem_cons_of_mem _ h1
      · left; cases h1; unfold map_keys; exact List.mem_cons_self _ _
    · rcases ih _ _ _ hc with h1 | h1
      · left; unfold map_keys at h1 ⊢; exact List.mem_cons_of_mem _ h1
      · right; exact h1

theorem choose_client_mem (env : Env) (ring : List Peer) (h : Height)
    (clients : List (Peer × Nat)) (c : Peer) (hc : choose_client env ring h clients = some c) :
    c ∈ map_keys clients := by
  rcases choose_loop_mem env ring h clients none SIZE_MAX 1 c hc with h1 | h1
  · exact h1
  · cases h1

theorem assign_loop_spec (env : Env) (ring : List Peer) (cells : List DownloadCell) :
    ∀ (clients : List (Peer × Nat)) (total : Nat),
      map_keys (assign_loop env ring cells clients total).m_good_clients = map_keys clients ∧
      (∀ p, map_count (assign_loop env ring cells clients total).m_good_clients p +
          assigned_to p cells =
        map_count clients p + assigned_to p (assign_loop env ring cells clients total).cells) ∧
      (assign_loop env ring cells clients total).total_downloading_blocks + assigned cells =
        total + assigned (assign_loop env ring cells clients total).cells ∧
      List.Forall₂ (AssignRel (map_keys clients) env.now) cells
        (assign_loop env ring cells clients total).cells := by
  induction cells with
  | nil =>
    intro clients total
    simp [assign_loop]
  | cons dc rest ih =>
    intro clients total
    rw [assign_loop]
    split
    · obtain ⟨h1, h2, h3, h4⟩ := ih clients total
      refine ⟨h1, ?_, ?_, .cons (Or.inl rfl) h4⟩
      · intro p
        have := h2 p
        simp only [assigned_to, List.countP_cons] at this ⊢
        omega
      · simp only [assigned, List.countP_cons] at h3 ⊢
        omega
    · split
      · refine ⟨rfl, fun p => rfl, rfl, ?_⟩
        exact List.forall₂_same.mpr (fun x _ => Or.inl rfl)
      · split
        · obtain ⟨h1, h2, h3, h4⟩ := ih clients total
          refine ⟨h1, ?_, ?_, .cons (Or.inl rfl) h4⟩
          · intro p
            have := h2 p
            simp only [assigned_to, List.countP_cons] at this ⊢
            omega
          · simp only [assigned, List.countP_cons] at h3 ⊢
            omega
        · rename_i hfree _ _ c hc
          have hmem := choose_client_mem env ring _ clients c hc
          have hadd := map_add_one_of_mem clients c hmem
          obtain ⟨h1, h2, h3, h4⟩ := ih (map_add_one clients c) (total + 1)
          have hk : map_keys (map_add_one clients c) = map_keys clients := by
            rw [hadd, map_keys_update]
          simp only [not_or, not_not, Option.not_isSome_iff_eq_none] at hfree
          refine ⟨h1.trans hk, ?_, ?_, .cons (Or.inr ⟨hfree.1, hfree.2, c, hmem, rfl⟩) ?_⟩
          · intro p
            have := h2 p
            have hcnt : map_count (map_add_one clients c) p =
                if p = c then map_count clients c + 1 else map_count clients p := by
              rw [hadd, map_count_update _ _ _ _ hmem]
            rw [hcnt] at this
            simp only [assigned_to, List.countP_cons, hfree.2] at this ⊢
            by_cases hp : p = c
            · subst hp; simp at this ⊢; omega
            · have hp2 : ¬ c = p := fun h => hp h.symm
              simp [hp, hp2] at this ⊢; omega
          · simp [assigned, List.countP_cons, hfree.2] at h3 ⊢
            omega
          · rw [hk] at h4; exact h4

theorem assign_fields (env : Env) (s : DownloaderV11) :
    (assign env s).m_good_clients =
      (assign_loop env (truncate_ring s.m_who_downloaded_block) s.m_download_chain
        s.m_good_clients s.total_downloading_blocks).m_good_clients ∧
    (assign env s).total_downloading_blocks =
      (assign_loop env (truncate_ring s.m_who_downloaded_block) s.m_download_chain
        s.m_good_clients s.total_downloading_blocks).total_downloading_blocks ∧
    (assign env s).m_who_downloaded_block = truncate_ring s.m_who_downloaded_block ∧
    (assign env s).m_download_chain =
      (assign_loop env (truncate_ring s.m_who_downloaded_block) s.m_download_chain
        s.m_good_clients s.total_downloading_blocks).cells := by
  simp only [assign, and_self]

theorem inv_assign {incoming : Peer → Bool} (env : Env) (s : DownloaderV11)
    (h : Inv incoming s) : Inv incoming (assign env s) := by
  obtain ⟨e1, e2, e3, e4⟩ := assign_fields env s
  obtain ⟨h1, h2, h3, h4⟩ := assign_loop_spec env (truncate_ring s.m_who_downloaded_block)
    s.m_download_chain s.m_good_clients s.total_downloading_blocks
  refine ⟨?_, ?_, ?_, ?_, ?_, ?_⟩
  · rw [e1, h1]; exact h.sorted
  · intro p
    rw [e1, e4]
    have := h2 p
    have := h.counts p
    omega
  · rw [e2, e4]
    have := h.total
    omega
  · intro dc hdc p hp
    rw [e4] at hdc
    rw [e1, h1]
    obtain ⟨i, hi, rfl⟩ := List.getElem_of_mem hdc
    have hlen := h4.length_eq
    have hrel := (List.forall₂_iff_get.mp h4).2 i (by omega) hi
    rcases hrel with heq | ⟨hs, _, c, hc, heq⟩
    · simp only [List.get_eq_getElem] at heq
      rw [heq] at hp ⊢
      exact h.owner _ (List.getElem_mem _) p hp
    · simp only [List.get_eq_getElem] at heq hs
      rw [heq] at hp ⊢
      simp only [Option.some.injEq] at hp
      subst hp
      exact ⟨hs, hc⟩
  · intro p hp
    rw [e1, h1] at hp
    exact h.outgoing p hp
  · intro p hp
    rw [e3] at hp
    rw [e1, h1]
    exact h.ring p (List.mem_of_mem_drop hp)

theorem take_cell_spec (who : Peer) (bid : Hash) (rb : RawBlock) (cells cells' : List DownloadCell)
    (dc : DownloadCell) (h : take_cell who bid rb cells = some (cells', dc)) :
    ∃ pre post, cells = pre ++ dc :: post ∧ cells' = pre ++ received_cell rb dc :: post ∧
      dc.status = .DOWNLOADING ∧ dc.downloading_client = some who ∧ dc.bid = bid ∧
      ∀ x ∈ pre, x.status ≠ .DOWNLOADING ∨ x.downloading_client ≠ some who ∨ x.bid ≠ bid := by
  induction cells generalizing cells' with
  | nil => cases h
  | cons x rest ih =>
    rw [take_cell] at h
    split at h
    · rename_i hx
      split at h
      · cases h
      · rename_i c f hf
        cases h
        obtain ⟨pre, post, h1, h2, h3, h4, h5, h6⟩ := ih c hf
        refine ⟨x :: pre, post, by simp [h1], by simp [h2], h3, h4, h5, ?_⟩
        intro y hy
        rcases List.mem_cons.mp hy with rfl | hy
        · exact hx
        · exact h6 y hy
    · rename_i hx
      simp only [not_or, not_not] at hx
      cases h
      exact ⟨[], rest, rfl, rfl, hx.1, hx.2.1, hx.2.2, by simp⟩

theorem received_cell_fields (rb : RawBlock) (dc : DownloadCell) :
    (received_cell rb dc).downloading_client = none ∧ (received_cell rb dc).bid = dc.bid ∧
      (received_cell rb dc).expected_height = dc.expected_height ∧
      (received_cell rb dc).bid_source = dc.bid_source ∧
      (received_cell rb dc).protect_from_disconnect = dc.protect_from_disconnect ∧
      (received_cell rb dc).status = .PREPARING := by
  simp [received_cell, multicore]

theorem inv_receive {incoming : Peer → Bool} (env : Env) (who : Peer) (rb : RawBlock) (bid : Hash)
    (cells : List DownloadCell) (dc : DownloadCell) (s : DownloaderV11)
    (htake : take_cell who bid rb s.m_download_chain = some (cells, dc))
    (hfind : map_find s.m_good_clients who ≠ none)
    (h : Inv incoming s) : Inv incoming (receive env who rb cells dc s) := by
  obtain ⟨pre, post, h1, h2, h3, h4, _, _⟩ := take_cell_spec who bid rb _ _ _ htake
  have hmem : who ∈ map_keys s.m_good_clients := (mem_map_keys_iff _ _).mpr hfind
  have hrc := (received_cell_fields rb dc).1
  have hk : map_keys (map_sub_one s.m_good_clients who) = map_keys s.m_good_clients :=
    map_keys_update _ _ _
  refine ⟨?_, ?_, ?_, ?_, ?_, ?_⟩
  · show (map_keys (map_sub_one s.m_good_clients who)).Sorted (· < ·)
    rw [hk]; exact h.sorted
  · intro p
    show map_count (map_sub_one s.m_good_clients who) p = assigned_to p cells
    have hc := h.counts p
    have hw := h.counts who
    unfold map_sub_one
    rw [map_count_update _ _ _ _ hmem]
    rw [h1] at hc hw
    rw [h2]
    simp only [assigned_to, List.countP_append, List.countP_cons, hrc, h4] at hc hw ⊢
    by_cases hp : p = who
    · subst hp; simp at hc hw ⊢; omega
    · have hp2 : ¬ who = p := fun hh => hp hh.symm
      simp [hp, hp2] at hc hw ⊢; omega
  · show s.total_downloading_blocks - 1 = assigned cells
    have ht := h.total
    rw [h1] at ht
    rw [h2]
    simp [assigned, List.countP_append, List.countP_cons, hrc, h4] at ht ⊢
    omega
  · intro x hx p hp
    show x.status = .DOWNLOADING ∧ p ∈ map_keys (map_sub_one s.m_good_clients who)
    rw [hk]
    have hx : x ∈ cells := hx
    rw [h2] at hx
    have : x ∈ s.m_download_chain := by
      rw [h1]
      rcases List.mem_append.mp hx with hx | hx
      · exact List.mem_append_left _ hx
      · rcases List.mem_cons.mp hx with rfl | hx
        · rw [hrc] at hp; cases hp
        · exact List.mem_append_right _ (List.mem_cons_of_mem _ hx)
    exact h.owner x this p hp
  · intro p hp
    have hp : p ∈ map_keys (map_sub_one s.m_good_clients who) := hp
    rw [hk] at hp
    exact h.outgoing p hp
  · intro p hp
    show p ∈ map_keys (map_sub_one s.m_good_clients who)
    rw [hk]
    have hp : p ∈ s.m_who_downloaded_block ++ [who] := hp
    rcases List.mem_append.mp hp with hp | hp
    · exact h.ring p hp
    · simp only [List.mem_singleton] at hp; subst hp; exact hmem

theorem inv_promote {incoming : Peer → Bool} (s : DownloaderV11) (h : Inv incoming s) :
    Inv incoming (promote s) := by
  obtain ⟨h1, h2⟩ := promote_loop_spec s.chain_source s.m_chain s.m_download_chain
    s.m_chain_start_height
  have hnone : ∀ dc ∈ (promote_loop s.chain_source s.m_chain s.m_download_chain
      s.m_chain_start_height).2.2.2, dc.downloading_client = none := fun dc hdc => (h2 dc hdc).1
  have e4 : (promote s).m_download_chain = s.m_download_chain ++ (promote_loop s.chain_source
      s.m_chain s.m_download_chain s.m_chain_start_height).2.2.2 := h1
  refine ⟨h.sorted, ?_, ?_, ?_, h.outgoing, h.ring⟩
  · intro p
    rw [e4, assigned_to_append, assigned_to_unassigned p _ hnone]
    exact h.counts p
  · rw [e4, assigned_append, assigned_unassigned _ hnone]
    exact h.total
  · intro dc hdc p hp
    rw [e4] at hdc
    rcases List.mem_append.mp hdc with hdc | hdc
    · exact h.owner dc hdc p hp
    · rw [hnone dc hdc] at hp; cases hp

theorem inv_drained {incoming : Peer → Bool} (env : Env) (budget : Nat) (s : DownloaderV11)
    (h : Inv incoming s) : Inv incoming (drained env budget s) := by
  obtain ⟨dropped, h1, h2, _⟩ := drain_spec env s.m_download_chain budget env.bc
  have hnone : ∀ dc ∈ dropped, dc.downloading_client = none := by
    intro dc hdc
    cases hc : dc.downloading_client with
    | none => rfl
    | some p =>
      have := (h.owner dc (by rw [h1]; exact List.mem_append_left _ hdc) p hc).1
      rw [h2 dc hdc] at this
      cases this
  have e4 : (drained env budget s).m_download_chain =
      (drain env s.m_download_chain budget env.bc).cells := rfl
  refine ⟨h.sorted, ?_, ?_, ?_, h.outgoing, h.ring⟩
  · intro p
    have := h.counts p
    rw [h1, assigned_to_append, assigned_to_unassigned p _ hnone] at this
    show map_count s.m_good_clients p = _
    rw [e4]; omega
  · have := h.total
    rw [h1, assigned_append, assigned_unassigned _ hnone] at this
    show s.total_downloading_blocks = _
    rw [e4]; omega
  · intro dc hdc p hp
    rw [e4] at hdc
    exact h.owner dc (by rw [h1]; exact List.mem_append_right _ hdc) p hp

theorem inv_inner {incoming : Peer → Bool} {s t : DownloaderV11} (hst : Inner incoming s t)
    (h : Inv incoming s) : Inv incoming t := by
  cases hst with
  | note _ es _ => exact Inv.congr (s := s) rfl rfl rfl rfl h
  | promote env _ _ => exact inv_promote s h
  | elect env best _ _ _ _ _ _ => exact Inv.congr (s := s) rfl rfl rfl rfl h
  | assign env _ => exact inv_assign env s h
  | protect env who _ _ _ =>
    refine Inv.congr (s := s) rfl rfl rfl ?_ h
    show (s.m_download_chain.map (protect_cell who)).map owner_key = _
    rw [List.map_map]
    exact List.map_congr_left (fun dc _ => owner_key_protect who dc)
  | scrub who _ _ _ => exact inv_scrub who s h

theorem inv_prim {chain_ok : Env → Peer → ChainResponse → DownloaderV11 → Prop}
    {incoming : Peer → Bool} {s t : DownloaderV11} (hst : Prim chain_ok incoming s t)
    (h : Inv incoming s) : Inv incoming t := by
  cases hst with
  | inner _ _ hi => exact inv_inner hi h
  | register env who _ hw _ => exact inv_register env who s hw h
  | chain_timer_fired _ => exact Inv.congr (s := s) rfl rfl rfl rfl h
  | request_more env who req _ _ _ _ _ => exact Inv.congr (s := s) rfl rfl rfl rfl h
  | accept_chain env who req _ _ _ _ _ => exact Inv.congr (s := s) rfl rfl rfl rfl h
  | receive env who rb bid cells dc _ hb htake hf _ _ =>
    exact inv_receive env who rb bid cells dc s htake hf h
  | collect _ =>
    refine Inv.congr (s := s) ?_ ?_ ?_ ?_ h <;> simp only [collect, multicore, if_true]
    exact collect_prepared_keys _ _
  | drained env budget _ => exact inv_drained env budget s h
  | worker_take _ =>
    refine Inv.congr (s := s) ?_ ?_ ?_ ?_ h <;> (unfold worker_take; split <;> rfl)
  | worker_publish i _ =>
    refine Inv.congr (s := s) ?_ ?_ ?_ ?_ h <;> (unfold worker_publish; split <;> rfl)

theorem inv_steps {chain_ok : Env → Peer → ChainResponse → DownloaderV11 → Prop}
    {incoming : Peer → Bool} {s t : DownloaderV11} (hst : Steps chain_ok incoming s t)
    (h : Inv incoming s) : Inv incoming t := by
  induction hst with
  | refl => exact h
  | tail _ hp ih => exact inv_prim hp ih

theorem reachable_inv {incoming : Peer → Bool} {s : DownloaderV11} (h : Reachable incoming s) :
    Inv incoming s :=
  inv_steps (reachable_steps h) (inv_init incoming)

theorem reachable_run {fuel : Nat} {env : Env} (inputs : List Input) :
    ∀ {s t : DownloaderV11}, Reachable env.is_incoming s → run fuel env inputs s = .ok t →
      Reachable env.is_incoming t := by
  induction inputs with
  | nil => intro s t hs h; cases h; exact hs
  | cons input rest ih =>
    intro s t hs h
    rw [run] at h
    split at h
    · rename_i u hu
      exact ih (Reachable.step fuel env input s u hs rfl hu) h
    · cases h

theorem sum_values_eq (m : List (Peer × Nat)) (h : (map_keys m).Nodup) :
    (m.map Prod.snd).sum = ((map_keys m).map (map_count m)).sum := by
  induction m with
  | nil => rfl
  | cons e rest ih =>
    obtain ⟨k, v⟩ := e
    unfold map_keys at h ih ⊢
    simp only [List.map_cons, List.nodup_cons, List.sum_cons] at h ⊢
    rw [ih h.2]
    have h1 : map_count ((k, v) :: rest) k = v := by simp [map_count, map_find]
    have h2 : List.map (map_count ((k, v) :: rest)) (List.map Prod.fst rest) =
        List.map (map_count rest) (List.map Prod.fst rest) := by
      apply List.map_congr_left
      intro q hq
      have : ¬ k = q := fun hh => h.1 (hh ▸ hq)
      simp [map_count, map_find, this]
    rw [h1, h2]

theorem sum_indicator (q : Peer) (keys : List Peer) :
    (keys.map (fun p => if q = p then 1 else 0)).sum = keys.count q := by
  induction keys with
  | nil => rfl
  | cons a l ih =>
    by_cases ha : q = a
    · subst ha; simp [ih]; omega
    · have ha2 : ¬ a = q := fun hh => ha hh.symm
      simp [ha, ha2, ih, List.count_cons]

theorem sum_assigned_to (keys : List Peer) (hk : keys.Nodup) (cells : List DownloadCell)
    (hown : ∀ dc ∈ cells, ∀ p, dc.downloading_client = some p → p ∈ keys) :
    (keys.map (fun p => assigned_to p cells)).sum = assigned cells := by
  induction cells with
  | nil => simp [assigned_to, assigned]
  | cons dc rest ih =>
    have ih := ih (fun x hx => hown x (List.mem_cons_of_mem _ hx))
    have hd := hown dc (List.mem_cons_self _ _)
    have hsplit : ∀ p, assigned_to p (dc :: rest) =
        assigned_to p rest + (if dc.downloading_client = some p then 1 else 0) := by
      intro p; simp [assigned_to, List.countP_cons]
    simp only [hsplit, List.sum_map_add, ih]
    have : assigned (dc :: rest) = assigned rest +
        (if dc.downloading_client.isSome then 1 else 0) := by
      simp [assigned, List.countP_cons]
    rw [this]
    congr 1
    cases hc : dc.downloading_client with
    | none => simp
    | some q =>
      have hq := hd q hc
      simp only [Option.some.injEq, Option.isSome_some, if_true]
      rw [sum_indicator, List.count_eq_one_of_mem hk hq]

theorem sorted_nodup (keys : List Peer) (h : keys.Sorted (· < ·)) : keys.Nodup :=
  h.imp (fun hab => ne_of_lt hab)

theorem inv_sum {incoming : Peer → Bool} {s : DownloaderV11} (h : Inv incoming s) :
    (s.m_good_clients.map Prod.snd).sum = assigned s.m_download_chain := by
  have hn := sorted_nodup _ h.sorted
  rw [sum_values_eq _ hn]
  have : (map_keys s.m_good_clients).map (map_count s.m_good_clients) =
      (map_keys s.m_good_clients).map (fun p => assigned_to p s.m_download_chain) :=
    List.map_congr_left (fun p _ => h.counts p)
  rw [this]
  exact sum_assigned_to _ hn _ (fun dc hdc p hp => (h.owner dc hdc p hp).2)

theorem inv_assigned {incoming : Peer → Bool} {s : DownloaderV11} (h : Inv incoming s) :
    assigned s.m_download_chain =
      (s.m_download_chain.filter (fun dc =>
        decide (dc.status = .DOWNLOADING ∧ dc.downloading_client ≠ none))).length := by
  unfold assigned
  rw [List.countP_eq_length_filter]
  congr 1
  apply List.filter_congr
  intro dc hdc
  cases hc : dc.downloading_client with
  | none => simp
  | some p => simp [(h.owner dc hdc p hc).1]

/-- C1: in every reachable state the per-peer counts of `m_good_clients` add up to
`total_downloading_blocks`, which is the number of cells that are DOWNLOADING and assigned. -/
theorem counters_agree (incoming : Peer → Bool) (s : DownloaderV11)
    (h : Reachable incoming s) :
    (s.m_good_clients.map Prod.snd).sum = s.total_downloading_blocks ∧
      s.total_downloading_blocks =
        (s.m_download_chain.filter (fun dc =>
          decide (dc.status = .DOWNLOADING ∧ dc.downloading_client ≠ none))).length := by
  have hi := reachable_inv h
  exact ⟨(inv_sum hi).trans hi.total.symm, hi.total.trans (inv_assigned hi)⟩

/-- C4: in every reachable state a cell assigned to `P` is DOWNLOADING, `P` is registered, and
the count stored for `P` is the number of cells assigned to `P`, hence at least 1. -/
theorem assigned_cell_counted (incoming : Peer → Bool) (s : DownloaderV11)
    (h : Reachable incoming s) (dc : DownloadCell) (hdc : dc ∈ s.m_download_chain) (P : Peer)
    (hP : dc.downloading_client = some P) :
    dc.status = .DOWNLOADING ∧
      map_find s.m_good_clients P =
        some (s.m_download_chain.filter (fun c => decide (c.downloading_client = some P))).length ∧
      1 ≤ (s.m_download_chain.filter (fun c => decide (c.downloading_client = some P))).length := by
  have hi := reachable_inv h
  obtain ⟨h1, h2⟩ := hi.owner dc hdc P hP
  have h3 := hi.counts P
  have h4 := (mem_map_keys_iff _ _).mp h2
  unfold assigned_to at h3
  rw [List.countP_eq_length_filter] at h3
  refine ⟨h1, ?_, ?_⟩
  · unfold map_count at h3
    cases hf : map_find s.m_good_clients P with
    | none => exact absurd hf h4
    | some v => rw [hf] at h3; simp at h3; rw [h3]
  · exact List.length_pos_of_mem (List.mem_filter.mpr ⟨hdc, by simpa using hP⟩)

theorem demo_run : run 3 demo_env demo_inputs init = .ok demo_state := by rfl

theorem demo_reachable : Reachable demo_env.is_incoming demo_state :=
  reachable_run demo_inputs Reachable.init demo_run

theorem counters_agree_witness :
    (demo_state.m_good_clients.map Prod.snd).sum = demo_state.total_downloading_blocks ∧
      demo_state.total_downloading_blocks =
        (demo_state.m_download_chain.filter (fun dc =>
          decide (dc.status = .DOWNLOADING ∧ dc.downloading_client ≠ none))).length :=
  counters_agree demo_env.is_incoming demo_state demo_reachable

theorem inner_keys {incoming : Peer → Bool} {s t : DownloaderV11} (hst : Inner incoming s t) :
    ∀ p ∈ map_keys t.m_good_clients, p ∈ map_keys s.m_good_clients := by
  cases hst with
  | note _ es _ => exact fun p hp => hp
  | promote env _ _ => exact fun p hp => hp
  | elect env best _ _ _ _ _ _ => exact fun p hp => hp
  | assign env _ =>
    intro p hp
    rw [(assign_fields env s).1, (assign_loop_spec env _ _ _ _).1] at hp
    exact hp
  | protect env who _ _ _ => exact fun p hp => hp
  | scrub who _ _ _ =>
    intro p hp
    rw [(scrub_fields who s).1, map_keys_erase] at hp
    exact (List.mem_filter.mp hp).1

theorem inner_steps_keys {incoming : Peer → Bool} {s t : DownloaderV11}
    (hst : InnerSteps incoming s t) :
    ∀ p ∈ map_keys t.m_good_clients, p ∈ map_keys s.m_good_clients := by
  induction hst with
  | refl => exact fun p hp => hp
  | tail _ hp ih => exact fun p h => ih p (inner_keys hp p h)

/-- C3: after `on_disconnect(p)` has returned from a reachable state, no cell is assigned to `p`,
`p` is not a key of `m_good_clients` and `p` does not occur in `m_who_downloaded_block`. -/
theorem disconnect_forgets_peer (incoming : Peer → Bool) (s : DownloaderV11)
    (h : Reachable incoming s) (fuel : Nat) (env : Env) (henv : env.is_incoming = incoming)
    (p : Peer) (t : DownloaderV11)
    (hd : on_disconnect (advance_download fuel env) env p s = .ok t) :
    (∀ dc ∈ t.m_download_chain, dc.downloading_client ≠ some p) ∧
      p ∉ map_keys t.m_good_clients ∧ p ∉ t.m_who_downloaded_block := by
  have ht : Reachable incoming t := Reachable.step fuel env (.disconnected p) s t h henv hd
  have hi := reachable_inv ht
  have hkey : p ∉ map_keys t.m_good_clients := by
    unfold on_disconnect at hd
    split at hd
    · rename_i hinc
      cases hd
      intro hp
      have := hi.outgoing p hp
      rw [← henv, hinc] at this
      cases this
    · split at hd
      · cases hd
      · intro hp
        have := inner_steps_keys (advance_download_steps fuel env henv _ _ hd) p hp
        rw [(scrub_fields p s).1, map_keys_erase] at this
        simpa using (List.mem_filter.mp this).2
  exact ⟨fun dc hdc hc => hkey (hi.owner dc hdc p hc).2, hkey, fun hr => hkey (hi.ring p hr)⟩

theorem demo_disconnect_run :
    on_disconnect (advance_download 2 demo_env) demo_env 1 demo_state =
      .ok demo_after_disconnect := by rfl

theorem disconnect_forgets_peer_witness :
    (∀ dc ∈ demo_after_disconnect.m_download_chain, dc.downloading_client ≠ some 1) ∧
      1 ∉ map_keys demo_after_disconnect.m_good_clients ∧
      1 ∉ demo_after_disconnect.m_who_downloaded_block :=
  disconnect_forgets_peer demo_env.is_incoming demo_state demo_reachable 2 demo_env rfl 1
    demo_after_disconnect demo_disconnect_run

theorem assigned_cell_counted_witness :
    demo_state.m_download_chain.head?.map (fun dc => dc.downloading_client) = some (some 1) ∧
      map_find demo_state.m_good_clients 1 = some 2 :=
  ⟨by decide,
    (assigned_cell_counted demo_env.is_incoming demo_state demo_reachable
      (demo_state.m_download_chain.headD default) (by decide) 1 (by decide)).2.1.trans
      (by decide)⟩

/-- C10: a chain response from a peer that is not the planner (in particular when there is no
planner), or one that arrives while `m_chain` still holds ids, leaves the whole state as it was,
the trace of messages and disconnects included. -/
theorem unsolicited_chain_ignored (fuel : Nat) (env : Env) (who : Peer) (req : ChainResponse)
    (s : DownloaderV11) (h : s.m_chain_client ≠ some who ∨ s.m_chain ≠ []) :
    on_msg_notify_request_chain fuel env who req s = .ok s := by
  unfold on_msg_notify_request_chain
  rw [if_pos h]
  rfl

theorem unsolicited_chain_ignored_witness :
    on_msg_notify_request_chain 3 demo_env 2 ⟨100, [7, 8, 9]⟩ demo_state = .ok demo_state ∧
      on_msg_notify_request_chain 3 demo_env 2 ⟨5, [4]⟩ init = .ok init :=
  ⟨unsolicited_chain_ignored 3 demo_env 2 ⟨100, [7, 8, 9]⟩ demo_state (Or.inl (by decide)),
    unsolicited_chain_ignored 3 demo_env 2 ⟨5, [4]⟩ init (Or.inl (by decide))⟩

theorem cellStep_refl (a : DownloadCell) : CellStep a a :=
  ⟨rfl, le_refl _, fun h => h⟩

theorem cellStep_trans {a b c : DownloadCell} (h1 : CellStep a b) (h2 : CellStep b c) :
    CellStep a c :=
  ⟨h2.1.trans h1.1, le_trans h1.2.1 h2.2.1, fun h => h2.2.2 (h1.2.2 h)⟩

theorem cellStep_ids {l1 l2 : List DownloadCell} (h : List.Forall₂ CellStep l1 l2) :
    l2.map cell_id = l1.map cell_id := by
  induction h with
  | nil => rfl
  | cons hab _ ih => simp [hab.1, ih]

theorem forall₂_cellStep_refl (l : List DownloadCell) : List.Forall₂ CellStep l l :=
  List.forall₂_same.mpr (fun a _ => cellStep_refl a)

theorem forall₂_cellStep_trans {l1 l2 l3 : List DownloadCell} (h1 : List.Forall₂ CellStep l1 l2)
    (h2 : List.Forall₂ CellStep l2 l3) : List.Forall₂ CellStep l1 l3 := by
  induction h1 generalizing l3 with
  | nil => cases h2; exact .nil
  | cons hab _ ih =>
    cases h2 with
    | cons hbc h2' => exact .cons (cellStep_trans hab hbc) (ih h2')

theorem forall₂_split {R : DownloadCell → DownloadCell → Prop} (l1 l2 l : List DownloadCell)
    (h : List.Forall₂ R (l1 ++ l2) l) :
    ∃ a b, l = a ++ b ∧ List.Forall₂ R l1 a ∧ List.Forall₂ R l2 b := by
  induction l1 generalizing l with
  | nil => exact ⟨[], l, rfl, .nil, h⟩
  | cons x l1 ih =>
    cases h with
    | cons hxy h' =>
      obtain ⟨a, b, rfl, ha, hb⟩ := ih _ h'
      exact ⟨_ :: a, b, rfl, .cons hxy ha, hb⟩

theorem grows_refl (s : DownloaderV11) : Grows s s :=
  ⟨history s, [], [], by simp, forall₂_cellStep_refl _, by simp, by simp, by simp⟩

theorem grows_trans {s t u : DownloaderV11} (h1 : Grows s t) (h2 : Grows t u) : Grows s u := by
  obtain ⟨k1, a1, x1, e1, f1, p1, n1, q1⟩ := h1
  obtain ⟨k2, a2, x2, e2, f2, p2, n2, q2⟩ := h2
  rw [e1] at f2
  obtain ⟨k2a, k2b, rfl, fa, fb⟩ := forall₂_split _ _ _ f2
  refine ⟨k2a, k2b ++ a2, x1 ++ x2, by rw [e2, List.append_assoc], forall₂_cellStep_trans f1 fa,
    ?_, by rw [n2, n1, List.append_assoc], ?_⟩
  · rw [p2, p1, List.map_append, cellStep_ids fb, List.append_assoc]
  · intro dc hdc
    rcases List.mem_append.mp hdc with h | h
    · exact q1 dc h
    · exact q2 dc h

theorem applied_append (tr es : List Effect) : applied (tr ++ es) = applied tr ++ applied es := by
  unfold applied; exact List.filterMap_append _ _ _

theorem promoted_append (tr es : List Effect) :
    promoted (tr ++ es) = promoted tr ++ promoted es := by
  unfold promoted; exact List.filterMap_append _ _ _

theorem applied_no_mark (es : List Effect) (h : ∀ e ∈ es, e.is_mark = false) :
    applied es = [] := by
  unfold applied
  rw [List.filterMap_eq_nil_iff]
  intro e he
  have := h e he
  cases e <;> simp_all [Effect.is_mark]

theorem promoted_no_mark (es : List Effect) (h : ∀ e ∈ es, e.is_mark = false) :
    promoted es = [] := by
  unfold promoted
  rw [List.filterMap_eq_nil_iff]
  intro e he
  have := h e he
  cases e <;> simp_all [Effect.is_mark]

/-- A step that changes the cells one by one and records no promotion and no `add_block`. -/
theorem grows_pointwise {s t : DownloaderV11} (es : List Effect)
    (htr : t.trace = s.trace ++ es) (hes : ∀ e ∈ es, e.is_mark = false)
    (hc : List.Forall₂ CellStep s.m_download_chain t.m_download_chain) : Grows s t := by
  have ha : applied t.trace = applied s.trace := by
    rw [htr, applied_append, applied_no_mark es hes, List.append_nil]
  have hp : promoted t.trace = promoted s.trace := by
    rw [htr, promoted_append, promoted_no_mark es hes, List.append_nil]
  refine ⟨history t, [], [], by simp, ?_, by simp [hp], by simp [ha], by simp⟩
  unfold history
  rw [ha]
  exact List.rel_append (forall₂_cellStep_refl _) hc

theorem forall₂_map_right {f : DownloadCell → DownloadCell} (l : List DownloadCell)
    (h : ∀ a, CellStep a (f a)) : List.Forall₂ CellStep l (l.map f) := by
  induction l with
  | nil => exact .nil
  | cons a l ih => exact .cons (h a) ih

theorem applied_promoted_marks (l : List DownloadCell) :
    applied (l.map Effect.promoted) = [] ∧ promoted (l.map Effect.promoted) = l := by
  induction l with
  | nil => exact ⟨rfl, rfl⟩
  | cons a l ih =>
    exact ⟨by simp [applied], by simpa [promoted] using ih.2⟩

theorem grows_promote (s : DownloaderV11) : Grows s (promote s) := by
  obtain ⟨h1, _⟩ := promote_loop_spec s.chain_source s.m_chain s.m_download_chain
    s.m_chain_start_height
  have e4 : (promote s).m_download_chain = s.m_download_chain ++ (promote_loop s.chain_source
      s.m_chain s.m_download_chain s.m_chain_start_height).2.2.2 := h1
  have e5 : (promote s).trace = s.trace ++ ((promote_loop s.chain_source
      s.m_chain s.m_download_chain s.m_chain_start_height).2.2.2).map Effect.promoted := rfl
  have ha : applied (promote s).trace = applied s.trace := by
    rw [e5, applied_append, (applied_promoted_marks _).1, List.append_nil]
  refine ⟨history s, (promote_loop s.chain_source s.m_chain s.m_download_chain
    s.m_chain_start_height).2.2.2, [], ?_, forall₂_cellStep_refl _, ?_, by simp [ha], by simp⟩
  · unfold history; rw [ha, e4, List.append_assoc]
  · rw [e5, promoted_append, (applied_promoted_marks _).2, List.map_append]

theorem assign_loop_sent (env : Env) (ring : List Peer) (cells : List DownloadCell) :
    ∀ (clients : List (Peer × Nat)) (total : Nat),
      ∀ e ∈ (assign_loop env ring cells clients total).sent, e.is_mark = false := by
  induction cells with
  | nil => intro clients total e he; simp [assign_loop] at he
  | cons dc rest ih =>
    intro clients total e he
    rw [assign_loop] at he
    split at he
    · exact ih _ _ e he
    · split at he
      · simp at he
      · split at he
        · exact ih _ _ e he
        · rcases List.mem_cons.mp he with rfl | he
          · rfl
          · exact ih _ _ e he

theorem assignRel_cellStep {keys : List Peer} {now : TimePoint} {a b : DownloadCell}
    (h : AssignRel keys now a b) : CellStep a b := by
  rcases h with rfl | ⟨_, _, c, _, rfl⟩
  · exact cellStep_refl _
  · exact ⟨rfl, le_refl _, fun h => h⟩

theorem grows_assign (env : Env) (s : DownloaderV11) : Grows s (assign env s) := by
  refine grows_pointwise _ rfl (assign_loop_sent env _ _ _ _) ?_
  rw [(assign_fields env s).2.2.2]
  exact (assign_loop_spec env _ _ _ _).2.2.2.imp (fun _ _ h => assignRel_cellStep h)

theorem cellStep_protect (who : Peer) (a : DownloadCell) : CellStep a (protect_cell who a) := by
  unfold protect_cell
  split
  · exact ⟨rfl, le_refl _, fun _ => rfl⟩
  · exact cellStep_refl _

theorem cellStep_release (who : Peer) (a : DownloadCell) : CellStep a (release_cell who a) := by
  unfold release_cell
  split
  · exact cellStep_refl _
  · exact ⟨rfl, le_refl _, fun h => h⟩

theorem grows_scrub (who : Peer) (s : DownloaderV11) : Grows s (scrub who s) := by
  have hc : List.Forall₂ CellStep s.m_download_chain (scrub who s).m_download_chain := by
    rw [(scrub_fields who s).2.2.2]
    exact forall₂_map_right _ (cellStep_release who)
  unfold scrub at hc ⊢
  dsimp only at hc ⊢
  split
  · rename_i h
    rw [if_pos h] at hc
    exact grows_pointwise [.chain_timer_cancel] rfl (by simp [Effect.is_mark]) hc
  · rename_i h
    rw [if_neg h] at hc
    exact grows_pointwise [] (by simp) (by simp) hc

theorem cellStep_received (rb : RawBlock) (dc : DownloadCell) (hs : dc.status = .DOWNLOADING) :
    CellStep dc (received_cell rb dc) := by
  obtain ⟨_, h2, h3, h4, h5, h6⟩ := received_cell_fields rb dc
  refine ⟨by simp [cell_id, h2, h3, h4], ?_, fun h => by rw [h5]; exact h⟩
  rw [h6, hs]
  simp [Status.rank]

theorem cellStep_mark_prepared (bid : Hash) (pb : PreparedBlock) (cells : List DownloadCell) :
    List.Forall₂ CellStep cells (mark_prepared bid pb cells) := by
  induction cells with
  | nil => exact .nil
  | cons dc rest ih =>
    rw [mark_prepared]
    split
    · rename_i h
      refine .cons ⟨rfl, ?_, fun h => h⟩ (forall₂_cellStep_refl _)
      simp [h.1, Status.rank]
    · exact .cons (cellStep_refl _) ih

theorem cellStep_collect_prepared (prepared : List (Hash × PreparedBlock))
    (cells : List DownloadCell) :
    List.Forall₂ CellStep cells (collect_prepared prepared cells) := by
  unfold collect_prepared
  induction prepared generalizing cells with
  | nil => exact forall₂_cellStep_refl _
  | cons pb rest ih =>
    rw [List.foldl_cons]
    exact forall₂_cellStep_trans (cellStep_mark_prepared _ _ _) (ih _)

theorem applied_added {es : List Effect} {dropped : List DownloadCell}
    (h : List.Forall₂ (fun e dc => ∃ h r, e = Effect.add_block dc h r) es dropped) :
    applied es = dropped ∧ promoted es = [] := by
  induction h with
  | nil => exact ⟨rfl, rfl⟩
  | cons hab _ ih =>
    obtain ⟨hh, r, rfl⟩ := hab
    exact ⟨by simpa [applied] using ih.1, by simpa [promoted] using ih.2⟩

theorem grows_drained (env : Env) (budget : Nat) (s : DownloaderV11) :
    Grows s (drained env budget s) := by
  obtain ⟨dropped, h1, h2, h3⟩ := drain_spec env s.m_download_chain budget env.bc
  obtain ⟨ha, hp⟩ := applied_added h3
  have e4 : (drained env budget s).m_download_chain =
      (drain env s.m_download_chain budget env.bc).cells := rfl
  have e5 : (drained env budget s).trace =
      s.trace ++ (drain env s.m_download_chain budget env.bc).added := rfl
  refine ⟨history s, [], dropped, ?_, forall₂_cellStep_refl _, ?_, ?_, h2⟩
  · unfold history
    rw [e4, e5, applied_append, ha, List.append_nil, List.append_assoc, ← h1]
  · rw [e5, promoted_append, hp]; simp
  · rw [e5, applied_append, ha]

theorem grows_inner {incoming : Peer → Bool} {s t : DownloaderV11} (hst : Inner incoming s t) :
    Grows s t := by
  cases hst with
  | note _ es hes => exact grows_pointwise es rfl hes (forall₂_cellStep_refl _)
  | promote env _ _ => exact grows_promote s
  | elect env best _ _ _ _ _ _ =>
    exact grows_pointwise _ rfl (by simp [Effect.is_mark]) (forall₂_cellStep_refl _)
  | assign env _ => exact grows_assign env s
  | protect env who _ _ _ =>
    exact grows_pointwise _ rfl (by simp [Effect.is_mark])
      (forall₂_map_right _ (cellStep_protect who))
  | scrub who _ _ _ => exact grows_scrub who s

theorem grows_prim {chain_ok : Env → Peer → ChainResponse → DownloaderV11 → Prop}
    {incoming : Peer → Bool} {s t : DownloaderV11} (hst : Prim chain_ok incoming s t) :
    Grows s t := by
  cases hst with
  | inner _ _ hi => exact grows_inner hi
  | register env who _ hw _ =>
    unfold register
    dsimp only
    split
    · exact grows_pointwise [.sync_transactions who] rfl (by simp [Effect.is_mark])
        (forall₂_cellStep_refl _)
    · exact grows_pointwise [] (by simp) (by simp) (forall₂_cellStep_refl _)
  | chain_timer_fired _ =>
    exact grows_pointwise [] (by simp [chain_timer_fired]) (by simp) (forall₂_cellStep_refl _)
  | request_more env who req _ _ _ _ _ =>
    exact grows_pointwise _ rfl (by simp [Effect.is_mark]) (forall₂_cellStep_refl _)
  | accept_chain env who req _ _ _ _ _ =>
    exact grows_pointwise _ rfl (by simp [Effect.is_mark]) (forall₂_cellStep_refl _)
  | receive env who rb bid cells dc _ hb htake hf _ _ =>
    obtain ⟨pre, post, h1, h2, h3, _⟩ := take_cell_spec who bid rb _ _ _ htake
    refine grows_pointwise [] (by simp [receive]) (by simp) ?_
    show List.Forall₂ CellStep s.m_download_chain cells
    rw [h1, h2]
    exact List.rel_append (forall₂_cellStep_refl _)
      (.cons (cellStep_received rb dc h3) (forall₂_cellStep_refl _))
  | collect _ =>
    refine grows_pointwise [] (by simp [collect, multicore]) (by simp) ?_
    simp only [collect, multicore, if_true]
    exact cellStep_collect_prepared _ _
  | drained env budget _ => exact grows_drained env budget s
  | worker_take _ =>
    refine grows_pointwise [] ?_ (by simp) ?_ <;> unfold worker_take <;> split <;>
      first | exact forall₂_cellStep_refl _ | simp
  | worker_publish i _ =>
    refine grows_pointwise [] ?_ (by simp) ?_ <;> unfold worker_publish <;> split <;>
      first | exact forall₂_cellStep_refl _ | simp

theorem grows_steps {chain_ok : Env → Peer → ChainResponse → DownloaderV11 → Prop}
    {incoming : Peer → Bool} {s t : DownloaderV11} (hst : Steps chain_ok incoming s t) :
    Grows s t := by
  induction hst with
  | refl => exact grows_refl s
  | tail _ hp ih => exact grows_trans ih (grows_prim hp)

theorem forall₂_getElem? {R : DownloadCell → DownloadCell → Prop} {l1 l2 : List DownloadCell}
    (h : List.Forall₂ R l1 l2) (i : Nat) (a : DownloadCell) (ha : l1[i]? = some a) :
    ∃ b, l2[i]? = some b ∧ R a b := by
  induction h generalizing i with
  | nil => simp at ha
  | cons hab _ ih =>
    cases i with
    | zero => simp at ha; subst ha; exact ⟨_, by simp, hab⟩
    | succ j => simp at ha; simpa using ih j ha

/-- C2: in every reachable state the cells handed to `add_block` so far, followed by the cells
still queued, are the cells appended by promotion so far, in the same order; so the cells handed
to `add_block` are an initial segment of the promoted ones.  Each of them was PREPARED. -/
theorem applied_in_promotion_order (incoming : Peer → Bool) (s : DownloaderV11)
    (h : Reachable incoming s) :
    (promoted s.trace).map cell_id =
        (applied s.trace).map cell_id ++ s.m_download_chain.map cell_id ∧
      (applied s.trace).map cell_id <+: (promoted s.trace).map cell_id ∧
      ∀ dc ∈ applied s.trace, dc.status = .PREPARED := by
  obtain ⟨kept, added, extra, e1, f1, p1, n1, q1⟩ := grows_steps (reachable_steps h)
  have hk : kept = [] := by
    have : history init = [] := rfl
    rw [this] at f1
    cases f1; rfl
  subst hk
  have hp : promoted init.trace = [] := rfl
  have ha : applied init.trace = [] := rfl
  rw [hp] at p1
  rw [ha] at n1
  simp only [List.nil_append, List.map_nil] at e1 p1 n1
  have e2 : (promoted s.trace).map cell_id =
      (applied s.trace).map cell_id ++ s.m_download_chain.map cell_id := by
    rw [p1, ← e1, history, List.map_append]
  exact ⟨e2, ⟨_, e2.symm⟩, fun dc hdc => q1 dc (n1 ▸ hdc)⟩

/-- Where a cell of the queue is after steps that hand `k` cells to `add_block`: the cell at
position `i + k` is at position `i`, changed by `CellStep`. -/
theorem grows_index {s t : DownloaderV11} (hg : Grows s t) (i : Nat) (a : DownloadCell)
    (ha : s.m_download_chain[i + ((applied t.trace).length - (applied s.trace).length)]? =
      some a) :
    ∃ b, t.m_download_chain[i]? = some b ∧ CellStep a b := by
  obtain ⟨kept, added, extra, e1, f1, _, n1, _⟩ := hg
  have hlen : (applied t.trace).length - (applied s.trace).length = extra.length := by
    rw [n1, List.length_append]; omega
  rw [hlen] at ha
  have h1 : (history s)[(applied t.trace).length + i]? = some a := by
    unfold history
    rw [List.getElem?_append_right (by rw [n1, List.length_append]; omega)]
    rw [← ha]
    congr 1
    rw [n1, List.length_append]; omega
  obtain ⟨b, hb, hab⟩ := forall₂_getElem? f1 _ a h1
  refine ⟨b, ?_, hab⟩
  have h2 : (history t)[(applied t.trace).length + i]? = some b := by
    rw [e1, List.getElem?_append_left]
    · exact hb
    · by_contra hc
      rw [List.getElem?_eq_none (by omega)] at hb
      cases hb
  unfold history at h2
  rw [List.getElem?_append_right (by omega)] at h2
  simpa using h2

/-- C7: in a step of the downloader that hands `k` cells to `add_block`, the cell at position
`i + k` of the queue before the step is at position `i` after it, with the same identity and a
status that is not earlier in the order DOWNLOADING, DOWNLOADED, PREPARING, PREPARED. -/
theorem status_never_regresses (fuel : Nat) (env : Env) (input : Input) (s t : DownloaderV11)
    (h : handle fuel env input s = .ok t) (i : Nat) (a : DownloadCell)
    (ha : s.m_download_chain[i + ((applied t.trace).length - (applied s.trace).length)]? =
      some a) :
    ∃ b, t.m_download_chain[i]? = some b ∧ cell_id b = cell_id a ∧
      a.status.rank ≤ b.status.rank := by
  have hs : Steps (fun _ _ _ _ => True) env.is_incoming s t :=
    handle_steps rfl (fun _ _ _ _ => trivial) h
  obtain ⟨b, hb, hab⟩ := grows_index (grows_steps hs) i a ha
  exact ⟨b, hb, hab.1, hab.2.1⟩

theorem demo_ready_run :
    run 3 demo_env [.objects_response 1 [⟨[7], []⟩], .worker_take, .worker_publish 0]
      demo_state = .ok demo_ready_state := by rfl

theorem demo_idle_run : handle 3 demo_env (.idle 10) demo_ready_state = .ok demo_idle_state := by
  rfl

theorem demo_ready_reachable : Reachable demo_env.is_incoming demo_ready_state :=
  reachable_run _ demo_reachable demo_ready_run

theorem demo_idle_reachable : Reachable demo_env.is_incoming demo_idle_state :=
  Reachable.step 3 demo_env (.idle 10) _ _ demo_ready_reachable rfl demo_idle_run

theorem applied_in_promotion_order_witness :
    (applied demo_idle_state.trace).map cell_id = [(7, 100, 1001)] ∧
      ((promoted demo_idle_state.trace).map cell_id =
          (applied demo_idle_state.trace).map cell_id ++
            demo_idle_state.m_download_chain.map cell_id ∧
        (applied demo_idle_state.trace).map cell_id <+:
          (promoted demo_idle_state.trace).map cell_id ∧
        ∀ dc ∈ applied demo_idle_state.trace, dc.status = .PREPARED) :=
  ⟨by decide, applied_in_promotion_order demo_env.is_incoming demo_idle_state demo_idle_reachable⟩

theorem status_never_regresses_witness :
    (applied demo_idle_state.trace).length - (applied demo_ready_state.trace).length = 1 ∧
      ∃ b, demo_idle_state.m_download_chain[0]? = some b ∧
        cell_id b = cell_id (demo_ready_state.m_download_chain.getD 1 default) ∧
        (demo_ready_state.m_download_chain.getD 1 default).status.rank ≤ b.status.rank :=
  ⟨by decide, status_never_regresses 3 demo_env (.idle 10) demo_ready_state demo_idle_state
    demo_idle_run 0 (demo_ready_state.m_download_chain.getD 1 default) (by decide)⟩

theorem quiet_of_eq {s t : DownloaderV11} (h1 : t.m_chain = s.m_chain)
    (h2 : t.m_chain_start_height = s.m_chain_start_height) (h3 : t.chain_source = s.chain_source)
    (h4 : t.m_download_chain = s.m_download_chain) : Quiet s t :=
  ⟨h1, h2, h3, h4 ▸ forall₂_cellStep_refl _⟩

theorem inner_frame {incoming : Peer → Bool} {s t : DownloaderV11} (hst : Inner incoming s t) :
    Quiet s t ∨ t = promote s := by
  cases hst with
  | note _ es hes => exact Or.inl (quiet_of_eq rfl rfl rfl rfl)
  | promote env _ _ => exact Or.inr rfl
  | elect env best _ _ _ _ _ _ => exact Or.inl (quiet_of_eq rfl rfl rfl rfl)
  | assign env _ =>
    refine Or.inl ⟨rfl, rfl, rfl, ?_⟩
    rw [(assign_fields env s).2.2.2]
    exact (assign_loop_spec env _ _ _ _).2.2.2.imp (fun _ _ h => assignRel_cellStep h)
  | protect env who _ _ _ =>
    exact Or.inl ⟨rfl, rfl, rfl, forall₂_map_right _ (cellStep_protect who)⟩
  | scrub who _ _ _ =>
    left
    have hc : List.Forall₂ CellStep s.m_download_chain (scrub who s).m_download_chain := by
      rw [(scrub_fields who s).2.2.2]
      exact forall₂_map_right _ (cellStep_release who)
    refine ⟨?_, ?_, ?_, hc⟩ <;> (unfold scrub; dsimp only; split <;> rfl)

theorem prim_frame {chain_ok : Env → Peer → ChainResponse → DownloaderV11 → Prop}
    {incoming : Peer → Bool} {s t : DownloaderV11} (hst : Prim chain_ok incoming s t) :
    Quiet s t ∨ t = promote s ∨ (∃ env budget, t = drained env budget s) ∨
      ∃ env who req, accepts who s ∧ chain_ok env who req s ∧
        (t = request_more env who req (store_chain env who req s) ∨
          t = release_planner (store_chain env who req s)) := by
  cases hst with
  | inner _ _ hi =>
    rcases inner_frame hi with h | h
    · exact Or.inl h
    · exact Or.inr (Or.inl h)
  | register env who _ hw _ =>
    left
    refine quiet_of_eq ?_ ?_ ?_ ?_ <;> (unfold register; dsimp only; split <;> rfl)
  | chain_timer_fired _ => exact Or.inl (quiet_of_eq rfl rfl rfl rfl)
  | request_more env who req _ h1 h2 h3 _ =>
    exact Or.inr (Or.inr (Or.inr ⟨env, who, req, ⟨h1, h2⟩, h3, Or.inl rfl⟩))
  | accept_chain env who req _ h1 h2 h3 _ =>
    exact Or.inr (Or.inr (Or.inr ⟨env, who, req, ⟨h1, h2⟩, h3, Or.inr rfl⟩))
  | receive env who rb bid cells dc _ hb htake hf _ _ =>
    obtain ⟨pre, post, h1, h2, h3, _⟩ := take_cell_spec who bid rb _ _ _ htake
    refine Or.inl ⟨rfl, rfl, rfl, ?_⟩
    show List.Forall₂ CellStep s.m_download_chain cells
    rw [h1, h2]
    exact List.rel_append (forall₂_cellStep_refl _)
      (.cons (cellStep_received rb dc h3) (forall₂_cellStep_refl _))
  | collect _ =>
    left
    refine ⟨?_, ?_, ?_, ?_⟩ <;> simp only [collect, multicore, if_true]
    exact cellStep_collect_prepared _ _
  | drained env budget _ => exact Or.inr (Or.inr (Or.inl ⟨env, budget, rfl⟩))
  | worker_take _ =>
    left
    refine quiet_of_eq ?_ ?_ ?_ ?_ <;> (unfold worker_take; split <;> rfl)
  | worker_publish i _ =>
    left
    refine quiet_of_eq ?_ ?_ ?_ ?_ <;> (unfold worker_publish; split <;> rfl)

theorem heights_of_cellStep {l1 l2 : List DownloadCell} (h : List.Forall₂ CellStep l1 l2) :
    l2.map (fun dc => dc.expected_height) = l1.map (fun dc => dc.expected_height) := by
  induction h with
  | nil => rfl
  | cons hab _ ih =>
    have : _ = _ := congrArg (fun x => x.2.1) hab.1
    simp only [cell_id] at this
    simp [this, ih]

theorem ascending_iff_heights (cells : List DownloadCell) :
    Ascending cells ↔
      List.Chain' (fun a b => b = a + 1) (cells.map (fun dc => dc.expected_height)) := by
  unfold Ascending
  rw [List.chain'_map]

theorem next_height_heights (cells : List DownloadCell) :
    next_height cells = (cells.map (fun dc => dc.expected_height)).getLast?.map (· + 1) := by
  unfold next_height
  rw [List.getLast?_map, Option.map_map]
  rfl

theorem contiguous_quiet {s t : DownloaderV11} (hq : Quiet s t) (h : Contiguous s) :
    Contiguous t := by
  obtain ⟨q1, q2, _, q4⟩ := hq
  have hh := heights_of_cellStep q4
  refine ⟨?_, ?_⟩
  · rw [ascending_iff_heights, hh, ← ascending_iff_heights]; exact h.1
  · unfold Linked
    rw [q1, q2, next_height_heights, hh, ← next_height_heights]
    exact h.2

theorem next_height_append_singleton (cells : List DownloadCell) (dc : DownloadCell) :
    next_height (cells ++ [dc]) = some (dc.expected_height + 1) := by
  simp [next_height]

theorem ascending_snoc (cells : List DownloadCell) (dc : DownloadCell) (h : Ascending cells)
    (hl : ∀ x ∈ next_height cells, dc.expected_height = x) : Ascending (cells ++ [dc]) := by
  unfold Ascending at h ⊢
  rw [List.chain'_append]
  refine ⟨h, List.chain'_singleton _, ?_⟩
  intro x hx y hy
  simp only [List.head?_cons, Option.mem_def, Option.some.injEq] at hy
  subst hy
  apply hl
  unfold next_height
  rw [Option.mem_def] at hx ⊢
  rw [hx]
  rfl

theorem promote_loop_contiguous (source : Address) (chain : List Hash) :
    ∀ (cells : List DownloadCell) (start : Height), Ascending cells → Linked cells chain start →
      Ascending (promote_loop source chain cells start).1 ∧
        Linked (promote_loop source chain cells start).1
          (promote_loop source chain cells start).2.1
          (promote_loop source chain cells start).2.2.1 := by
  induction chain with
  | nil => intro cells start h _; exact ⟨h, fun hne => absurd rfl hne⟩
  | cons bid rest ih =>
    intro cells start h hl
    rw [promote_loop]
    split
    · obtain ⟨hl1, hl2⟩ := hl (by simp)
      simp only [List.length_cons] at hl2
      unfold Height at start hl2
      apply ih
      · exact ascending_snoc _ _ h hl1
      · intro hne
        have hpos : 0 < rest.length := List.length_pos.mpr hne
        have hlt : start + 1 < HEIGHT_T := by omega
        rw [Nat.mod_eq_of_lt hlt, next_height_append_singleton]
        refine ⟨?_, ?_⟩
        · intro x hx
          simp only [Option.mem_def, Option.some.injEq] at hx
          exact hx
        · unfold Height; omega
    · exact ⟨h, hl⟩

theorem contiguous_promote (s : DownloaderV11) (h : Contiguous s) : Contiguous (promote s) :=
  promote_loop_contiguous s.chain_source s.m_chain s.m_download_chain s.m_chain_start_height
    h.1 h.2

theorem contiguous_drained (env : Env) (budget : Nat) (s : DownloaderV11) (h : Contiguous s) :
    Contiguous (drained env budget s) := by
  obtain ⟨dropped, h1, _, _⟩ := drain_spec env s.m_download_chain budget env.bc
  have e4 : (drained env budget s).m_download_chain =
      (drain env s.m_download_chain budget env.bc).cells := rfl
  obtain ⟨ha, hl⟩ := h
  refine ⟨?_, ?_⟩
  · rw [e4]
    unfold Ascending at ha ⊢
    rw [h1] at ha
    exact ha.right_of_append
  · intro hne
    obtain ⟨hl1, hl2⟩ := hl hne
    refine ⟨?_, hl2⟩
    intro x hx
    apply hl1
    rw [e4] at hx
    unfold next_height at hx ⊢
    rw [h1]
    cases hd : (drain env s.m_download_chain budget env.bc).cells with
    | nil => rw [hd] at hx; simp at hx
    | cons a l =>
      rw [hd] at hx
      rw [List.getLast?_append_of_ne_nil _ (by simp)]
      exact hx

theorem contiguous_prim {incoming : Peer → Bool} {s t : DownloaderV11}
    (hst : Prim continues_queue incoming s t) (h : Contiguous s) : Contiguous t := by
  rcases prim_frame hst with hq | rfl | ⟨env, budget, rfl⟩ | ⟨env, who, req, _, hok, rfl | rfl⟩
  · exact contiguous_quiet hq h
  · exact contiguous_promote s h
  · exact contiguous_drained env budget s h
  · exact ⟨h.1, hok⟩
  · exact ⟨h.1, hok⟩

/-- C5 (amended): as long as every accepted chain response continues the queue, the expected
heights of consecutive cells of `m_download_chain` increase by exactly 1. -/
theorem heights_ascend_if_responses_continue (incoming : Peer → Bool) (s : DownloaderV11)
    (h : ReachableIf continues_queue incoming s) : Ascending s.m_download_chain := by
  have hs := reachableIf_steps h
  clear h
  have : Contiguous s := by
    induction hs with
    | refl => exact ⟨List.chain'_nil, fun hne => absurd rfl hne⟩
    | tail _ hp ih => exact contiguous_prim hp ih
  exact this.1

theorem demo_one_cell_reachable :
    ReachableIf continues_queue demo_env.is_incoming demo_one_cell ∧
      Reachable demo_env.is_incoming demo_one_cell := by
  have a1 : handle 3 demo_env (.connect 1) init = .ok (after 3 demo_env (.connect 1) init) := rfl
  have a2 : handle 3 demo_env (.chain_response 1 ⟨100, [7]⟩) (after 3 demo_env (.connect 1) init) =
      .ok demo_one_cell := rfl
  refine ⟨?_, ?_⟩
  · refine .step 3 demo_env _ _ _ (.step 3 demo_env _ _ _ .init rfl ?_ a1) rfl ?_ a2
    · intro who req h; cases h
    · intro who req h _; cases h; decide
  · exact .step 3 demo_env _ _ _ (.step 3 demo_env _ _ _ .init rfl a1) rfl a2

theorem demo_contiguous_reachable :
    ReachableIf continues_queue demo_env.is_incoming demo_contiguous_state := by
  refine .step 3 demo_env (.chain_response 1 ⟨101, [8]⟩) _ _ demo_one_cell_reachable.1 rfl ?_ rfl
  intro who req h _; cases h; decide

theorem heights_ascend_if_responses_continue_witness :
    demo_contiguous_state.m_download_chain.map (fun dc => dc.expected_height) = [100, 101] ∧
      Ascending demo_contiguous_state.m_download_chain :=
  ⟨by decide, heights_ascend_if_responses_continue demo_env.is_incoming demo_contiguous_state
    demo_contiguous_reachable⟩

/-- C5 as stated fails: after two accepted chain responses with start heights 100 and 500 the
queue holds cells expected at heights 100 and 500. -/
theorem heights_need_not_ascend :
    Reachable demo_env.is_incoming demo_gap_state ∧
      demo_gap_state.m_download_chain.map (fun dc => dc.expected_height) = [100, 500] ∧
      ¬ Ascending demo_gap_state.m_download_chain :=
  ⟨.step 3 demo_env (.chain_response 1 ⟨500, [8]⟩) _ _ demo_one_cell_reachable.2 rfl rfl,
    by decide, by
      intro h
      rw [ascending_iff_heights,
        (by decide : demo_gap_state.m_download_chain.map (fun dc => dc.expected_height) =
          [100, 500])] at h
      simp at h⟩

theorem handed_append (tr es : List Effect) : handed (tr ++ es) = handed tr ++ handed es := by
  unfold handed; exact List.filterMap_append _ _ _

theorem handed_of_applied_nil (es : List Effect) (h : applied es = []) : handed es = [] := by
  unfold applied at h
  unfold handed
  rw [List.filterMap_eq_nil_iff] at h ⊢
  intro e he
  have := h e he
  cases e <;> simp_all

theorem inner_trace {incoming : Peer → Bool} {s t : DownloaderV11} (hst : Inner incoming s t) :
    ∃ es, t.trace = s.trace ++ es ∧ applied es = [] := by
  cases hst with
  | note _ es hes => exact ⟨es, rfl, applied_no_mark es hes⟩
  | promote env _ _ => exact ⟨_, rfl, (applied_promoted_marks _).1⟩
  | elect env best _ _ _ _ _ _ => exact ⟨_, rfl, applied_no_mark _ (by simp [Effect.is_mark])⟩
  | assign env _ => exact ⟨_, rfl, applied_no_mark _ (assign_loop_sent env _ _ _ _)⟩
  | protect env who _ _ _ => exact ⟨_, rfl, applied_no_mark _ (by simp [Effect.is_mark])⟩
  | scrub who _ _ _ =>
    unfold scrub
    dsimp only
    split
    · exact ⟨[.chain_timer_cancel], rfl, rfl⟩
    · exact ⟨[], by simp, rfl⟩

theorem inner_steps_trace {incoming : Peer → Bool} {s t : DownloaderV11}
    (hst : InnerSteps incoming s t) : ∃ es, t.trace = s.trace ++ es ∧ applied es = [] := by
  induction hst with
  | refl => exact ⟨[], by simp, rfl⟩
  | tail _ hp ih =>
    obtain ⟨es1, h1, a1⟩ := ih
    obtain ⟨es2, h2, a2⟩ := inner_trace hp
    exact ⟨es1 ++ es2, by rw [h2, h1, List.append_assoc], by rw [applied_append, a1, a2]; rfl⟩

theorem sync_at_tip_trace (env : Env) (s : DownloaderV11) :
    ∃ es, (sync_at_tip env s).trace = s.trace ++ es ∧ applied es = [] := by
  unfold sync_at_tip
  split
  · split
    · exact ⟨[.sync_transactions _], rfl, rfl⟩
    · exact ⟨[], by simp, rfl⟩
  · exact ⟨[], by simp, rfl⟩

theorem drain_hands_next_height (env : Env)
    (hadd : ∀ bc pb, (env.add_block bc pb).2.tip_height = bc.tip_height + 1)
    (cells : List DownloadCell) :
    ∀ (budget : Nat) (bc : BlockChainState), Ascending cells →
      (∀ dc ∈ cells.head?, dc.expected_height = bc.tip_height + 1) →
      ∀ p ∈ handed (drain env cells budget bc).added, p.1 = p.2 + 1 := by
  induction cells with
  | nil => intro budget bc _ _ p hp; simp [drain, handed] at hp
  | cons dc rest ih =>
    intro budget bc hasc hhead p hp
    have hdc : dc.expected_height = bc.tip_height + 1 := hhead dc rfl
    rw [drain] at hp
    split at hp
    · cases budget with
      | zero =>
        simp only [handed, List.filterMap_cons, List.filterMap_nil, List.mem_singleton] at hp
        subst hp
        exact hdc
      | succ b =>
        simp only [handed, List.filterMap_cons, List.mem_cons] at hp
        rcases hp with rfl | hp
        · exact hdc
        · refine ih b (env.add_block bc dc.pb).2 ?_ ?_ p hp
          · unfold Ascending at hasc ⊢
            exact hasc.tail
          · intro x hx
            rw [hadd]
            cases rest with
            | nil => simp at hx
            | cons y l =>
              simp only [List.head?_cons, Option.mem_def, Option.some.injEq] at hx
              subst hx
              unfold Ascending at hasc
              have := List.Chain'.rel_head hasc
              unfold Height at *
              omega
    · simp [handed] at hp

/-- C6 (amended): when `on_idle` starts with a queue whose expected heights ascend by 1 from the
tip height plus 1, and every call of `add_block` raises the tip height by exactly 1, then each
cell it hands to `add_block` is expected at the tip height just before that call plus 1. -/
theorem on_idle_hands_next_height (fuel : Nat) (env : Env) (budget : Nat) (s t : DownloaderV11)
    (again : Bool) (h : on_idle fuel env budget s = .ok (t, again))
    (hasc : Ascending s.m_download_chain)
    (hhead : ∀ dc ∈ s.m_download_chain.head?, dc.expected_height = env.bc.tip_height + 1)
    (hadd : ∀ bc pb, (env.add_block bc pb).2.tip_height = bc.tip_height + 1) :
    ∃ es, t.trace = s.trace ++ es ∧ ∀ p ∈ handed es, p.1 = p.2 + 1 := by
  have hstep : List.Forall₂ CellStep s.m_download_chain (collect s).m_download_chain := by
    simp only [collect, multicore, if_true]
    exact cellStep_collect_prepared _ _
  have hh := heights_of_cellStep hstep
  have hasc1 : Ascending (collect s).m_download_chain := by
    rw [ascending_iff_heights, hh, ← ascending_iff_heights]; exact hasc
  have hhead1 : ∀ dc ∈ (collect s).m_download_chain.head?,
      dc.expected_height = env.bc.tip_height + 1 := by
    intro dc hdc
    have e : ((collect s).m_download_chain.map (fun dc => dc.expected_height)).head? =
        (s.m_download_chain.map (fun dc => dc.expected_height)).head? := by rw [hh]
    rw [List.head?_map, List.head?_map, Option.mem_def.mp hdc] at e
    cases hs : s.m_download_chain.head? with
    | none => rw [hs] at e; cases e
    | some a =>
      rw [hs] at e
      simp only [Option.map_some', Option.some.injEq] at e
      rw [e]
      exact hhead a hs
  have hd := drain_hands_next_height env hadd _ budget env.bc hasc1 hhead1
  have htr : (drained env budget (collect s)).trace =
      s.trace ++ (drain env (collect s).m_download_chain budget env.bc).added := by
    simp [drained, log, collect, multicore]
  unfold on_idle at h
  dsimp only at h
  split at h
  · simp only [bind, Except.bind] at h
    split at h
    · cases h
    · rename_i s3 h3
      cases h
      obtain ⟨es, he, ha⟩ := inner_steps_trace
        (@advance_download_steps env.is_incoming fuel
          { env with bc := (drain env (collect s).m_download_chain budget env.bc).bc } rfl _ _ h3)
      have hlog : (log (drained env budget (collect s)) [Effect.advance_long_poll]).trace =
          (drained env budget (collect s)).trace ++ [Effect.advance_long_poll] := rfl
      rw [hlog, htr] at he
      obtain ⟨es2, he2, ha2⟩ := sync_at_tip_trace
        { env with bc := (drain env (collect s).m_download_chain budget env.bc).bc } s3
      refine ⟨(drain env (collect s).m_download_chain budget env.bc).added ++
        ([Effect.advance_long_poll] ++ es ++ es2), ?_, ?_⟩
      · rw [he2, he]; simp
      · intro p hp
        rw [handed_append, handed_append, handed_append, handed_of_applied_nil es ha,
          handed_of_applied_nil es2 ha2] at hp
        simp only [handed, List.filterMap_cons, List.filterMap_nil, List.append_nil] at hp hd
        exact hd p hp
  · cases h
    exact ⟨_, htr, hd⟩

theorem demo_idle_99_run :
    on_idle 3 demo_env_99 10 demo_ready_state = .ok (demo_idle_99.1, demo_idle_99.2) := by rfl

theorem demo_ready_ascending : Ascending demo_ready_state.m_download_chain := by
  rw [ascending_iff_heights,
    (by decide : demo_ready_state.m_download_chain.map (fun dc => dc.expected_height) =
      [100, 101, 102])]
  simp

theorem on_idle_hands_next_height_witness :
    handed demo_idle_99.1.trace = [(100, 99)] ∧
      ∃ es, demo_idle_99.1.trace = demo_ready_state.trace ++ es ∧
        ∀ p ∈ handed es, p.1 = p.2 + 1 :=
  ⟨by decide, on_idle_hands_next_height 3 demo_env_99 10 demo_ready_state demo_idle_99.1
    demo_idle_99.2 demo_idle_99_run demo_ready_ascending (by decide) (fun _ _ => rfl)⟩

/-- C6 as stated fails: the planner announced block 7 at height 100 while the tip is at height 0,
and `on_idle` hands that cell to `add_block`. -/
theorem add_block_height_mismatch :
    Reachable demo_env.is_incoming demo_ready_state ∧
      handle 3 demo_env (.idle 10) demo_ready_state = .ok demo_idle_state ∧
      handed demo_ready_state.trace = [] ∧ handed demo_idle_state.trace = [(100, 0)] ∧
      ¬ ∀ p ∈ handed demo_idle_state.trace, p.1 = p.2 + 1 :=
  ⟨demo_ready_reachable, demo_idle_run, by decide, by decide, by decide⟩

theorem take_cell_none_of_stray (who : Peer) (bid : Hash) (rb : RawBlock)
    (cells : List DownloadCell) (h : stray who bid cells) : take_cell who bid rb cells = none := by
  induction cells with
  | nil => rfl
  | cons dc rest ih =>
    rw [take_cell]
    have hd := h dc (List.mem_cons_self _ _)
    have hr := ih (fun x hx => h x (List.mem_cons_of_mem _ hx))
    split
    · rw [hr]
    · rename_i hc
      simp only [not_or, not_not] at hc
      exact absurd hc hd

theorem objects_loop_stray (disc : Peer → DownloaderV11 → M DownloaderV11) (env : Env)
    (who : Peer) (rb : RawBlock) (bid : Hash) (post : List RawBlock)
    (hbid : env.block_hash rb.block = some bid) (pre : List RawBlock) :
    ∀ (s s1 : DownloaderV11), accept_all env who pre s = some s1 →
      stray who bid s1.m_download_chain →
      objects_loop disc env who (pre ++ rb :: post) s = disc who s1 := by
  induction pre with
  | nil =>
    intro s s1 h hs
    cases h
    rw [List.nil_append, objects_loop, hbid]
    dsimp only
    rw [take_cell_none_of_stray who bid rb _ hs]
  | cons x pre ih =>
    intro s s1 h hs
    rw [accept_all] at h
    rw [List.cons_append, objects_loop]
    split at h
    · cases h
    · rename_i b hb
      try rw [hb]
      try dsimp only
      split at h
      · cases h
      · rename_i cells dc htake
        try rw [htake]
        try dsimp only
        split at h
        · cases h
        · rename_i hg
          try rw [if_neg hg]
          exact ih _ _ h hs

theorem accept_all_steps {chain_ok : Env → Peer → ChainResponse → DownloaderV11 → Prop}
    {incoming : Peer → Bool} (env : Env) (who : Peer) (pre : List RawBlock) :
    ∀ (s s1 : DownloaderV11), accept_all env who pre s = some s1 →
      Steps chain_ok incoming s s1 := by
  induction pre with
  | nil => intro s s1 h; cases h; exact .refl
  | cons x pre ih =>
    intro s s1 h
    rw [accept_all] at h
    split at h
    · cases h
    · rename_i b hb
      split at h
      · cases h
      · rename_i cells dc htake
        split at h
        · cases h
        · rename_i hg
          simp only [not_or] at hg
          exact .trans (.single (.receive env who x b cells dc s hb htake hg.1 hg.2.1 hg.2.2))
            (ih _ _ h)

/-- C9 (amended): when the blocks `pre` of an object response all match and the next block
matches no cell that is DOWNLOADING and assigned to the sender, then the sender is disconnected
in the state `s1` reached after `pre`; the blocks after the stray one are not looked at; the
cells keep what `pre` gave them; and when the callback returns no cell is assigned to the
sender. -/

theorem stray_block_bans_sender (incoming : Peer → Bool) (s : DownloaderV11)
    (hr : Reachable incoming s) (fuel : Nat) (env : Env) (henv : env.is_incoming = incoming)
    (who : Peer) (pre post : List RawBlock) (rb : RawBlock) (bid : Hash) (s1 t : DownloaderV11)
    (hpre : accept_all env who pre s = some s1) (hbid : env.block_hash rb.block = some bid)
    (hstray : stray who bid s1.m_download_chain)
    (ht : on_msg_notify_request_objects fuel env who (pre ++ rb :: post) s = .ok t) :
    (∃ es, t.trace = s1.trace ++ Effect.disconnect who :: es) ∧
      on_msg_notify_request_objects fuel env who (pre ++ [rb]) s = .ok t ∧
      (∀ (i : Nat) (a : DownloadCell), s1.m_download_chain[i]? = some a →
        ∃ b, t.m_download_chain[i]? = some b ∧ cell_id b = cell_id a ∧
          a.status.rank ≤ b.status.rank) ∧
      ∀ dc ∈ t.m_download_chain, dc.downloading_client ≠ some who := by
  have hreach : Reachable incoming t :=
    Reachable.step fuel env (.objects_response who (pre ++ rb :: post)) s t hr henv ht
  have hinv := reachable_inv hreach
  have hloop := fun post => objects_loop_stray (disconnect (advance_download fuel env) env) env
    who rb bid post hbid pre s s1 hpre hstray
  have hsame : on_msg_notify_request_objects fuel env who (pre ++ [rb]) s =
      on_msg_notify_request_objects fuel env who (pre ++ rb :: post) s := by
    unfold on_msg_notify_request_objects
    rw [hloop [], hloop post]
  unfold on_msg_notify_request_objects at ht
  rw [hloop post] at ht
  simp only [bind, Except.bind] at ht
  split at ht
  · cases ht
  · rename_i s2 h2
    have st2 : InnerSteps incoming (log s1 [.disconnect who]) s2 :=
      on_disconnect_steps henv (advance_download_steps fuel env henv) h2
    have st3 : InnerSteps incoming s2 t := advance_download_steps fuel env henv _ _ ht
    have st := st2.trans st3
    obtain ⟨es, he, ha⟩ := inner_steps_trace st
    have hkey : who ∉ map_keys t.m_good_clients := by
      intro hp
      have hp2 := inner_steps_keys st3 who hp
      unfold disconnect on_disconnect at h2
      split at h2
      · rename_i hinc
        have := hinv.outgoing who hp
        rw [← henv, hinc] at this
        cases this
      · split at h2
        · cases h2
        · have := inner_steps_keys (advance_download_steps fuel env henv _ _ h2) who hp2
          rw [(scrub_fields who _).1, map_keys_erase] at this
          simpa using (List.mem_filter.mp this).2
    refine ⟨⟨es, by rw [he]; simp [log]⟩, hsame.trans (by
      unfold on_msg_notify_request_objects
      rw [hloop post]
      simp only [bind, Except.bind, h2]
      exact ht), ?_, fun dc hdc hc => hkey (hinv.owner dc hdc who hc).2⟩
    intro i a hia
    have hg : Grows (log s1 [.disconnect who]) t :=
      grows_steps (@inner_to_steps (fun _ _ _ _ => True) incoming _ _ st)
    have happ : applied t.trace = applied (log s1 [.disconnect who]).trace := by
      rw [he, applied_append, ha, List.append_nil]
    obtain ⟨b, hb, hab⟩ := grows_index hg i a (by rw [happ]; simpa [log] using hia)
    exact ⟨b, hb, hab.1, hab.2.1⟩

theorem demo_stray_run :
    on_msg_notify_request_objects 3 demo_env 1 ([⟨[7], []⟩] ++ ⟨[8], []⟩ :: [⟨[9], []⟩])
      demo_state = .ok demo_stray_state := by rfl

theorem stray_block_bans_sender_witness :
    (∃ es, demo_stray_state.trace = demo_stray_accepted.trace ++ Effect.disconnect 1 :: es) ∧
      on_msg_notify_request_objects 3 demo_env 1 ([⟨[7], []⟩] ++ [⟨[8], []⟩]) demo_state =
        .ok demo_stray_state ∧
      (∀ (i : Nat) (a : DownloadCell), demo_stray_accepted.m_download_chain[i]? = some a →
        ∃ b, demo_stray_state.m_download_chain[i]? = some b ∧ cell_id b = cell_id a ∧
          a.status.rank ≤ b.status.rank) ∧
      ∀ dc ∈ demo_stray_state.m_download_chain, dc.downloading_client ≠ some 1 :=
  stray_block_bans_sender demo_env.is_incoming demo_state demo_reachable 3 demo_env rfl 1
    [⟨[7], []⟩] [⟨[9], []⟩] ⟨[8], []⟩ 8 demo_stray_accepted demo_stray_state (by rfl) (by rfl)
    (by decide) demo_stray_run

/-- C9 as stated fails in its last part: the cell of block 9, assigned to the sender when the
stray block arrives, is assigned to peer 2 when `on_disconnect` returns, not unassigned. -/
theorem stray_block_cells_reassigned :
    Reachable demo_env.is_incoming demo_state ∧
      accept_all demo_env 1 [⟨[7], []⟩] demo_state = some demo_stray_accepted ∧
      stray 1 8 demo_stray_accepted.m_download_chain ∧
      on_msg_notify_request_objects 3 demo_env 1 demo_stray_blocks demo_state =
        .ok demo_stray_state ∧
      disconnect (advance_download 3 demo_env) demo_env 1 demo_stray_accepted =
        .ok demo_stray_state ∧
      demo_stray_accepted.m_download_chain.map (fun dc => (dc.bid, dc.downloading_client)) =
        [(7, none), (8, some 2), (9, some 1)] ∧
      demo_stray_state.m_download_chain.map (fun dc => (dc.bid, dc.downloading_client)) =
        [(7, none), (8, some 2), (9, some 2)] :=
  ⟨demo_reachable, by rfl, by decide, by rfl, by rfl, by decide, by decide⟩

theorem speed_of_range (ring : List Peer) (who : Peer) :
    1 ≤ speed_of ring who ∧ speed_of ring who ≤ 100 := by
  unfold speed_of TOTAL_DOWNLOAD_BLOCKS
  omega

theorem choose_loop_some (env : Env) (ring : List Peer) (h : Height)
    (clients : List (Peer × Nat)) (c : Peer) (n sp : Nat) :
    choose_loop env ring h clients (some c) n sp ≠ none := by
  induction clients generalizing c n sp with
  | nil => simp [choose_loop]
  | cons who rest ih =>
    rw [choose_loop]
    split
    · exact ih _ _ _
    · exact ih _ _ _

theorem first_test (ring : List Peer) (who : Peer × Nat) (hw : who.2 ≤ TOTAL_DOWNLOAD_BLOCKS) :
    (who.2 * 1) % SIZE_T < (SIZE_MAX * speed_of ring who.1) % SIZE_T := by
  obtain ⟨h1, h2⟩ := speed_of_range ring who.1
  generalize speed_of ring who.1 = sp at h1 h2
  unfold TOTAL_DOWNLOAD_BLOCKS at hw
  have key : SIZE_MAX * sp = SIZE_T * (sp - 1) + (SIZE_T - sp) := by
    unfold SIZE_MAX SIZE_T
    norm_num
    omega
  rw [key, Nat.mul_add_mod, Nat.mul_one]
  unfold SIZE_T
  rw [Nat.mod_eq_of_lt (by omega), Nat.mod_eq_of_lt (by omega)]
  omega

theorem choose_loop_none_iff (env : Env) (ring : List Peer) (h : Height)
    (clients : List (Peer × Nat)) (hb : ∀ e ∈ clients, e.2 ≤ TOTAL_DOWNLOAD_BLOCKS) :
    choose_loop env ring h clients none SIZE_MAX 1 = none ↔ ¬ eligible env h clients := by
  induction clients with
  | nil => simp [choose_loop, eligible, map_keys]
  | cons who rest ih =>
    have ih := ih (fun e he => hb e (List.mem_cons_of_mem _ he))
    have ht := first_test ring who (hb who (List.mem_cons_self _ _))
    rw [choose_loop]
    by_cases hh : (env.sync_data who.1).current_height ≥ h
    · rw [if_pos ⟨ht, hh⟩]
      constructor
      · intro hc; exact absurd hc (choose_loop_some _ _ _ _ _ _ _)
      · intro hne
        exact absurd ⟨who.1, by simp [map_keys], hh⟩ hne
    · rw [if_neg (fun hc => hh hc.2), ih]
      unfold eligible map_keys
      simp only [List.map_cons, List.mem_cons, exists_eq_or_imp, hh, false_or]

theorem choose_client_none_iff (env : Env) (ring : List Peer) (h : Height)
    (clients : List (Peer × Nat)) (hb : ∀ e ∈ clients, e.2 ≤ TOTAL_DOWNLOAD_BLOCKS) :
    choose_client env ring h clients = none ↔ ¬ eligible env h clients :=
  choose_loop_none_iff env ring h clients hb

theorem eligible_congr (env : Env) (h : Height) {c1 c2 : List (Peer × Nat)}
    (hk : map_keys c1 = map_keys c2) : eligible env h c1 ↔ eligible env h c2 := by
  unfold eligible; rw [hk]

theorem map_update_bound (c : Peer) (total : Nat) (clients : List (Peer × Nat))
    (hb : ∀ e ∈ clients, e.2 ≤ total) :
    ∀ e ∈ map_update clients c (fun v => v + 1), e.2 ≤ total + 1 := by
  induction clients with
  | nil => intro e he; simp [map_update] at he
  | cons x rest ih =>
    obtain ⟨k, v⟩ := x
    intro e he
    rw [map_update] at he
    have hx : v ≤ total := hb (k, v) (List.mem_cons_self _ _)
    have ih := ih (fun e he => hb e (List.mem_cons_of_mem _ he))
    split at he
    · rcases List.mem_cons.mp he with rfl | he
      · show v + 1 ≤ total + 1
        omega
      · exact ih e he
    · rcases List.mem_cons.mp he with rfl | he
      · show v ≤ total + 1
        omega
      · exact ih e he

theorem countBound_add_one (clients : List (Peer × Nat)) (total : Nat) (c : Peer)
    (hc : c ∈ map_keys clients) (hb : CountBound clients total)
    (ht : ¬ total ≥ TOTAL_DOWNLOAD_BLOCKS) : CountBound (map_add_one clients c) (total + 1) := by
  refine ⟨by omega, ?_⟩
  rw [map_add_one_of_mem clients c hc]
  exact map_update_bound c total clients hb.2

theorem assign_loop_bound (env : Env) (ring : List Peer) (cells : List DownloadCell) :
    ∀ (clients : List (Peer × Nat)) (total : Nat), CountBound clients total →
      CountBound (assign_loop env ring cells clients total).m_good_clients
        (assign_loop env ring cells clients total).total_downloading_blocks := by
  induction cells with
  | nil => intro clients total hb; exact hb
  | cons dc rest ih =>
    intro clients total hb
    rw [assign_loop]
    split
    · exact ih _ _ hb
    · split
      · exact hb
      · split
        · exact ih _ _ hb
        · rename_i _ ht _ c hc
          exact ih _ _ (countBound_add_one _ _ c (choose_client_mem env ring _ clients c hc) hb ht)

theorem assign_loop_idem (env : Env) (ring : List Peer) (cells : List DownloadCell) :
    ∀ (clients : List (Peer × Nat)) (total : Nat), CountBound clients total →
      assign_loop env ring (assign_loop env ring cells clients total).cells
          (assign_loop env ring cells clients total).m_good_clients
          (assign_loop env ring cells clients total).total_downloading_blocks =
        ⟨(assign_loop env ring cells clients total).cells,
          (assign_loop env ring cells clients total).m_good_clients,
          (assign_loop env ring cells clients total).total_downloading_blocks, []⟩ := by
  induction cells with
  | nil => intro clients total _; rfl
  | cons dc rest ih =>
    intro clients total hb
    rw [assign_loop]
    split
    · rename_i h1
      dsimp only
      rw [assign_loop, if_pos h1, ih _ _ hb]
    · rename_i h1
      split
      · rename_i h2
        rw [assign_loop, if_neg h1, if_pos h2]
      · rename_i h2
        split
        · rename_i hnone
          dsimp only
          rw [assign_loop, if_neg h1]
          split
          · rfl
          · have hb0 := assign_loop_bound env ring rest clients total hb
            have hk := (assign_loop_spec env ring rest clients total).1
            have hb1 : ∀ e ∈ clients, e.2 ≤ TOTAL_DOWNLOAD_BLOCKS :=
              fun e he => le_trans (hb.2 e he) hb.1
            have hb2 : ∀ e ∈ (assign_loop env ring rest clients total).m_good_clients,
                e.2 ≤ TOTAL_DOWNLOAD_BLOCKS := fun e he => le_trans (hb0.2 e he) hb0.1
            have hn2 : choose_client env ring dc.expected_height
                (assign_loop env ring rest clients total).m_good_clients = none := by
              rw [choose_client_none_iff _ _ _ _ hb2, eligible_congr env _ hk,
                ← choose_client_none_iff _ _ _ _ hb1]
              exact hnone
            rw [hn2]
            dsimp only
            rw [ih _ _ hb]
        · rename_i c hc
          dsimp only
          have hb' := countBound_add_one _ _ c (choose_client_mem env ring _ clients c hc) hb h2
          rw [assign_loop]
          split
          · dsimp only
            rw [ih _ _ hb']
          · rename_i hcon
            exact absurd (Or.inr rfl) hcon

theorem promote_loop_done (source : Address) (chain : List Hash) :
    ∀ (cells : List DownloadCell) (start : Height),
      (promote_loop source chain cells start).2.1 = [] ∨
        TOTAL_DOWNLOAD_WINDOW ≤ (promote_loop source chain cells start).1.length := by
  induction chain with
  | nil => intro cells start; left; rfl
  | cons bid rest ih =>
    intro cells start
    rw [promote_loop]
    split
    · exact ih _ _
    · right; rename_i h; exact not_lt.mp h

theorem promotionDone_promote (s : DownloaderV11) : PromotionDone (promote s) :=
  promote_loop_done s.chain_source s.m_chain s.m_download_chain s.m_chain_start_height

theorem promote_of_done (s : DownloaderV11) (h : PromotionDone s) : promote s = s := by
  have : promote_loop s.chain_source s.m_chain s.m_download_chain s.m_chain_start_height =
      (s.m_download_chain, s.m_chain, s.m_chain_start_height, []) := by
    rcases h with h | h
    · rw [h]; rfl
    · cases hc : s.m_chain with
      | nil => rfl
      | cons bid rest => rw [promote_loop, if_neg (not_lt.mpr h)]
  unfold promote
  rw [this]
  simp

theorem advance_chain_of_done (disc : Peer → DownloaderV11 → M DownloaderV11) (env : Env)
    (s : DownloaderV11) (h : PlanDone env s) : advance_chain disc env s = .ok s := by
  unfold advance_chain
  rcases h with h | h | ⟨h1, h2⟩
  · rw [if_pos (Or.inl h)]; rfl
  · rw [if_pos (Or.inr h)]; rfl
  · split
    · rfl
    · rw [h1]
      dsimp only
      cases hb : (sorted_clients env s).getLast? with
      | none => rfl
      | some best =>
        dsimp only
        rw [if_pos (h2 best hb)]
        rfl

theorem settled_fix (env : Env) (s : DownloaderV11) (h : Settled env s) (k : Nat) :
    advance_download (k + 1) env s = .ok s := by
  obtain ⟨h1, h2, h3, h4⟩ := h
  rw [advance_download]
  split
  · rfl
  · rw [promote_of_done s h1]
    dsimp only
    rw [advance_chain_of_done _ env s h2]
    simp only [bind, Except.bind]
    rw [h3, if_neg h4]
    rfl

theorem truncate_ring_idem (ring : List Peer) :
    truncate_ring (truncate_ring ring) = truncate_ring ring := by
  unfold truncate_ring
  have : (List.drop (ring.length - TOTAL_DOWNLOAD_BLOCKS) ring).length - TOTAL_DOWNLOAD_BLOCKS
      = 0 := by
    rw [List.length_drop]; omega
  rw [this, List.drop_zero]

theorem assign_idem (env : Env) (s : DownloaderV11)
    (hb : CountBound s.m_good_clients s.total_downloading_blocks) :
    assign env (assign env s) = assign env s := by
  have h := assign_loop_idem env (truncate_ring s.m_who_downloaded_block) s.m_download_chain
    s.m_good_clients s.total_downloading_blocks hb
  unfold assign
  dsimp only
  rw [truncate_ring_idem, h]
  simp

theorem mem_find_of_nodup (m : List (Peer × Nat)) (h : (map_keys m).Nodup) (e : Peer × Nat)
    (he : e ∈ m) : map_count m e.1 = e.2 := by
  induction m with
  | nil => cases he
  | cons x rest ih =>
    obtain ⟨k, v⟩ := x
    unfold map_keys at h ih
    simp only [List.map_cons, List.nodup_cons] at h
    rcases List.mem_cons.mp he with rfl | he
    · simp [map_count, map_find]
    · have hne : ¬ k = e.1 := by
        intro hk
        exact h.1 (hk ▸ List.mem_map_of_mem Prod.fst he)
      have := ih h.2 he
      unfold map_count at this ⊢
      rw [map_find, if_neg hne]
      exact this

theorem assigned_to_le (p : Peer) (cells : List DownloadCell) :
    assigned_to p cells ≤ assigned cells := by
  unfold assigned_to assigned
  apply List.countP_mono_left
  intro dc _ h
  simp only [decide_eq_true_eq] at h
  simp [h]

theorem countBound_of_inv {incoming : Peer → Bool} {s : DownloaderV11} (h : Inv incoming s)
    (hc : Capped s) : CountBound s.m_good_clients s.total_downloading_blocks := by
  refine ⟨hc, ?_⟩
  intro e he
  rw [← mem_find_of_nodup _ (sorted_nodup _ h.sorted) e he, h.counts, h.total]
  exact assigned_to_le _ _

theorem assign_loop_capped (env : Env) (ring : List Peer) (cells : List DownloadCell) :
    ∀ (clients : List (Peer × Nat)) (total : Nat), total ≤ TOTAL_DOWNLOAD_BLOCKS →
      (assign_loop env ring cells clients total).total_downloading_blocks ≤
        TOTAL_DOWNLOAD_BLOCKS := by
  induction cells with
  | nil => intro clients total h; exact h
  | cons dc rest ih =>
    intro clients total h
    rw [assign_loop]
    split
    · exact ih _ _ h
    · split
      · exact h
      · split
        · exact ih _ _ h
        · rename_i _ ht _ c hc
          exact ih _ _ (by omega)

theorem capped_inner {incoming : Peer → Bool} {s t : DownloaderV11} (hst : Inner incoming s t)
    (h : Capped s) : Capped t := by
  cases hst with
  | note _ es _ => exact h
  | promote env _ _ => exact h
  | elect env best _ _ _ _ _ _ => exact h
  | assign env _ =>
    unfold Capped
    rw [(assign_fields env s).2.1]
    exact assign_loop_capped env _ _ _ _ h
  | protect env who _ _ _ => exact h
  | scrub who _ _ _ =>
    unfold Capped at h ⊢
    rw [(scrub_fields who s).2.1]
    omega

theorem capped_prim {chain_ok : Env → Peer → ChainResponse → DownloaderV11 → Prop}
    {incoming : Peer → Bool} {s t : DownloaderV11} (hst : Prim chain_ok incoming s t)
    (h : Capped s) : Capped t := by
  cases hst with
  | inner _ _ hi => exact capped_inner hi h
  | register env who _ hw _ =>
    unfold Capped register at *
    dsimp only
    split <;> exact h
  | chain_timer_fired _ => exact h
  | request_more env who req _ _ _ _ _ => exact h
  | accept_chain env who req _ _ _ _ _ => exact h
  | receive env who rb bid cells dc _ hb htake hf _ _ =>
    unfold Capped at h ⊢
    show s.total_downloading_blocks - 1 ≤ _
    omega
  | collect _ =>
    unfold Capped collect at *
    simp only [multicore, if_true]
    exact h
  | drained env budget _ => exact h
  | worker_take _ =>
    unfold Capped worker_take at *
    split <;> exact h
  | worker_publish i _ =>
    unfold Capped worker_publish at *
    split <;> exact h

theorem reachable_capped {incoming : Peer → Bool} {s : DownloaderV11}
    (h : Reachable incoming s) : Capped s := by
  have hs := reachable_steps h
  clear h
  induction hs with
  | refl => exact Nat.zero_le _
  | tail _ hp ih => exact capped_prim hp ih

theorem advance_chain_cases (disc : Peer → DownloaderV11 → M DownloaderV11) (env : Env)
    (s t : DownloaderV11) (h : advance_chain disc env s = .ok t) :
    (t = s ∧ PlanDone env s) ∨ (∃ best, t = elect env best s) ∨
      ∃ who, who ∈ map_keys s.m_good_clients ∧
        disc who (log s [.delay_connection_attempt (env.get_address who) env.local_time]) =
          .ok t := by
  unfold advance_chain at h
  split at h
  · rename_i h0
    cases h
    left
    refine ⟨rfl, ?_⟩
    rcases h0 with h0 | h0
    · exact Or.inl h0
    · exact Or.inr (Or.inl h0)
  · split at h
    · rename_i who rest hl
      right; right
      refine ⟨who, ?_, h⟩
      have : who ∈ lagging_clients env s := by rw [hl]; exact List.mem_cons_self _ _
      exact (List.mem_filter.mp this).1
    · rename_i hl
      split at h
      · rename_i hb
        cases h
        left
        exact ⟨rfl, Or.inr (Or.inr ⟨hl, fun best hbest => by rw [hb] at hbest; cases hbest⟩)⟩
      · rename_i best hb
        split at h
        · rename_i hle
          cases h
          left
          refine ⟨rfl, Or.inr (Or.inr ⟨hl, fun b hbest => ?_⟩)⟩
          rw [hb] at hbest
          cases hbest
          exact hle
        · cases h
          right; left
          exact ⟨best, rfl⟩

theorem planDone_congr (env : Env) {s u : DownloaderV11}
    (h1 : u.m_chain_client = s.m_chain_client) (h2 : u.m_chain = s.m_chain)
    (h3 : map_keys u.m_good_clients = map_keys s.m_good_clients)
    (h4 : u.m_download_chain.length = s.m_download_chain.length) (h : PlanDone env s) :
    PlanDone env u := by
  unfold PlanDone lagging_clients sorted_clients at *
  rw [h1, h2, h3, h4]
  exact h

theorem slacker_front (env : Env) (s : DownloaderV11)
    (h : bad_relatively_slow s ∨ bad_timeout env s) :
    ∃ who front rest, s.m_download_chain = front :: rest ∧
      front.downloading_client = some who ∧ front_client s = some who := by
  unfold bad_relatively_slow bad_timeout front_client at *
  cases hc : s.m_download_chain with
  | nil => rw [hc] at h; simp at h
  | cons front rest =>
    rw [hc] at h
    dsimp only at h ⊢
    cases hf : front.downloading_client with
    | none => rw [hf] at h; simp at h
    | some who => exact ⟨who, front, rest, rfl, hf, rfl⟩

theorem assign_keeps (env : Env) (s : DownloaderV11) :
    (assign env s).m_chain_client = s.m_chain_client ∧ (assign env s).m_chain = s.m_chain ∧
      map_keys (assign env s).m_good_clients = map_keys s.m_good_clients ∧
      (assign env s).m_download_chain.length = s.m_download_chain.length := by
  refine ⟨rfl, rfl, ?_, ?_⟩
  · rw [(assign_fields env s).1]; exact (assign_loop_spec env _ _ _ _).1
  · rw [(assign_fields env s).2.2.2]; exact (assign_loop_spec env _ _ _ _).2.2.2.length_eq.symm

/-- Whatever `advance_download` returns from a state that meets the invariant is a state on
which it has nothing left to do. -/
theorem advance_download_settles {incoming : Peer → Bool} :
    ∀ (fuel : Nat) (env : Env), env.is_incoming = incoming → ¬ importing env →
      ∀ (s t : DownloaderV11), Inv incoming s → Capped s →
        advance_download fuel env s = .ok t → Settled env t := by
  intro fuel
  induction fuel with
  | zero => intro env _ _ s t _ _ h; cases h
  | succ n ih =>
    intro env hinc himp s t hinv hcap h
    have nested : ∀ (who : Peer) (u v : DownloaderV11), Inv incoming u → Capped u →
        who ∈ map_keys u.m_good_clients →
        disconnect (advance_download n env) env who u = .ok v → Settled env v := by
      intro who u v hu hcu hw hd
      unfold disconnect on_disconnect at hd
      have hout : env.is_incoming who = false := by rw [hinc]; exact hu.outgoing who hw
      rw [hout] at hd
      simp only [Bool.false_eq_true, if_false] at hd
      split at hd
      · cases hd
      · rename_i hno
        have hu1 : Inv incoming (log u [.disconnect who]) := Inv.congr (s := u) rfl rfl rfl rfl hu
        exact ih env hinc himp _ _ (inv_scrub who _ hu1)
          (@capped_inner incoming _ _ (Inner.scrub who _ (hu.outgoing who hw) hno) hcu) hd
    rw [advance_download, if_neg himp] at h
    simp only [bind, Except.bind] at h
    split at h
    · cases h
    · rename_i s2 h2
      have hinv1 : Inv incoming (promote s) := inv_promote s hinv
      have hcap1 : Capped (promote s) := hcap
      have hd1 := promotionDone_promote s
      have finish : Inv incoming s2 → Capped s2 → PromotionDone s2 → PlanDone env s2 →
          Settled env t := by
        intro hinv2 hcap2 hpd2 hpl2
        obtain ⟨k1, k2, k3, k4⟩ := assign_keeps env s2
        have hinv3 := inv_assign env s2 hinv2
        have hcap3 : Capped (assign env s2) :=
          @capped_inner incoming _ _ (Inner.assign env s2) hcap2
        split at h
        · rename_i hbad
          obtain ⟨who, front, rest, hc, hf, hfc⟩ := slacker_front env _ hbad
          rw [hfc] at h
          dsimp only at h
          have hw : who ∈ map_keys (assign env s2).m_good_clients :=
            (hinv3.owner front (by rw [hc]; exact List.mem_cons_self _ _) who hf).2
          have hp : Inner incoming (assign env s2) (protect env who (assign env s2)) :=
            Inner.protect env who _ hfc hbad
          exact nested who _ t (inv_inner hp hinv3) (capped_inner hp hcap3) hw h
        · rename_i hbad
          cases h
          refine ⟨?_, planDone_congr env k1 k2 k3 k4 hpl2, ?_, hbad⟩
          · unfold PromotionDone at hpd2 ⊢
            rw [k2, k4]; exact hpd2
          · exact assign_idem env s2 (countBound_of_inv hinv2 hcap2)
      rcases advance_chain_cases _ env _ _ h2 with ⟨rfl, hpl⟩ | ⟨best, rfl⟩ | ⟨who, hw, hd⟩
      · exact finish hinv1 hcap1 hd1 hpl
      · exact finish (Inv.congr (s := promote s) rfl rfl rfl rfl hinv1) hcap1 hd1 (Or.inl rfl)
      · have hn : Inner incoming (promote s)
            (log (promote s)
              [.delay_connection_attempt (env.get_address who) env.local_time]) :=
          Inner.note _ _ (by simp [Effect.is_mark])
        have hs2 : Settled env s2 :=
          nested who _ s2 (inv_inner hn hinv1) (capped_inner hn hcap1) hw hd
        rw [hs2.2.2.1, if_neg hs2.2.2.2] at h
        cases h
        exact hs2

/-- C8: from a reachable state, with the clock, the peers' sync data and the blockchain held
fixed, a second call of `advance_download` right after a first one returns the state the first
call left, trace of messages and disconnects included: it changes nothing and sends nothing. -/

theorem advance_download_idempotent (incoming : Peer → Bool) (s : DownloaderV11)
    (hr : Reachable incoming s) (fuel : Nat) (env : Env) (henv : env.is_incoming = incoming)
    (t : DownloaderV11) (h : advance_download fuel env s = .ok t) (k : Nat) :
    advance_download (k + 1) env t = .ok t := by
  by_cases himp : importing env
  · rw [advance_download, if_pos himp]; rfl
  · exact settled_fix env t
      (advance_download_settles fuel env henv himp s t (reachable_inv hr) (reachable_capped hr) h)
      k

theorem demo_waiting_reachable : Reachable demo_env.is_incoming demo_waiting_state :=
  Reachable.step 3 demo_env_importing (.connect 1) init demo_waiting_state Reachable.init rfl rfl

theorem advance_download_idempotent_witness :
    (demo_waiting_state.m_chain_client = none ∧ demo_planned_state.m_chain_client = some 1) ∧
      advance_download 3 demo_env demo_waiting_state = .ok demo_planned_state ∧
      advance_download 1 demo_env demo_planned_state = .ok demo_planned_state :=
  ⟨by decide, by rfl,
    advance_download_idempotent demo_env.is_incoming demo_waiting_state demo_waiting_reachable 3
      demo_env rfl demo_planned_state (by rfl) 0⟩

theorem map_erase_length_le (m : List (Peer × Nat)) (p : Peer) :
    (map_erase m p).length ≤ m.length := by
  unfold map_erase; exact List.length_filter_le _ _

theorem map_erase_length_lt (m : List (Peer × Nat)) (p : Peer) (hp : p ∈ map_keys m) :
    (map_erase m p).length < m.length := by
  unfold map_erase
  unfold map_keys at hp
  obtain ⟨e, he, rfl⟩ := List.mem_map.mp hp
  apply List.length_filter_lt_length_iff_exists.mpr
  exact ⟨e, he, by simp⟩

theorem keys_length (m : List (Peer × Nat)) : (map_keys m).length = m.length := by
  unfold map_keys; exact List.length_map _ _

theorem inner_clients_length {incoming : Peer → Bool} {s t : DownloaderV11}
    (hst : Inner incoming s t) : t.m_good_clients.length ≤ s.m_good_clients.length := by
  cases hst with
  | note _ es _ => exact le_refl _
  | promote env _ _ => exact le_refl _
  | elect env best _ _ _ _ _ _ => exact le_refl _
  | assign env _ =>
    rw [← keys_length, ← keys_length s.m_good_clients, (assign_keeps env s).2.2.1]
  | protect env who _ _ _ => exact le_refl _
  | scrub who _ _ _ =>
    rw [(scrub_fields who s).1]
    exact map_erase_length_le _ _

theorem inner_steps_clients_length {incoming : Peer → Bool} {s t : DownloaderV11}
    (hst : InnerSteps incoming s t) : t.m_good_clients.length ≤ s.m_good_clients.length := by
  induction hst with
  | refl => exact le_refl _
  | tail _ hp ih => exact le_trans (inner_clients_length hp) ih

theorem inv_inner_steps {incoming : Peer → Bool} {s t : DownloaderV11}
    (hst : InnerSteps incoming s t) (h : Inv incoming s) : Inv incoming t := by
  induction hst with
  | refl => exact h
  | tail _ hp ih => exact inv_inner hp ih

/-- In a state that meets the invariant `on_disconnect` does not throw. -/
theorem no_underflow {incoming : Peer → Bool} {s : DownloaderV11} (h : Inv incoming s)
    (who : Peer) : ¬ s.total_downloading_blocks < map_count s.m_good_clients who := by
  rw [h.total, h.counts who]
  exact not_lt.mpr (assigned_to_le _ _)

/-- The call `on_disconnect(who)` returns when the call of `advance_download` that ends it
returns on every state with a registry that is no longer than what is left of this one. -/
theorem on_disconnect_returns {incoming : Peer → Bool} (env : Env)
    (ad : DownloaderV11 → M DownloaderV11) (who : Peer) (s : DownloaderV11)
    (hs : Inv incoming s)
    (had : ∀ u, Inv incoming u →
      u.m_good_clients.length ≤ (map_erase s.m_good_clients who).length → ∃ v, ad u = .ok v) :
    ∃ t, on_disconnect ad env who s = .ok t := by
  unfold on_disconnect
  split
  · exact ⟨s, rfl⟩
  · rw [if_neg (no_underflow hs who)]
    exact had _ (inv_scrub who s hs) (by rw [(scrub_fields who s).1])

theorem disconnect_returns {incoming : Peer → Bool} (env : Env)
    (ad : DownloaderV11 → M DownloaderV11) (who : Peer) (s : DownloaderV11)
    (hs : Inv incoming s)
    (had : ∀ u, Inv incoming u →
      u.m_good_clients.length ≤ (map_erase s.m_good_clients who).length → ∃ v, ad u = .ok v) :
    ∃ t, disconnect ad env who s = .ok t := by
  unfold disconnect
  exact on_disconnect_returns env ad who _ (Inv.congr (s := s) rfl rfl rfl rfl hs) had

/-- From a state that meets the invariant `advance_download` returns when the fuel exceeds the
size of the registry: each nested call comes from the disconnect of a registered peer. -/
theorem advance_download_returns {incoming : Peer → Bool} :
    ∀ (fuel : Nat) (env : Env), env.is_incoming = incoming → ∀ (s : DownloaderV11),
      Inv incoming s → s.m_good_clients.length < fuel →
      ∃ t, advance_download fuel env s = .ok t := by
  intro fuel
  induction fuel with
  | zero => intro env _ s _ h; exact absurd h (Nat.not_lt_zero _)
  | succ n ih =>
    intro env hinc s hinv hlen
    rw [advance_download]
    split
    · exact ⟨s, rfl⟩
    · have hinv1 : Inv incoming (promote s) := inv_promote s hinv
      have hlen1 : (promote s).m_good_clients.length ≤ n := Nat.lt_succ_iff.mp hlen
      have nested : ∀ (who : Peer) (u : DownloaderV11), Inv incoming u →
          u.m_good_clients.length ≤ n → who ∈ map_keys u.m_good_clients →
          ∃ v, disconnect (advance_download n env) env who u = .ok v := by
        intro who u hu hul hw
        apply disconnect_returns env _ who u hu
        intro x hx hxl
        exact ih env hinc x hx (lt_of_le_of_lt hxl
          (lt_of_lt_of_le (map_erase_length_lt _ _ hw) hul))
      have hchain : ∃ s2, advance_chain (disconnect (advance_download n env) env) env
          (promote s) = .ok s2 := by
        unfold advance_chain
        split
        · exact ⟨_, rfl⟩
        · split
          · rename_i who rest hl
            have hw : who ∈ map_keys (promote s).m_good_clients := by
              have : who ∈ lagging_clients env (promote s) := by
                rw [hl]; exact List.mem_cons_self _ _
              exact (List.mem_filter.mp this).1
            exact nested who _ (Inv.congr (s := promote s) rfl rfl rfl rfl hinv1) hlen1 hw
          · split
            · exact ⟨_, rfl⟩
            · split
              · exact ⟨_, rfl⟩
              · exact ⟨_, rfl⟩
      obtain ⟨s2, h2⟩ := hchain
      dsimp only
      rw [h2]
      simp only [bind, Except.bind]
      have st2 : InnerSteps incoming (promote s) s2 :=
        advance_chain_steps (fun who a b hab =>
          disconnect_steps hinc (advance_download_steps n env hinc) hab) h2
      have hinv2 := inv_inner_steps st2 hinv1
      have hlen2 : s2.m_good_clients.length ≤ n :=
        le_trans (inner_steps_clients_length st2) hlen1
      have hinv3 := inv_assign env s2 hinv2
      split
      · rename_i hbad
        obtain ⟨who, front, rest, hc, hf, hfc⟩ := slacker_front env _ hbad
        rw [hfc]
        dsimp only
        have hp : Inner incoming (assign env s2) (protect env who (assign env s2)) :=
          Inner.protect env who _ hfc hbad
        have hw : who ∈ map_keys (assign env s2).m_good_clients :=
          (hinv3.owner front (by rw [hc]; exact List.mem_cons_self _ _) who hf).2
        refine nested who _ (inv_inner hp hinv3) ?_ hw
        exact le_trans (inner_clients_length hp)
          (le_trans (inner_clients_length (@Inner.assign incoming env s2)) hlen2)
      · exact ⟨_, rfl⟩

/-- In a state that meets the invariant a block that matches a cell does not make
`on_msg_notify_request_objects` throw. -/
theorem receive_guard {incoming : Peer → Bool} {s : DownloaderV11} (h : Inv incoming s)
    (who : Peer) (bid : Hash) (rb : RawBlock) (cells : List DownloadCell) (dc : DownloadCell)
    (htake : take_cell who bid rb s.m_download_chain = some (cells, dc)) :
    ¬ (map_find s.m_good_clients who = none ∨ map_find s.m_good_clients who = some 0 ∨
      s.total_downloading_blocks = 0) := by
  obtain ⟨pre, post, h1, _, _, h4, _, _⟩ := take_cell_spec who bid rb _ _ _ htake
  have hmem : dc ∈ s.m_download_chain := by rw [h1]; simp
  have hkey := (h.owner dc hmem who h4).2
  have hpos : 1 ≤ assigned_to who s.m_download_chain := by
    unfold assigned_to
    exact List.countP_pos_iff.mpr ⟨dc, hmem, by simpa using h4⟩
  have hcount := h.counts who
  have htot := h.total
  have hle := assigned_to_le who s.m_download_chain
  intro hc
  rcases hc with hc | hc | hc
  · exact (mem_map_keys_iff _ _).mp hkey hc
  · unfold map_count at hcount
    rw [hc] at hcount
    simp at hcount
    omega
  · omega

theorem objects_loop_returns {incoming : Peer → Bool} (env : Env)
    (disc : Peer → DownloaderV11 → M DownloaderV11) (who : Peer) (n : Nat)
    (hdisc : ∀ u, Inv incoming u → u.m_good_clients.length ≤ n →
      ∃ v, disc who u = .ok v ∧ Inv incoming v ∧ v.m_good_clients.length ≤ n)
    (blocks : List RawBlock) :
    ∀ (s : DownloaderV11), Inv incoming s → s.m_good_clients.length ≤ n →
      ∃ t, objects_loop disc env who blocks s = .ok t ∧ Inv incoming t ∧
        t.m_good_clients.length ≤ n := by
  induction blocks with
  | nil => intro s hs hl; exact ⟨s, rfl, hs, hl⟩
  | cons rb rest ih =>
    intro s hs hl
    rw [objects_loop]
    split
    · exact hdisc s hs hl
    · rename_i bid hbid
      split
      · exact hdisc s hs hl
      · rename_i cells dc htake
        rw [if_neg (receive_guard hs who bid rb cells dc htake)]
        have hf : map_find s.m_good_clients who ≠ none :=
          fun hc => receive_guard hs who bid rb cells dc htake (Or.inl hc)
        refine ih _ (inv_receive env who rb bid cells dc s htake hf hs) ?_
        show (map_sub_one s.m_good_clients who).length ≤ n
        rw [← keys_length]
        unfold map_sub_one
        rw [map_keys_update, keys_length]
        exact hl

/-- From a state that meets the invariant every callback returns when the fuel exceeds the size
of the registry by more than 1. -/
theorem handle_returns {incoming : Peer → Bool} (fuel : Nat) (env : Env)
    (hinc : env.is_incoming = incoming) (input : Input) (s : DownloaderV11)
    (hs : Inv incoming s) (hlen : s.m_good_clients.length + 1 < fuel) :
    ∃ t, handle fuel env input s = .ok t := by
  have had : ∀ (e : Env), e.is_incoming = incoming → ∀ u, Inv incoming u →
      u.m_good_clients.length ≤ s.m_good_clients.length + 1 →
      ∃ v, advance_download fuel e u = .ok v :=
    fun e he u hu hul => advance_download_returns fuel e he u hu (lt_of_le_of_lt hul hlen)
  have hdisc : ∀ (who : Peer) u, Inv incoming u →
      u.m_good_clients.length ≤ s.m_good_clients.length →
      ∃ v, disconnect (advance_download fuel env) env who u = .ok v := by
    intro who u hu hul
    apply disconnect_returns env _ who u hu
    intro x hx hxl
    exact had env hinc x hx (le_trans hxl (le_trans (map_erase_length_le _ _)
      (le_trans hul (Nat.le_succ _))))
  cases input with
  | connect who =>
    simp only [handle, on_connect]
    split
    · exact ⟨s, rfl⟩
    · rename_i h1
      split
      · refine had env hinc _ (inv_register env who s (by rw [← hinc]; simpa using h1) hs) ?_
        have : (register env who s).m_good_clients = map_insert s.m_good_clients who 0 := by
          unfold register; dsimp only; split <;> rfl
        rw [this]
        clear hlen had hdisc hs
        induction s.m_good_clients with
        | nil => simp [map_insert]
        | cons e rest ih =>
          obtain ⟨k, w⟩ := e
          rw [map_insert]
          split
          · simp
          · split
            · simp
            · simp only [List.length_cons]
              omega
      · exact ⟨s, rfl⟩
  | disconnected who =>
    simp only [handle]
    apply on_disconnect_returns env _ who s hs
    intro x hx hxl
    exact had env hinc x hx (le_trans hxl (le_trans (map_erase_length_le _ _) (Nat.le_succ _)))
  | chain_response who req =>
    simp only [handle, on_msg_notify_request_chain]
    split
    · exact ⟨s, rfl⟩
    · split
      · exact ⟨_, rfl⟩
      · exact had env hinc _ (Inv.congr (s := s) rfl rfl rfl rfl hs) (Nat.le_succ _)
  | objects_response who blocks =>
    simp only [handle, on_msg_notify_request_objects, bind, Except.bind]
    obtain ⟨s1, h1, hi1, hl1⟩ := objects_loop_returns env
      (disconnect (advance_download fuel env) env) who s.m_good_clients.length
      (fun u hu hul => by
        obtain ⟨v, hv⟩ := hdisc who u hu hul
        have st := disconnect_steps hinc (advance_download_steps fuel env hinc) hv
        exact ⟨v, hv, inv_inner_steps st hu, le_trans (inner_steps_clients_length st) hul⟩)
      blocks s hs (le_refl _)
    rw [h1]
    dsimp only
    exact had env hinc s1 hi1 (le_trans hl1 (Nat.le_succ _))
  | timed_sync => exact had env hinc s hs (Nat.le_succ _)
  | idle budget =>
    simp only [handle, on_idle]
    have hi : Inv incoming (drained env budget (collect s)) :=
      inv_prim (@Prim.drained (fun _ _ _ _ => True) incoming env budget _)
        (inv_prim (@Prim.collect (fun _ _ _ _ => True) incoming s) hs)
    have hl : (drained env budget (collect s)).m_good_clients.length =
        s.m_good_clients.length := by
      simp [drained, log, collect, multicore]
    split
    · simp only [bind, Except.bind, Except.map]
      obtain ⟨s3, h3⟩ := had
        { env with bc := (drain env (collect s).m_download_chain budget env.bc).bc } hinc
        (log (drained env budget (collect s)) [Effect.advance_long_poll])
        (Inv.congr (s := drained env budget (collect s)) rfl rfl rfl rfl hi)
        (by show (drained env budget (collect s)).m_good_clients.length ≤ _; rw [hl]; omega)
      rw [h3]
      exact ⟨_, rfl⟩
    · exact ⟨_, rfl⟩
  | chain_timer =>
    simp only [handle, on_chain_timer]
    split
    · exact hdisc _ _ (Inv.congr (s := s) rfl rfl rfl rfl hs) (le_refl _)
    · exact ⟨_, rfl⟩
  | download_timer =>
    simp only [handle, on_download_timer]
    split
    · exact ⟨_, rfl⟩
    · split
      · exact ⟨_, rfl⟩
      · split
        · exact hdisc _ _ (Inv.congr (s := s) rfl rfl rfl rfl hs) (le_refl _)
        · exact ⟨_, rfl⟩
  | worker_take => exact ⟨_, rfl⟩
  | worker_publish i => exact ⟨_, rfl⟩

theorem skip_known_spec (env : Env) (bids : List Hash) :
    ∀ (ids : List Hash) (start : Height), start < HEIGHT_T →
      ∃ k, k ≤ ids.length ∧
        (∀ j bid, j < k → ids[j]? = some bid → env.bc.has_block bid ∨ bid ∈ bids) ∧
        (∀ bid, ids[k]? = some bid → ¬ (env.bc.has_block bid ∨ bid ∈ bids)) ∧
        skip_known env bids ids start = (ids.drop k, (start + k) % HEIGHT_T) := by
  intro ids
  induction ids with
  | nil =>
    intro start hs
    refine ⟨0, le_refl _, ?_, ?_, ?_⟩
    · intro j bid hj; omega
    · intro bid h; simp at h
    · simp [skip_known, Nat.mod_eq_of_lt hs]
  | cons bid rest ih =>
    intro start hs
    by_cases hk : env.bc.has_block bid ∨ bid ∈ bids
    · obtain ⟨k, hk1, hk2, hk3, hk4⟩ := ih ((start + 1) % HEIGHT_T) (Nat.mod_lt _ (by decide))
      refine ⟨k + 1, by simpa using hk1, ?_, ?_, ?_⟩
      · intro j b hj hb
        cases j with
        | zero => simp at hb; subst hb; exact hk
        | succ j => simp at hb; exact hk2 j b (by omega) hb
      · intro b hb; simp at hb; exact hk3 b hb
      · rw [skip_known, if_pos hk, hk4]
        simp only [List.drop_succ_cons, Prod.mk.injEq, true_and]
        rw [Nat.add_mod, Nat.mod_mod, ← Nat.add_mod]
        congr 1; omega
    · refine ⟨0, Nat.zero_le _, ?_, ?_, ?_⟩
      · intro j b hj; omega
      · intro b hb; simp at hb; subst hb; exact hk
      · rw [skip_known, if_neg hk]; simp [Nat.mod_eq_of_lt hs]

/-- C11 (amended): after the skip loop of a chain response with ids `i_0..i_{n-1}` and start
height `s`, where `k` is the least index whose id is neither in the blockchain nor the id of a
cell of `m_download_chain` (`k = n` if there is none), `m_chain` is `[i_k, ..., i_{n-1}]`, so the
ids after `i_k` are kept whatever they are, and `m_chain_start_height` is `s + k` in `uint32`
arithmetic, that is `(s + k) mod 2^32`, which is `s + k` whenever `s + k < 2^32`. -/

theorem skip_loop_keeps_tail (env : Env) (who : Peer) (req : ChainResponse) (s : DownloaderV11) :
    ∃ k, k ≤ req.m_block_ids.length ∧
      (∀ j bid, j < k → req.m_block_ids[j]? = some bid → known env s bid) ∧
      (∀ bid, req.m_block_ids[k]? = some bid → ¬ known env s bid) ∧
      (store_chain env who req s).m_chain = req.m_block_ids.drop k ∧
      (store_chain env who req s).m_chain_start_height = (req.start_height + k) % HEIGHT_T ∧
      (req.start_height + k < HEIGHT_T →
        (store_chain env who req s).m_chain_start_height = req.start_height + k) := by
  obtain ⟨k, h1, h2, h3, h4⟩ := skip_known_spec env (s.m_download_chain.map (fun dc => dc.bid))
    req.m_block_ids (req.start_height % HEIGHT_T) (Nat.mod_lt _ (by decide))
  have h5 : (store_chain env who req s).m_chain_start_height =
      (req.start_height + k) % HEIGHT_T := by
    simp only [store_chain, h4]
    rw [Nat.add_mod, Nat.mod_mod, ← Nat.add_mod]
  refine ⟨k, h1, h2, h3, ?_, h5, ?_⟩
  · simp only [store_chain, h4]
  · intro hlt
    rw [h5]
    exact Nat.mod_eq_of_lt hlt

theorem demo_planner_reachable : Reachable demo_env.is_incoming demo_planner_state :=
  Reachable.step 3 demo_env (.connect 1) init demo_planner_state Reachable.init rfl rfl

theorem demo_null_reachable : Reachable demo_env.is_incoming demo_null_state :=
  Reachable.step 3 demo_env (.chain_response 1 ⟨100, [7, 0]⟩) demo_planner_state demo_null_state
    demo_planner_reachable rfl rfl

/-- C11 (counterexample): the planner answers with start height `2^32 - 1` and the genesis id,
which the blockchain has.  The response is accepted, the skip loop consumes its one id, so
`k = 1`, and `m_chain_start_height` is 0 and not `s + k = 2^32`, after the skip loop as well as
when the callback has returned. -/

theorem start_height_wraps :
    Reachable demo_env.is_incoming demo_planner_state ∧
      accepts 1 demo_planner_state ∧
      known demo_env demo_planner_state 1 ∧
      (store_chain demo_env 1 demo_wrap_response demo_planner_state).m_chain = [] ∧
      (store_chain demo_env 1 demo_wrap_response demo_planner_state).m_chain_start_height = 0 ∧
      (after 3 demo_env (.chain_response 1 demo_wrap_response)
        demo_planner_state).m_chain_start_height = 0 ∧
      demo_wrap_response.start_height + 1 = 4294967296 := by
  refine ⟨demo_planner_reachable, ⟨by decide, by decide⟩, by decide, by decide, by decide,
    by decide, by decide⟩

/-- C12 (amended): on an accepted chain response, whenever the skip loop consumes every id, the
response held more than one id, its last id is not the null hash `Hash{}`, and the planner's
advertised height exceeds `tip_height + |m_download_chain|`, the handler sends exactly one
REQUEST_CHAIN to the planner with `block_ids = [last id, genesis id]`, keeps the planner, re-arms
the chain timer and returns without calling `advance_download`; in every other accepted case it
sends no follow-up, clears the planner, cancels the chain timer and goes on with
`advance_download`. -/

theorem follow_up_request (fuel : Nat) (env : Env) (who : Peer) (req : ChainResponse)
    (s : DownloaderV11) (h : accepts who s) :
    (((store_chain env who req s).m_chain = [] ∧ req.m_block_ids.length > 1 ∧
        last_block req ≠ 0 ∧
        (env.sync_data who).current_height > env.bc.tip_height + s.m_download_chain.length) →
      ∃ t, on_msg_notify_request_chain fuel env who req s = .ok t ∧
        t.trace = s.trace ++
          [.send_request_chain who [last_block req, env.bc.genesis_bid], .chain_timer_once] ∧
        t.m_chain_client = some who ∧ t.m_chain_timer = true ∧
        t.m_download_chain = s.m_download_chain ∧ t.m_good_clients = s.m_good_clients ∧
        t.total_downloading_blocks = s.total_downloading_blocks) ∧
    (¬ ((store_chain env who req s).m_chain = [] ∧ req.m_block_ids.length > 1 ∧
        last_block req ≠ 0 ∧
        (env.sync_data who).current_height > env.bc.tip_height + s.m_download_chain.length) →
      ∃ t, on_msg_notify_request_chain fuel env who req s = advance_download fuel env t ∧
        t.trace = s.trace ++ [.chain_timer_cancel] ∧
        t.m_chain_client = none ∧ t.m_chain_timer = false ∧
        t.m_chain = (store_chain env who req s).m_chain) := by
  obtain ⟨h1, h2⟩ := h
  have hg : ¬ (s.m_chain_client ≠ some who ∨ s.m_chain ≠ []) := by
    simp [h1, h2]
  constructor
  · intro hw
    refine ⟨request_more env who req (store_chain env who req s), ?_, ?_, ?_, ?_, ?_, ?_, ?_⟩
    · rw [on_msg_notify_request_chain, if_neg hg]
      dsimp only
      rw [if_pos]
      · rfl
      · exact hw
    · simp [request_more, log, store_chain]
    · simp [request_more, log, store_chain, h1]
    · simp [request_more, log]
    · simp [request_more, log, store_chain]
    · simp [request_more, log, store_chain]
    · simp [request_more, log, store_chain]
  · intro hw
    refine ⟨release_planner (store_chain env who req s), ?_, ?_, ?_, ?_, ?_⟩
    · rw [on_msg_notify_request_chain, if_neg hg]
      dsimp only
      rw [if_neg]
      exact hw
    · simp [release_planner, log, store_chain]
    · simp [release_planner, log]
    · simp [release_planner, log]
    · simp [release_planner, log]

theorem follow_up_request_witness :
    accepts 1 demo_planner_state ∧
    ((((store_chain demo_env 1 ⟨0, [1, 1]⟩ demo_planner_state).m_chain = [] ∧
        (ChainResponse.mk 0 [1, 1]).m_block_ids.length > 1 ∧
        last_block ⟨0, [1, 1]⟩ ≠ 0 ∧
        (demo_env.sync_data 1).current_height >
          demo_env.bc.tip_height + demo_planner_state.m_download_chain.length) →
      ∃ t, on_msg_notify_request_chain 3 demo_env 1 ⟨0, [1, 1]⟩ demo_planner_state = .ok t ∧
        t.trace = demo_planner_state.trace ++
          [.send_request_chain 1 [last_block ⟨0, [1, 1]⟩, demo_env.bc.genesis_bid],
            .chain_timer_once] ∧
        t.m_chain_client = some 1 ∧ t.m_chain_timer = true ∧
        t.m_download_chain = demo_planner_state.m_download_chain ∧
        t.m_good_clients = demo_planner_state.m_good_clients ∧
        t.total_downloading_blocks = demo_planner_state.total_downloading_blocks) ∧
    (¬ ((store_chain demo_env 1 ⟨0, [1, 1]⟩ demo_planner_state).m_chain = [] ∧
        (ChainResponse.mk 0 [1, 1]).m_block_ids.length > 1 ∧
        last_block ⟨0, [1, 1]⟩ ≠ 0 ∧
        (demo_env.sync_data 1).current_height >
          demo_env.bc.tip_height + demo_planner_state.m_download_chain.length) →
      ∃ t, on_msg_notify_request_chain 3 demo_env 1 ⟨0, [1, 1]⟩ demo_planner_state =
          advance_download 3 demo_env t ∧
        t.trace = demo_planner_state.trace ++ [.chain_timer_cancel] ∧
        t.m_chain_client = none ∧ t.m_chain_timer = false ∧
        t.m_chain = (store_chain demo_env 1 ⟨0, [1, 1]⟩ demo_planner_state).m_chain)) :=
  ⟨⟨by decide, by decide⟩,
    follow_up_request 3 demo_env 1 ⟨0, [1, 1]⟩ demo_planner_state ⟨by decide, by decide⟩⟩

/-- C12 (counterexample): the ids 7 and `Hash{}` are scheduled and the planner, peer 1, sends
them again.  The response is accepted, the skip loop consumes both ids, the response held two
ids and the planner's height 1000 exceeds `tip_height + |m_download_chain| = 2`; yet the last id
is `Hash{}`, so no follow-up `[Hash{}, genesis]` is sent: the planner is cleared, the timer is
cancelled and `advance_download` elects anew with the sparse chain. -/

theorem null_last_id_ends_planning :
    Reachable demo_env.is_incoming demo_null_state ∧
      accepts 1 demo_null_state ∧
      (store_chain demo_env 1 demo_null_response demo_null_state).m_chain = [] ∧
      demo_null_response.m_block_ids.length > 1 ∧
      (demo_env.sync_data 1).current_height >
        demo_env.bc.tip_height + demo_null_state.m_download_chain.length ∧
      (∃ t, on_msg_notify_request_chain 3 demo_env 1 demo_null_response demo_null_state = .ok t ∧
        t.trace = demo_null_state.trace ++
          [.chain_timer_cancel, .send_request_chain 1 demo_env.bc.sparse_chain,
            .chain_timer_once] ∧
        Effect.send_request_chain 1 [last_block demo_null_response, demo_env.bc.genesis_bid] ∉
          t.trace) := by
  refine ⟨demo_null_reachable, ⟨by decide, by decide⟩, by decide, by decide, by decide, _, rfl,
    ?_, ?_⟩
  · decide
  · decide

theorem on_disconnect_pieces {env : Env} {ad : DownloaderV11 → M DownloaderV11}
    (had : ∀ s t, ad s = .ok t → Pieces env s t) {who : Peer} {s t : DownloaderV11}
    (h : on_disconnect ad env who s = .ok t) : Pieces env s t := by
  unfold on_disconnect at h
  split at h
  · cases h; exact .refl
  · split at h
    · cases h
    · rename_i h1 h2
      exact .trans (.single (.scrub who s (by simpa using h1) h2)) (had _ _ h)

theorem advance_chain_pieces {env : Env} {ad : DownloaderV11 → M DownloaderV11}
    (had : ∀ s t, ad s = .ok t → Pieces env s t) {s t : DownloaderV11}
    (h : advance_chain (disconnect ad env) env s = .ok t) : Pieces env s t := by
  unfold advance_chain at h
  split at h
  · cases h; exact .refl
  · rename_i h0
    simp only [not_or, Option.isSome_iff_ne_none, ne_eq, not_not] at h0
    split at h
    · rename_i who rest hl
      unfold disconnect at h
      exact .trans (.single (.lagging who rest s h0.1 h0.2 hl)) (on_disconnect_pieces had h)
    · split at h
      · cases h; exact .refl
      · split at h
        · cases h; exact .refl
        · cases h
          rename_i hl _ best hb hh
          exact .single (.elect best s h0.1 h0.2 hl hb hh)

theorem advance_download_pieces :
    ∀ (fuel : Nat) (env : Env) (s t : DownloaderV11),
      advance_download fuel env s = .ok t → Pieces env s t := by
  intro fuel
  induction fuel with
  | zero => intro env s t h; cases h
  | succ n ih =>
    intro env s t h
    rw [advance_download] at h
    split at h
    · cases h; exact .refl
    · rename_i himp
      simp only [bind, Except.bind] at h
      split at h
      · cases h
      · rename_i s2 h2
        have st1 : Pieces env s (promote s) := .single (.promote s himp)
        have st2 := advance_chain_pieces (ih env) h2
        have st3 : Pieces env s2 (assign env s2) := .single (.assign s2 himp)
        refine .trans st1 (.trans st2 (.trans st3 ?_))
        split at h
        · rename_i hbad
          split at h
          · cases h; exact .refl
          · rename_i who hf
            unfold disconnect at h
            exact .trans (.single (.slacker who _ hf hbad)) (on_disconnect_pieces (ih env) h)
        · cases h; exact .refl

theorem filter_head_split {α : Type} (p : α → Bool) :
    ∀ (l : List α) (a : α) (rest : List α), l.filter p = a :: rest →
      ∃ pre post, l = pre ++ a :: post ∧ (∀ x ∈ pre, p x = false) ∧ p a = true := by
  intro l
  induction l with
  | nil => intro a rest h; simp at h
  | cons x xs ih =>
    intro a rest h
    by_cases hx : p x = true
    · rw [List.filter_cons_of_pos hx] at h
      simp only [List.cons.injEq] at h
      refine ⟨[], xs, ?_, ?_, ?_⟩
      · simp [h.1]
      · simp
      · rw [← h.1]; exact hx
    · rw [List.filter_cons_of_neg hx] at h
      obtain ⟨pre, post, h1, h2, h3⟩ := ih a rest h
      refine ⟨x :: pre, post, by simp [h1], ?_, h3⟩
      intro y hy
      rcases List.mem_cons.mp hy with hy | hy
      · subst hy; simpa using hx
      · exact h2 y hy

/-- C13: when `advance_chain` runs with no planner and an empty chain queue and some registered
peer has `current_height + 5 < tip_height`, the first such peer in registry order gets
`delay_connection_attempt` followed by `disconnect`, nothing else is sent before, and the
invocation ends with that disconnect, so it elects no planner itself; the peers treated as
lagging are exactly the registered peers with `current_height + 5 < tip_height`. -/

theorem lagging_peer_goes_first (ad : DownloaderV11 → M DownloaderV11) (env : Env)
    (s : DownloaderV11) (h1 : s.m_chain_client = none) (h2 : s.m_chain = [])
    (h3 : ∃ p ∈ map_keys s.m_good_clients,
      (env.sync_data p).current_height + 5 < env.bc.tip_height) :
    (∃ pre who post, map_keys s.m_good_clients = pre ++ who :: post ∧
      (∀ p ∈ pre, ¬ (env.sync_data p).current_height + 5 < env.bc.tip_height) ∧
      (env.sync_data who).current_height + 5 < env.bc.tip_height ∧
      advance_chain (disconnect ad env) env s =
        on_disconnect ad env who
          (log s [.delay_connection_attempt (env.get_address who) env.local_time,
            .disconnect who])) ∧
    (∀ p, p ∈ lagging_clients env s ↔
      p ∈ map_keys s.m_good_clients ∧
        (env.sync_data p).current_height + 5 < env.bc.tip_height) := by
  have hmem : ∀ p, p ∈ lagging_clients env s ↔
      p ∈ map_keys s.m_good_clients ∧
        (env.sync_data p).current_height + 5 < env.bc.tip_height := by
    intro p
    simp [lagging_clients, is_lagging, GOOD_LAG]
  refine ⟨?_, hmem⟩
  obtain ⟨p, hp1, hp2⟩ := h3
  have hne : lagging_clients env s ≠ [] := by
    intro h0
    have := (hmem p).mpr ⟨hp1, hp2⟩
    rw [h0] at this
    cases this
  obtain ⟨who, rest, hl⟩ := List.exists_cons_of_ne_nil hne
  obtain ⟨pre, post, e1, e2, e3⟩ := filter_head_split _ _ who rest hl
  refine ⟨pre, who, post, e1, ?_, ?_, ?_⟩
  · intro q hq
    have := e2 q hq
    simpa [is_lagging, GOOD_LAG] using this
  · simpa [is_lagging, GOOD_LAG] using e3
  · unfold advance_chain
    rw [if_neg (by simp [h1, h2]), hl]
    simp [disconnect, log]

theorem lagging_peer_goes_first_witness :
    (∃ pre who post, map_keys (release_planner demo_state).m_good_clients = pre ++ who :: post ∧
      (∀ p ∈ pre, ¬ (demo_env_600.sync_data p).current_height + 5 < demo_env_600.bc.tip_height) ∧
      (demo_env_600.sync_data who).current_height + 5 < demo_env_600.bc.tip_height ∧
      advance_chain (disconnect (advance_download 3 demo_env_600) demo_env_600) demo_env_600
          (release_planner demo_state) =
        on_disconnect (advance_download 3 demo_env_600) demo_env_600 who
          (log (release_planner demo_state)
            [.delay_connection_attempt (demo_env_600.get_address who) demo_env_600.local_time,
              .disconnect who])) ∧
    (∀ p, p ∈ lagging_clients demo_env_600 (release_planner demo_state) ↔
      p ∈ map_keys (release_planner demo_state).m_good_clients ∧
        (demo_env_600.sync_data p).current_height + 5 < demo_env_600.bc.tip_height) :=
  lagging_peer_goes_first (advance_download 3 demo_env_600) demo_env_600
    (release_planner demo_state) (by decide) (by decide) ⟨2, by decide, by decide⟩

theorem assign_loop_requests (env : Env) (ring : List Peer) (cells : List DownloadCell) :
    ∀ (clients : List (Peer × Nat)) (total : Nat),
      ∀ e ∈ (assign_loop env ring cells clients total).sent,
        ∃ c bids, e = Effect.send_request_get_objects c bids := by
  induction cells with
  | nil => intro clients total e he; simp [assign_loop] at he
  | cons dc rest ih =>
    intro clients total e he
    rw [assign_loop] at he
    split at he
    · exact ih _ _ e he
    · split at he
      · simp at he
      · split at he
        · exact ih _ _ e he
        · rcases List.mem_cons.mp he with rfl | he
          · exact ⟨_, _, rfl⟩
          · exact ih _ _ e he

theorem noPlan_refl (s : DownloaderV11) : NoPlan s s :=
  ⟨⟨[], by simp, by simp⟩, fun _ h => h, fun h => h⟩

theorem noPlan_trans {a b c : DownloaderV11} (h1 : NoPlan a b) (h2 : NoPlan b c) : NoPlan a c := by
  obtain ⟨⟨es1, e1, q1⟩, p1, t1⟩ := h1
  obtain ⟨⟨es2, e2, q2⟩, p2, t2⟩ := h2
  refine ⟨⟨es1 ++ es2, by rw [e2, e1, List.append_assoc], ?_⟩, fun p h => p1 p (p2 p h),
    fun h => t1 (t2 h)⟩
  intro e he
  rcases List.mem_append.mp he with he | he
  · exact q1 e he
  · exact q2 e he

theorem mem_sorted_clients {env : Env} {s : DownloaderV11} {p : Peer} :
    p ∈ sorted_clients env s ↔ p ∈ map_keys s.m_good_clients ∧ is_lagging env p = false := by
  unfold sorted_clients
  rw [(List.perm_insertionSort _ _).mem_iff]
  simp

theorem height_le_total (env : Env) (a b : Peer) : height_le env a b ∨ height_le env b a := by
  unfold height_le
  rcases Nat.lt_trichotomy (env.sync_data a).current_height (env.sync_data b).current_height
    with h | h | h
  · exact Or.inl (Or.inl h)
  · rcases Nat.le_total (env.sort_tie a) (env.sort_tie b) with h1 | h1
    · exact Or.inl (Or.inr ⟨h, h1⟩)
    · exact Or.inr (Or.inr ⟨h.symm, h1⟩)
  · exact Or.inr (Or.inl h)

theorem height_le_trans (env : Env) (a b c : Peer) (h1 : height_le env a b)
    (h2 : height_le env b c) : height_le env a c := by
  unfold height_le at *
  unfold Height at *
  rcases h1 with h1 | ⟨h1, h1'⟩ <;> rcases h2 with h2 | ⟨h2, h2'⟩
  · exact Or.inl (by omega)
  · exact Or.inl (by omega)
  · exact Or.inl (by omega)
  · exact Or.inr ⟨by omega, le_trans h1' h2'⟩

theorem height_le_height {env : Env} {a b : Peer} (h : height_le env a b) :
    (env.sync_data a).current_height ≤ (env.sync_data b).current_height := by
  unfold height_le at h
  unfold Height at *
  rcases h with h | ⟨h, _⟩ <;> omega

/-- The last of `sorted_clients` advertises the greatest height among them. -/
theorem sorted_clients_last {env : Env} {s : DownloaderV11} {best : Peer}
    (hb : (sorted_clients env s).getLast? = some best) :
    best ∈ sorted_clients env s ∧
      ∀ p ∈ sorted_clients env s,
        (env.sync_data p).current_height ≤ (env.sync_data best).current_height := by
  haveI : IsTotal Peer (height_le env) := ⟨height_le_total env⟩
  haveI : IsTrans Peer (height_le env) := ⟨height_le_trans env⟩
  have hs : (sorted_clients env s).Sorted (height_le env) := List.sorted_insertionSort _ _
  obtain ⟨init, hinit⟩ : ∃ init, sorted_clients env s = init ++ [best] := by
    rcases List.eq_nil_or_concat (sorted_clients env s) with h | ⟨init, b, h⟩
    · rw [h] at hb; cases hb
    · rw [h] at hb
      simp at hb
      exact ⟨init, by rw [h, hb]; simp⟩
  rw [hinit] at hs ⊢
  refine ⟨by simp, ?_⟩
  intro p hp
  rcases List.mem_append.mp hp with hp | hp
  · have := (List.pairwise_append.mp hs).2.2 p hp best (by simp)
    exact height_le_height this
  · simp at hp; subst hp; exact le_refl _

theorem piece_low {env : Env} {s t : DownloaderV11} (hp : Piece env s t) (hl : Low env s) :
    Low env t ∧ NoPlan s t := by
  cases hp with
  | promote _ himp =>
    constructor
    · intro p hp
      have h1 := hl p hp
      have h2 : s.m_download_chain.length ≤ (promote s).m_download_chain.length := by
        have := (promote_loop_spec s.chain_source s.m_chain s.m_download_chain
          s.m_chain_start_height).1
        simp only [promote]
        rw [this]
        simp
      unfold Height at *
      omega
    · refine ⟨⟨_, rfl, ?_⟩, fun _ h => h, fun h => h⟩
      intro e he
      obtain ⟨dc, _, rfl⟩ := List.mem_map.mp he
      rfl
  | lagging who rest _ h1 h2 h3 =>
    refine ⟨hl, ⟨⟨[.delay_connection_attempt (env.get_address who) env.local_time,
      .disconnect who], by simp [log], ?_⟩, fun _ h => h, fun h => h⟩⟩
    intro e he
    simp at he
    rcases he with rfl | rfl <;> rfl
  | elect best _ h1 h2 h3 hb hh =>
    exfalso
    have hmem := (sorted_clients_last hb).1
    exact hh (hl best (mem_sorted_clients.mp hmem).1)
  | assign _ himp =>
    obtain ⟨k1, k2, k3, k4⟩ := assign_keeps env s
    constructor
    · intro p hp
      rw [k3] at hp
      rw [k4]
      exact hl p hp
    · refine ⟨⟨_, rfl, ?_⟩, fun p h => by rw [k1] at h; exact h, fun h => h⟩
      intro e he
      obtain ⟨c, bids, rfl⟩ := assign_loop_requests env _ _ _ _ e he
      rfl
  | slacker who _ hf hbad =>
    constructor
    · intro p hp
      have := hl p hp
      simpa [log, protect] using this
    · refine ⟨⟨[.delay_connection_attempt (env.get_address who) env.local_time,
        .disconnect who], by simp [log, protect], ?_⟩, fun _ h => h, fun h => h⟩
      intro e he
      simp at he
      rcases he with rfl | rfl <;> rfl
  | scrub who _ hinc hno =>
    obtain ⟨f1, f2, f3, f4⟩ := scrub_fields who s
    constructor
    · intro p hp
      rw [f1, map_keys_erase] at hp
      rw [f4, List.length_map]
      exact hl p (List.mem_filter.mp hp).1
    · unfold scrub
      dsimp only
      split
      · refine ⟨⟨[.chain_timer_cancel], by simp [log], ?_⟩, ?_, ?_⟩
        · intro e he; simp at he; subst he; rfl
        · intro p h; simp [log] at h
        · intro h; simp [log] at h
      · exact ⟨⟨[], by simp, by simp⟩, fun _ h => h, fun h => h⟩

theorem pieces_low {env : Env} {s t : DownloaderV11} (hp : Pieces env s t) (hl : Low env s) :
    Low env t ∧ NoPlan s t := by
  induction hp with
  | refl => exact ⟨hl, noPlan_refl _⟩
  | tail _ hstep ih =>
    obtain ⟨h1, h2⟩ := ih
    obtain ⟨h3, h4⟩ := piece_low hstep h1
    exact ⟨h3, noPlan_trans h2 h4⟩

/-- C14: when an invocation of `advance_chain` that disconnects no lagging peer changes the state,
it has elected a planner `best` and sent it REQUEST_CHAIN, and `best` is a registered peer whose
`current_height` is at least that of every peer in `m_good_clients` and strictly greater than
`tip_height + |m_download_chain|`; such an election takes place whenever no planner is set, the
chain queue is empty, no peer is lagging and some registered peer exceeds that bound.  When the
registry is empty or no registered peer's height exceeds the bound, the invocation, nested calls
included, sends no chain request, does not arm the chain timer and elects no planner. -/

theorem planner_is_highest (fuel : Nat) (env : Env) (s t : DownloaderV11)
    (h : advance_chain (disconnect (advance_download fuel env) env) env s = .ok t) :
    (lagging_clients env s = [] →
      (t = s ∨ ∃ best, best ∈ map_keys s.m_good_clients ∧ s.m_chain_client = none ∧
        t.m_chain_client = some best ∧ t.m_chain_timer = true ∧
        t.trace = s.trace ++ [.send_request_chain best env.bc.sparse_chain, .chain_timer_once] ∧
        (∀ p ∈ map_keys s.m_good_clients,
          (env.sync_data p).current_height ≤ (env.sync_data best).current_height) ∧
        env.bc.tip_height + s.m_download_chain.length < (env.sync_data best).current_height) ∧
      (s.m_chain_client = none → s.m_chain = [] →
        (∃ p ∈ map_keys s.m_good_clients,
          env.bc.tip_height + s.m_download_chain.length < (env.sync_data p).current_height) →
        t ≠ s)) ∧
    ((∀ p ∈ map_keys s.m_good_clients,
        (env.sync_data p).current_height ≤ env.bc.tip_height + s.m_download_chain.length) →
      (∃ es, t.trace = s.trace ++ es ∧ ∀ e ∈ es, e.is_chain_request = false) ∧
        (∀ p, t.m_chain_client = some p → s.m_chain_client = some p) ∧
        (t.m_chain_timer = true → s.m_chain_timer = true)) := by
  constructor
  · intro hl
    have hall : ∀ p ∈ map_keys s.m_good_clients, p ∈ sorted_clients env s := by
      intro p hp
      refine mem_sorted_clients.mpr ⟨hp, ?_⟩
      by_contra hc
      have : p ∈ lagging_clients env s := by
        unfold lagging_clients
        exact List.mem_filter.mpr ⟨hp, by simpa using hc⟩
      rw [hl] at this
      cases this
    unfold advance_chain at h
    rw [hl] at h
    split at h
    · cases h
      refine ⟨Or.inl rfl, ?_⟩
      rename_i h0
      intro h1 h2
      exfalso
      rcases h0 with h0 | h0
      · rw [h1] at h0; cases h0
      · exact h0 h2
    · rename_i h0
      simp only [not_or, Option.isSome_iff_ne_none, ne_eq, not_not] at h0
      dsimp only at h
      split at h
      · rename_i hnone
        cases h
        refine ⟨Or.inl rfl, ?_⟩
        rintro _ _ ⟨p, hp, _⟩
        have := hall p hp
        have hnil : sorted_clients env s = [] := by
          rcases List.eq_nil_or_concat (sorted_clients env s) with h | ⟨init, b, h⟩
          · exact h
          · rw [h] at hnone; simp at hnone
        rw [hnil] at this
        cases this
      · rename_i best hb
        obtain ⟨hbm, hmax⟩ := sorted_clients_last hb
        split at h
        · rename_i hle
          cases h
          refine ⟨Or.inl rfl, ?_⟩
          rintro _ _ ⟨p, hp, hlt⟩
          have := hmax p (hall p hp)
          unfold Height at *
          omega
        · rename_i hgt
          cases h
          constructor
          · right
            refine ⟨best, (mem_sorted_clients.mp hbm).1, h0.1, rfl, rfl, rfl, ?_, ?_⟩
            · intro p hp; exact hmax p (hall p hp)
            · unfold Height at *; omega
          · intro _ _ _ hc
            have := congrArg DownloaderV11.trace hc
            simp [elect, log] at this
  · intro hlow
    exact (pieces_low (advance_chain_pieces (advance_download_pieces fuel env) h) hlow).2

theorem planner_is_highest_witness :
    (lagging_clients demo_env demo_waiting_state = [] →
      (elect demo_env 1 demo_waiting_state = demo_waiting_state ∨
        ∃ best, best ∈ map_keys demo_waiting_state.m_good_clients ∧
        demo_waiting_state.m_chain_client = none ∧
        (elect demo_env 1 demo_waiting_state).m_chain_client = some best ∧
        (elect demo_env 1 demo_waiting_state).m_chain_timer = true ∧
        (elect demo_env 1 demo_waiting_state).trace = demo_waiting_state.trace ++
          [.send_request_chain best demo_env.bc.sparse_chain, .chain_timer_once] ∧
        (∀ p ∈ map_keys demo_waiting_state.m_good_clients,
          (demo_env.sync_data p).current_height ≤ (demo_env.sync_data best).current_height) ∧
        demo_env.bc.tip_height + demo_waiting_state.m_download_chain.length <
          (demo_env.sync_data best).current_height) ∧
      (demo_waiting_state.m_chain_client = none → demo_waiting_state.m_chain = [] →
        (∃ p ∈ map_keys demo_waiting_state.m_good_clients,
          demo_env.bc.tip_height + demo_waiting_state.m_download_chain.length <
            (demo_env.sync_data p).current_height) →
        elect demo_env 1 demo_waiting_state ≠ demo_waiting_state)) ∧
    ((∀ p ∈ map_keys demo_waiting_state.m_good_clients,
        (demo_env.sync_data p).current_height ≤
          demo_env.bc.tip_height + demo_waiting_state.m_download_chain.length) →
      (∃ es, (elect demo_env 1 demo_waiting_state).trace = demo_waiting_state.trace ++ es ∧
        ∀ e ∈ es, e.is_chain_request = false) ∧
        (∀ p, (elect demo_env 1 demo_waiting_state).m_chain_client = some p →
          demo_waiting_state.m_chain_client = some p) ∧
        ((elect demo_env 1 demo_waiting_state).m_chain_timer = true →
          demo_waiting_state.m_chain_timer = true)) :=
  planner_is_highest 3 demo_env demo_waiting_state (elect demo_env 1 demo_waiting_state) (by rfl)

theorem drain_cells (env : Env) :
    ∀ (cells : List DownloadCell) (budget : Nat) (bc : BlockChainState),
      (drain env cells budget bc).cells = cells.drop (drain_count cells budget) ∧
        (drain env cells budget bc).added.length = drain_count cells budget := by
  intro cells
  induction cells with
  | nil => intro budget bc; simp [drain, drain_count]
  | cons dc rest ih =>
    intro budget bc
    rw [drain]
    by_cases hp : dc.status = .PREPARED
    · rw [if_pos hp]
      cases budget with
      | zero => simp [drain_count, List.takeWhile_cons, hp]
      | succ b =>
        obtain ⟨h1, h2⟩ := ih b (env.add_block bc dc.pb).2
        have hk : drain_count (dc :: rest) (b + 1) = drain_count rest b + 1 := by
          simp only [drain_count, List.takeWhile_cons, hp, decide_True, if_true,
            List.length_cons]
          omega
        rw [hk]
        simp only [List.drop_succ_cons, List.length_cons]
        exact ⟨h1, by rw [h2]⟩
    · rw [if_neg hp]
      simp [drain_count, List.takeWhile_cons, hp]

/-- C17: in the drain loop of `on_idle` a head cell is removed and counted whatever `add_block`
returns for it, BAN included, and the loop goes on with the next PREPARED head cell while the
100 ms budget lasts: for any results of `add_block` the queue after the drain is the queue before
it minus the delivered prefix, the PREPARED cells at its head up to the budget, and every cell of
that prefix was handed to `add_block` and counted. -/

theorem drain_removes_delivered_prefix (env : Env) (budget : Nat) (s : DownloaderV11) :
    (drained env budget s).m_download_chain =
        s.m_download_chain.drop (drain_count s.m_download_chain budget) ∧
      (drain env s.m_download_chain budget env.bc).added.length =
        drain_count s.m_download_chain budget ∧
      List.Forall₂ (fun e dc => ∃ h r, e = Effect.add_block dc h r)
        (drain env s.m_download_chain budget env.bc).added
        (s.m_download_chain.take (drain_count s.m_download_chain budget)) ∧
      (∀ dc ∈ s.m_download_chain.take (drain_count s.m_download_chain budget),
        dc.status = .PREPARED) ∧
      (∀ env2 : Env, (drained env2 budget s).m_download_chain =
        (drained env budget s).m_download_chain) := by
  obtain ⟨h1, h2⟩ := drain_cells env s.m_download_chain budget env.bc
  obtain ⟨dropped, d1, d2, d3⟩ := drain_spec env s.m_download_chain budget env.bc
  have hlen : dropped.length = drain_count s.m_download_chain budget := by
    rw [← h2]; exact d3.length_eq.symm
  have htake : s.m_download_chain.take (drain_count s.m_download_chain budget) = dropped := by
    rw [← hlen]
    conv_lhs => rw [d1]
    simp
  refine ⟨h1, h2, ?_, ?_, ?_⟩
  · rw [htake]; exact d3
  · rw [htake]; exact d2
  · intro env2
    show (drain env2 s.m_download_chain budget env2.bc).cells =
      (drain env s.m_download_chain budget env.bc).cells
    rw [h1, (drain_cells env2 s.m_download_chain budget env2.bc).1]

theorem assign_loop_total (env : Env) (ring : List Peer) (cells : List DownloadCell) :
    ∀ (clients : List (Peer × Nat)) (total : Nat),
      (assign_loop env ring cells clients total).total_downloading_blocks =
        total + (assign_loop env ring cells clients total).sent.length := by
  induction cells with
  | nil => intro clients total; rfl
  | cons dc rest ih =>
    intro clients total
    rw [assign_loop]
    split
    · exact ih _ _
    · split
      · rfl
      · split
        · exact ih _ _
        · simp only [List.length_cons]
          rw [ih]
          omega

/-- A piece of a callback other than the assignment loop does not increase
`total_downloading_blocks`. -/
theorem prim_total {chain_ok : Env → Peer → ChainResponse → DownloaderV11 → Prop}
    {incoming : Peer → Bool} {s t : DownloaderV11} (hst : Prim chain_ok incoming s t) :
    t.total_downloading_blocks ≤ s.total_downloading_blocks ∨ ∃ env, t = assign env s := by
  cases hst with
  | inner _ _ hi =>
    cases hi with
    | note es _ => exact Or.inl (le_refl _)
    | promote env _ => exact Or.inl (le_refl _)
    | elect env best _ _ _ _ _ => exact Or.inl (le_refl _)
    | assign env => exact Or.inr ⟨env, rfl⟩
    | protect env who _ _ => exact Or.inl (le_refl _)
    | scrub who _ _ =>
      left
      rw [(scrub_fields who s).2.1]
      omega
  | register env who _ hw _ =>
    left
    unfold register
    dsimp only
    split <;> exact le_refl _
  | chain_timer_fired _ => exact Or.inl (le_refl _)
  | request_more env who req _ _ _ _ _ => exact Or.inl (le_refl _)
  | accept_chain env who req _ _ _ _ _ => exact Or.inl (le_refl _)
  | receive env who rb bid cells dc _ hb htake hf _ _ =>
    left
    show s.total_downloading_blocks - 1 ≤ _
    omega
  | collect _ =>
    left
    unfold collect
    simp only [multicore, if_true]
    exact le_refl _
  | drained env budget _ => exact Or.inl (le_refl _)
  | worker_take _ =>
    left
    unfold worker_take
    split <;> exact le_refl _
  | worker_publish i _ =>
    left
    unfold worker_publish
    split <;> exact le_refl _

/-- C18: `total_downloading_blocks` never exceeds `TOTAL_DOWNLOAD_BLOCKS = 400` in a reachable
state.  The assignment loop of `advance_download` adds one to it for each request it sends and
ends at 400 at most, so each request is sent while the counter is below 400, and no other piece
of any callback increases the counter. -/

theorem in_flight_capped (incoming : Peer → Bool) (s : DownloaderV11)
    (h : Reachable incoming s) :
    s.total_downloading_blocks ≤ TOTAL_DOWNLOAD_BLOCKS ∧ TOTAL_DOWNLOAD_BLOCKS = 400 ∧
      (∀ env : Env, ∃ sent, (assign env s).trace = s.trace ++ sent ∧
        (∀ e ∈ sent, ∃ c bids, e = Effect.send_request_get_objects c bids) ∧
        (assign env s).total_downloading_blocks = s.total_downloading_blocks + sent.length ∧
        s.total_downloading_blocks + sent.length ≤ 400) ∧
      (∀ t, Prim (fun _ _ _ _ => True) incoming s t →
        s.total_downloading_blocks < t.total_downloading_blocks → ∃ env, t = assign env s) := by
  have hc : s.total_downloading_blocks ≤ TOTAL_DOWNLOAD_BLOCKS := reachable_capped h
  refine ⟨hc, rfl, ?_, ?_⟩
  · intro env
    refine ⟨_, rfl, assign_loop_requests env _ _ _ _, ?_, ?_⟩
    · rw [(assign_fields env s).2.1]
      exact assign_loop_total env _ _ _ _
    · have h1 := assign_loop_capped env (truncate_ring s.m_who_downloaded_block)
        s.m_download_chain s.m_good_clients s.total_downloading_blocks hc
      rw [assign_loop_total] at h1
      exact h1
  · intro t hp hlt
    rcases prim_total hp with h1 | h1
    · omega
    · exact h1

theorem in_flight_capped_witness :
    demo_state.total_downloading_blocks ≤ TOTAL_DOWNLOAD_BLOCKS ∧ TOTAL_DOWNLOAD_BLOCKS = 400 ∧
      (∀ env : Env, ∃ sent, (assign env demo_state).trace = demo_state.trace ++ sent ∧
        (∀ e ∈ sent, ∃ c bids, e = Effect.send_request_get_objects c bids) ∧
        (assign env demo_state).total_downloading_blocks =
          demo_state.total_downloading_blocks + sent.length ∧
        demo_state.total_downloading_blocks + sent.length ≤ 400) ∧
      (∀ t, Prim (fun _ _ _ _ => True) demo_env.is_incoming demo_state t →
        demo_state.total_downloading_blocks < t.total_downloading_blocks →
        ∃ env, t = assign env demo_state) :=
  in_flight_capped demo_env.is_incoming demo_state demo_reachable

theorem small_product {a b : Nat} (ha : a ≤ TOTAL_DOWNLOAD_BLOCKS) (hb : b ≤ 100) :
    (a * b) % SIZE_T = a * b := by
  apply Nat.mod_eq_of_lt
  have : a * b ≤ 400 * 100 := Nat.mul_le_mul ha hb
  unfold SIZE_T
  omega

theorem ratio_trans {w sw n sc q sq : Nat} (h1 : w * sc < n * sw)
    (h2 : n * sq ≤ q * sc) (hsq : 0 < sq) : w * sq < q * sw := by
  by_contra hc
  have hc : q * sw ≤ w * sq := Nat.le_of_not_lt hc
  have a1 : q * sw * sc ≤ w * sq * sc := Nat.mul_le_mul_right sc hc
  have a2 : w * sc * sq < n * sw * sq := Nat.mul_lt_mul_of_pos_right h1 hsq
  have a3 : n * sq * sw ≤ q * sc * sw := Nat.mul_le_mul_right sw h2
  have e1 : w * sq * sc = w * sc * sq := by ring
  have e2 : n * sw * sq = n * sq * sw := by ring
  have e3 : q * sc * sw = q * sw * sc := by ring
  omega

theorem choose_loop_chosen (env : Env) (ring : List Peer) (h : Height) :
    ∀ (rest seen : List (Peer × Nat)) (rc : Option Peer) (rn rsp : Nat),
      (∀ e ∈ seen ++ rest, e.2 ≤ TOTAL_DOWNLOAD_BLOCKS) →
      Chosen env ring h seen rc rn rsp →
      ∃ n sp, Chosen env ring h (seen ++ rest) (choose_loop env ring h rest rc rn rsp) n sp := by
  intro rest
  induction rest with
  | nil =>
    intro seen rc rn rsp _ hch
    exact ⟨rn, rsp, by simpa [choose_loop] using hch⟩
  | cons who rest ih =>
    intro seen rc rn rsp hb hch
    have hb' : ∀ e ∈ (seen ++ [who]) ++ rest, e.2 ≤ TOTAL_DOWNLOAD_BLOCKS := by
      intro e he; apply hb; simpa using he
    have hw : who.2 ≤ TOTAL_DOWNLOAD_BLOCKS := hb who (by simp)
    obtain ⟨sw1, sw2⟩ := speed_of_range ring who.1
    have hgoal : ∀ rc2 rn2 rsp2, Chosen env ring h (seen ++ [who]) rc2 rn2 rsp2 →
        ∃ n sp, Chosen env ring h (seen ++ who :: rest)
          (choose_loop env ring h rest rc2 rn2 rsp2) n sp := by
      intro rc2 rn2 rsp2 hc2
      have := ih (seen ++ [who]) rc2 rn2 rsp2 hb' hc2
      simpa using this
    rw [choose_loop]
    rcases hch with ⟨rfl, rfl, rfl, hnone⟩ | ⟨c, n, pre, post, rfl, rfl, rfl, hseen, hcand, hmin, hfirst⟩
    · have ht := first_test ring who hw
      by_cases hh : (env.sync_data who.1).current_height ≥ h
      · rw [if_pos ⟨ht, hh⟩]
        apply hgoal
        right
        refine ⟨who.1, who.2, seen, [], rfl, rfl, rfl, rfl, hh, ?_, ?_⟩
        · intro q hq hqc
          rcases List.mem_append.mp hq with hq | hq
          · exact absurd hqc (hnone q hq)
          · simp at hq; subst hq; exact le_refl _
        · intro q hq hqc
          exact absurd hqc (hnone q hq)
      · rw [if_neg (fun hc => hh hc.2)]
        apply hgoal
        left
        refine ⟨rfl, rfl, rfl, ?_⟩
        intro q hq
        rcases List.mem_append.mp hq with hq | hq
        · exact hnone q hq
        · simp at hq; subst hq; exact hh
    · have hn : rn ≤ TOTAL_DOWNLOAD_BLOCKS := hb (c, rn) (by rw [hseen]; simp)
      obtain ⟨sc1, sc2⟩ := speed_of_range ring c
      rw [small_product hw sc2, small_product hn sw2]
      by_cases ht : who.2 * speed_of ring c < rn * speed_of ring who.1 ∧
          (env.sync_data who.1).current_height ≥ h
      · rw [if_pos ht]
        apply hgoal
        right
        have hstrict : ∀ q ∈ seen, candidate env h q →
            who.2 * speed_of ring q.1 < q.2 * speed_of ring who.1 := by
          intro q hq hqc
          exact ratio_trans ht.1 (hmin q hq hqc) (speed_of_range ring q.1).1
        refine ⟨who.1, who.2, seen, [], rfl, rfl, rfl, rfl, ht.2, ?_, hstrict⟩
        intro q hq hqc
        rcases List.mem_append.mp hq with hq | hq
        · exact Nat.le_of_lt (hstrict q hq hqc)
        · simp at hq; subst hq; exact le_refl _
      · rw [if_neg ht]
        apply hgoal
        right
        refine ⟨c, rn, pre, post ++ [who], rfl, rfl, rfl, by rw [hseen]; simp, hcand, ?_, hfirst⟩
        intro q hq hqc
        rcases List.mem_append.mp hq with hq | hq
        · exact hmin q hq hqc
        · simp at hq; subst hq
          have hqc' : (env.sync_data q.1).current_height ≥ h := hqc
          have : ¬ q.2 * speed_of ring c < rn * speed_of ring q.1 := fun hlt => ht ⟨hlt, hqc'⟩
          exact Nat.le_of_not_lt this

theorem visits_bound {env : Env} {ring : List Peer} {cells0 : List DownloadCell}
    {clients0 : List (Peer × Nat)} {total0 : Nat} {cells : List DownloadCell}
    {clients : List (Peer × Nat)} {total : Nat}
    (hv : Visits env ring cells0 clients0 total0 cells clients total)
    (hb : CountBound clients0 total0) : CountBound clients total := by
  induction hv with
  | start => exact hb
  | pass dc rest clients total _ _ ih => exact ih
  | idle dc rest clients total _ _ _ _ ih => exact ih
  | take dc rest clients total c _ _ ht hc ih =>
    exact countBound_add_one _ _ c (choose_client_mem env ring _ clients c hc) ih ht

/-- The positions are those of `assign_loop`: what it returns from the start is what it has done
up to a position followed by what it returns from there. -/
theorem visits_assign_loop {env : Env} {ring : List Peer} {cells0 : List DownloadCell}
    {clients0 : List (Peer × Nat)} {total0 : Nat} {cells : List DownloadCell}
    {clients : List (Peer × Nat)} {total : Nat}
    (hv : Visits env ring cells0 clients0 total0 cells clients total) :
    ∃ done sent, (assign_loop env ring cells0 clients0 total0).cells =
        done ++ (assign_loop env ring cells clients total).cells ∧
      (assign_loop env ring cells0 clients0 total0).sent =
        sent ++ (assign_loop env ring cells clients total).sent ∧
      (assign_loop env ring cells0 clients0 total0).m_good_clients =
        (assign_loop env ring cells clients total).m_good_clients ∧
      (assign_loop env ring cells0 clients0 total0).total_downloading_blocks =
        (assign_loop env ring cells clients total).total_downloading_blocks := by
  induction hv with
  | start => exact ⟨[], [], rfl, rfl, rfl, rfl⟩
  | pass dc rest clients total _ h1 ih =>
    obtain ⟨done, sent, e1, e2, e3, e4⟩ := ih
    rw [assign_loop, if_pos h1] at e1 e2 e3 e4
    exact ⟨done ++ [dc], sent, by rw [e1]; simp, e2, e3, e4⟩
  | idle dc rest clients total _ h1 h2 h3 ih =>
    obtain ⟨done, sent, e1, e2, e3, e4⟩ := ih
    rw [assign_loop, if_neg h1, if_neg h2, h3] at e1 e2 e3 e4
    exact ⟨done ++ [dc], sent, by rw [e1]; simp, e2, e3, e4⟩
  | take dc rest clients total c _ h1 h2 h3 ih =>
    obtain ⟨done, sent, e1, e2, e3, e4⟩ := ih
    rw [assign_loop, if_neg h1, if_neg h2, h3] at e1 e2 e3 e4
    exact ⟨done ++ [{ dc with downloading_client := some c, request_time := env.now }],
      sent ++ [Effect.send_request_get_objects c [dc.bid]], by rw [e1]; simp,
      by rw [e2]; simp, e3, e4⟩

theorem capped_steps {chain_ok : Env → Peer → ChainResponse → DownloaderV11 → Prop}
    {incoming : Peer → Bool} {s t : DownloaderV11} (hst : Steps chain_ok incoming s t)
    (h : Capped s) : Capped t := by
  induction hst with
  | refl => exact h
  | tail _ hp ih => exact capped_prim hp ih

theorem scrub_trace (who : Peer) (s : DownloaderV11) :
    ∃ es, (scrub who s).trace = s.trace ++ es := by
  unfold scrub
  dsimp only
  split
  · exact ⟨[.chain_timer_cancel], rfl⟩
  · exact ⟨[], by simp⟩

theorem protect_cells (env : Env) (who : Peer) (s : DownloaderV11) :
    ∀ dc ∈ (protect env who s).m_download_chain,
      dc.downloading_client = some who → dc.protect_from_disconnect = true := by
  intro dc hdc hc
  simp only [protect, log] at hdc
  obtain ⟨dc0, _, rfl⟩ := List.mem_map.mp hdc
  unfold protect_cell at hc ⊢
  split
  · rfl
  · rename_i hne
    rw [if_neg hne] at hc
    exact absurd hc hne

/-- C16 (amended): the slacker policy of `advance_download` has one stage.  When the hard timeout
or the relative slowness fires for the peer of the head cell, every cell of that peer gets
`protect_from_disconnect = true`, its next connection attempt is delayed and the peer is
disconnected in the same call: what `advance_download` returns is what the nested call returns
from the state that `on_disconnect` has scrubbed, the trace holds `delay_connection_attempt`
followed by `disconnect` for that peer, the peer is no longer registered and no cell is assigned
to it. -/

theorem slacker_disconnected_at_once (incoming : Peer → Bool) (s : DownloaderV11)
    (hs : Steps (fun _ _ _ _ => True) incoming init s) (fuel : Nat) (env : Env)
    (hinc : env.is_incoming = incoming) (himp : ¬ importing env) (s2 t : DownloaderV11)
    (h2 : advance_chain (disconnect (advance_download fuel env) env) env (promote s) = .ok s2)
    (hbad : bad_relatively_slow (assign env s2) ∨ bad_timeout env (assign env s2))
    (ht : advance_download (fuel + 1) env s = .ok t) :
    ∃ who, front_client (assign env s2) = some who ∧
      who ∈ map_keys (assign env s2).m_good_clients ∧
      (∀ dc ∈ (protect env who (assign env s2)).m_download_chain,
        dc.downloading_client = some who → dc.protect_from_disconnect = true) ∧
      advance_download (fuel + 1) env s =
        advance_download fuel env
          (scrub who (log (protect env who (assign env s2)) [.disconnect who])) ∧
      (∃ es, t.trace = (assign env s2).trace ++
        [.delay_connection_attempt (env.get_address who) env.local_time, .disconnect who] ++
          es) ∧
      who ∉ map_keys t.m_good_clients ∧
      ∀ dc ∈ t.m_download_chain, dc.downloading_client ≠ some who := by
  have st1 : InnerSteps incoming s (promote s) := .single (.promote env s himp)
  have st2 : InnerSteps incoming (promote s) s2 :=
    advance_chain_steps
      (fun who a b hab => disconnect_steps hinc (advance_download_steps fuel env hinc) hab) h2
  have st3 : InnerSteps incoming s (assign env s2) :=
    .trans st1 (.trans st2 (.single (.assign env s2)))
  have hinv : Inv incoming (assign env s2) :=
    inv_inner_steps st3 (inv_steps hs (inv_init incoming))
  obtain ⟨who, front, rest, hcells, hclient, hfront⟩ := slacker_front env _ hbad
  have hreg : who ∈ map_keys (assign env s2).m_good_clients :=
    (hinv.owner front (by rw [hcells]; exact List.mem_cons_self _ _) who hclient).2
  have hout : env.is_incoming who = false := by rw [hinc]; exact hinv.outgoing who hreg
  have heq : advance_download (fuel + 1) env s =
      on_disconnect (advance_download fuel env) env who
        (log (protect env who (assign env s2)) [.disconnect who]) := by
    rw [advance_download, if_neg himp]
    simp only [bind, Except.bind, h2]
    rw [if_pos hbad, hfront]
    rfl
  rw [heq] at ht
  unfold on_disconnect at ht heq
  rw [hout] at ht heq
  simp only [Bool.false_eq_true, if_false] at ht heq
  split at ht
  · cases ht
  · rename_i hno
    rw [if_neg hno] at heq
    have stn := advance_download_steps fuel env hinc _ _ ht
    have hinvp : Inv incoming (log (protect env who (assign env s2)) [.disconnect who]) :=
      inv_inner_steps
        (.trans (.single (.protect env who _ hfront hbad))
          (.single (.note _ _ (by simp [Effect.is_mark])))) hinv
    have hinvs : Inv incoming
        (scrub who (log (protect env who (assign env s2)) [.disconnect who])) :=
      inv_inner (.scrub who _ (by rw [← hinc]; exact hout) hno) hinvp
    have hinvt : Inv incoming t := inv_inner_steps stn hinvs
    have hgone : who ∉ map_keys t.m_good_clients := by
      intro hmem
      have := inner_steps_keys stn who hmem
      rw [(scrub_fields who _).1, map_keys_erase] at this
      simpa using (List.mem_filter.mp this).2
    refine ⟨who, hfront, hreg, protect_cells env who _, heq, ?_, hgone, ?_⟩
    · obtain ⟨es1, e1⟩ := scrub_trace who
        (log (protect env who (assign env s2)) [.disconnect who])
      obtain ⟨es2, e2, _⟩ := inner_steps_trace stn
      refine ⟨es1 ++ es2, ?_⟩
      rw [e2, e1]
      simp [log, protect]
    · intro dc hdc hc
      exact hgone (hinvt.owner dc hdc who hc).2

theorem slacker_disconnected_at_once_witness :
    ∃ who, front_client (assign demo_env_late demo_state) = some who ∧
      who ∈ map_keys (assign demo_env_late demo_state).m_good_clients ∧
      (∀ dc ∈ (protect demo_env_late who (assign demo_env_late demo_state)).m_download_chain,
        dc.downloading_client = some who → dc.protect_from_disconnect = true) ∧
      advance_download (2 + 1) demo_env_late demo_state =
        advance_download 2 demo_env_late
          (scrub who (log (protect demo_env_late who (assign demo_env_late demo_state))
            [.disconnect who])) ∧
      (∃ es, demo_struck_state.trace = (assign demo_env_late demo_state).trace ++
        [.delay_connection_attempt (demo_env_late.get_address who) demo_env_late.local_time,
          .disconnect who] ++ es) ∧
      who ∉ map_keys demo_struck_state.m_good_clients ∧
      ∀ dc ∈ demo_struck_state.m_download_chain, dc.downloading_client ≠ some who :=
  slacker_disconnected_at_once demo_env.is_incoming demo_state (reachable_steps demo_reachable) 2
    demo_env_late rfl (by decide) demo_state demo_struck_state (by rfl) (by decide) (by rfl)

/-- C16 (counterexample): in `demo_state` peer 1 is registered, no cell is protected and peer 1
was never disconnected.  A timed sync 100 seconds after the requests finds the head cell, which
peer 1 holds, older than `2 * SYNC_TIMEOUT = 40` seconds: the hard timeout fires for peer 1 for
the first time, and when the callback returns peer 1 has been disconnected and is no longer
registered. -/

theorem first_strike_disconnects :
    Reachable demo_env.is_incoming demo_state ∧
      1 ∈ map_keys demo_state.m_good_clients ∧
      (∀ dc ∈ demo_state.m_download_chain, dc.protect_from_disconnect = false) ∧
      Effect.disconnect 1 ∉ demo_state.trace ∧
      front_client demo_state = some 1 ∧ bad_timeout demo_env_late demo_state = true ∧
      handle 3 demo_env_late .timed_sync demo_state = .ok demo_struck_state ∧
      Effect.disconnect 1 ∈ demo_struck_state.trace ∧
      1 ∉ map_keys demo_struck_state.m_good_clients := by
  exact ⟨demo_reachable, by decide, by decide, by decide, by decide, by decide, by rfl, by decide,
    by decide⟩

theorem bad_of_head_protected {env : Env} {s : DownloaderV11} (h : HeadProtected s) :
    ¬ (bad_relatively_slow s ∨ bad_timeout env s) := by
  obtain ⟨front, rest, hc, hp⟩ := h
  simp [bad_relatively_slow, bad_timeout, hc, hp]

theorem piece_head_protected {env : Env} {s t : DownloaderV11} (hp : Piece env s t)
    (h : HeadProtected s) :
    HeadProtected t ∧ ∃ es, t.trace = s.trace ++ es ∧
      ∀ p, Effect.disconnect p ∈ es → is_lagging env p = true := by
  obtain ⟨front, rest, hc, hf⟩ := h
  cases hp with
  | promote _ himp =>
    constructor
    · have := (promote_loop_spec s.chain_source s.m_chain s.m_download_chain
        s.m_chain_start_height).1
      refine ⟨front, rest ++ (promote_loop s.chain_source s.m_chain s.m_download_chain
        s.m_chain_start_height).2.2.2, ?_, hf⟩
      simp only [promote]
      rw [this, hc]
      rfl
    · refine ⟨_, rfl, ?_⟩
      intro p hp
      obtain ⟨dc, _, hdc⟩ := List.mem_map.mp hp
      cases hdc
  | lagging who others _ h1 h2 h3 =>
    refine ⟨⟨front, rest, hc, hf⟩,
      [.delay_connection_attempt (env.get_address who) env.local_time, .disconnect who],
      by simp [log], ?_⟩
    intro p hp
    simp at hp
    subst hp
    have : p ∈ lagging_clients env s := by rw [h3]; exact List.mem_cons_self _ _
    exact (List.mem_filter.mp this).2
  | elect best _ h1 h2 h3 hb hh =>
    refine ⟨⟨front, rest, hc, hf⟩, _, rfl, ?_⟩
    intro p hp
    simp at hp
  | assign _ himp =>
    constructor
    · have hrel := (assign_loop_spec env (truncate_ring s.m_who_downloaded_block)
        s.m_download_chain s.m_good_clients s.total_downloading_blocks).2.2.2
      rw [← (assign_fields env s).2.2.2, hc] at hrel
      obtain ⟨front', rest', hhead, _, hcells⟩ := List.forall₂_cons_left_iff.mp hrel
      refine ⟨front', rest', hcells, ?_⟩
      rcases hhead with rfl | ⟨_, _, c, _, rfl⟩
      · exact hf
      · exact hf
    · refine ⟨_, rfl, ?_⟩
      intro p hp
      obtain ⟨c, bids, hcb⟩ := assign_loop_requests env _ _ _ _ _ hp
      cases hcb
  | slacker who _ hfc hbad =>
    exact absurd hbad (bad_of_head_protected ⟨front, rest, hc, hf⟩)
  | scrub who _ hinc hno =>
    constructor
    · refine ⟨release_cell who front, rest.map (release_cell who), ?_, ?_⟩
      · rw [(scrub_fields who s).2.2.2, hc]; rfl
      · unfold release_cell
        split
        · exact hf
        · exact hf
    · unfold scrub
      dsimp only
      split
      · refine ⟨[.chain_timer_cancel], rfl, ?_⟩
        intro p hp
        simp at hp
      · exact ⟨[], by simp, by simp⟩

theorem pieces_head_protected {env : Env} {s t : DownloaderV11} (hp : Pieces env s t)
    (h : HeadProtected s) :
    HeadProtected t ∧ ∃ es, t.trace = s.trace ++ es ∧
      ∀ p, Effect.disconnect p ∈ es → is_lagging env p = true := by
  induction hp with
  | refl => exact ⟨h, [], by simp, by simp⟩
  | tail _ hstep ih =>
    obtain ⟨h1, es1, e1, q1⟩ := ih
    obtain ⟨h2, es2, e2, q2⟩ := piece_head_protected hstep h1
    refine ⟨h2, es1 ++ es2, by rw [e2, e1, List.append_assoc], ?_⟩
    intro p hp
    rcases List.mem_append.mp hp with hp | hp
    · exact q1 p hp
    · exact q2 p hp

/-- C15 (amended): `on_download_timer` disconnects the peer of the head cell, after delaying its
next connection attempt, if and only if `m_download_chain` is not empty and its head cell is
DOWNLOADING, assigned, protected and its request more than `SYNC_TIMEOUT` whole seconds old;
otherwise it only re-arms itself.  In such a state the slacker step of `advance_download` does
not fire, since both of its tests require an unprotected head cell, and every peer that
`advance_download` disconnects is one that `advance_chain` found lagging. -/

theorem download_timer_disconnects (fuel : Nat) (env : Env) (s : DownloaderV11) :
    (overdue env s = true →
      ∃ who, front_client s = some who ∧
        on_download_timer fuel env s =
          on_disconnect (advance_download fuel env) env who
            (log s [.download_timer_once,
              .delay_connection_attempt (env.get_address who) env.local_time,
              .disconnect who])) ∧
    (overdue env s = false → on_download_timer fuel env s = .ok (log s [.download_timer_once])) ∧
    (overdue env s = true →
      bad_timeout env s = false ∧ bad_relatively_slow s = false ∧
        ∀ t, advance_download fuel env s = .ok t →
          ∃ es, t.trace = s.trace ++ es ∧
            ∀ p, Effect.disconnect p ∈ es → is_lagging env p = true) := by
  refine ⟨?_, ?_, ?_⟩
  · intro h
    unfold overdue at h
    split at h
    · cases h
    · rename_i front rest hc
      simp only [Bool.and_eq_true, decide_eq_true_eq] at h
      obtain ⟨⟨⟨h1, h2⟩, h3⟩, h4⟩ := h
      obtain ⟨who, hw⟩ := Option.isSome_iff_exists.mp h2
      refine ⟨who, by simp [front_client, hc, hw], ?_⟩
      unfold on_download_timer
      simp only [log, hc, hw]
      rw [if_pos ⟨h1, h3, h4⟩]
      simp [disconnect, log]
  · intro h
    unfold overdue at h
    unfold on_download_timer
    split at h
    · rename_i hc
      simp only [log, hc]
      rfl
    · rename_i front rest hc
      simp only [log, hc]
      cases hw : front.downloading_client with
      | none => rfl
      | some who =>
        simp only
        rw [if_neg]
        · rfl
        · rintro ⟨h1, h3, h4⟩
          simp [h1, hw, h3, h4] at h
  · intro h
    have hp : HeadProtected s := by
      unfold overdue at h
      split at h
      · cases h
      · rename_i front rest hc
        simp only [Bool.and_eq_true, decide_eq_true_eq] at h
        exact ⟨front, rest, hc, h.1.2⟩
    have hbad := @bad_of_head_protected env s hp
    simp only [not_or, Bool.not_eq_true] at hbad
    refine ⟨hbad.2, hbad.1, ?_⟩
    intro t ht
    exact (pieces_head_protected (advance_download_pieces fuel env s t ht) hp).2

theorem demo_struck_reachable : Reachable demo_env.is_incoming demo_struck_state :=
  Reachable.step 3 demo_env_late .timed_sync demo_state demo_struck_state demo_reachable rfl
    (by rfl)

theorem demo_orphan_reachable : Reachable demo_env.is_incoming demo_orphan_state :=
  Reachable.step 3 demo_env_quiet (.chain_response 2 ⟨0, [1]⟩) demo_struck_state
    demo_orphan_state demo_struck_reachable rfl (by rfl)

/-- C15 (counterexample): in `demo_orphan_state` the head cell is DOWNLOADING, protected and
assigned to peer 2, no planner is set and no id is waiting.  200 seconds after the start the
request is 100 seconds old, more than `SYNC_TIMEOUT = 20`, and the tip is at height 600 while
peer 2 advertises 500.  A timed sync, which is a call of `advance_download`, disconnects peer 2:
`advance_chain` finds it lagging. -/

theorem advance_download_disconnects_protected_peer :
    Reachable demo_env.is_incoming demo_orphan_state ∧
      overdue demo_env_ahead demo_orphan_state = true ∧
      front_client demo_orphan_state = some 2 ∧
      Effect.disconnect 2 ∉ demo_orphan_state.trace ∧
      (∃ t, handle 3 demo_env_ahead .timed_sync demo_orphan_state = .ok t ∧
        t.trace = demo_orphan_state.trace ++
          [.delay_connection_attempt (demo_env_ahead.get_address 2) demo_env_ahead.local_time,
            .disconnect 2] ∧
        2 ∉ map_keys t.m_good_clients) := by
  refine ⟨demo_orphan_reachable, by decide, by decide, by decide, _, rfl, ?_, ?_⟩
  · decide
  · decide

theorem awake_reachable {incoming : Peer → Bool} {s : DownloaderV11}
    (h : ReachableAwake incoming s) : Reachable incoming s := by
  induction h with
  | init => exact .init
  | step fuel env input s t _ hinc _ hh ih => exact .step fuel env input s t ih hinc hh

theorem truncate_ring_length (ring : List Peer) :
    (truncate_ring ring).length ≤ TOTAL_DOWNLOAD_BLOCKS := by
  unfold truncate_ring
  rw [List.length_drop]
  omega

theorem truncate_ring_le (ring : List Peer) : (truncate_ring ring).length ≤ ring.length := by
  unfold truncate_ring
  rw [List.length_drop]
  omega

theorem inner_ring {incoming : Peer → Bool} {s t : DownloaderV11} (hst : Inner incoming s t) :
    t.m_who_downloaded_block.length ≤ s.m_who_downloaded_block.length := by
  cases hst with
  | note es _ => exact le_refl _
  | promote env _ => exact le_refl _
  | elect env best _ _ _ _ _ => exact le_refl _
  | assign env =>
    rw [(assign_fields env s).2.2.1]
    exact truncate_ring_le _
  | protect env who _ _ => exact le_refl _
  | scrub who _ _ =>
    rw [(scrub_fields who s).2.2.1]
    exact List.length_filter_le _ _

theorem inner_steps_ring {incoming : Peer → Bool} {s t : DownloaderV11}
    (hst : InnerSteps incoming s t) :
    t.m_who_downloaded_block.length ≤ s.m_who_downloaded_block.length := by
  induction hst with
  | refl => exact le_refl _
  | tail _ hp ih => exact le_trans (inner_ring hp) ih

/-- An `advance_download` that is not cut short by an import returns a truncated ring. -/
theorem advance_download_ring {incoming : Peer → Bool} {fuel : Nat} {env : Env}
    {s t : DownloaderV11} (hinc : env.is_incoming = incoming) (himp : ¬ importing env)
    (hinv : Inv incoming s) (hcap : Capped s) (h : advance_download fuel env s = .ok t) :
    t.m_who_downloaded_block.length ≤ TOTAL_DOWNLOAD_BLOCKS := by
  have hset := advance_download_settles fuel env hinc himp s t hinv hcap h
  have hfix := hset.2.2.1
  have := (assign_fields env t).2.2.1
  rw [hfix] at this
  rw [this]
  exact truncate_ring_length _

/-- The ring and the requests in flight together never exceed twice the cap. -/
theorem prim_ring_bound {chain_ok : Env → Peer → ChainResponse → DownloaderV11 → Prop}
    {incoming : Peer → Bool} {s t : DownloaderV11} (hst : Prim chain_ok incoming s t)
    (hcap : Capped s)
    (h : s.m_who_downloaded_block.length + s.total_downloading_blocks ≤
      2 * TOTAL_DOWNLOAD_BLOCKS) :
    t.m_who_downloaded_block.length + t.total_downloading_blocks ≤
      2 * TOTAL_DOWNLOAD_BLOCKS := by
  have hcapt : Capped t := capped_prim hst hcap
  unfold Capped at hcap hcapt
  cases hst with
  | inner _ _ hi =>
    cases hi with
    | note es _ => exact h
    | promote env _ => exact h
    | elect env best _ _ _ _ _ => exact h
    | assign env =>
      have h1 : (assign env s).m_who_downloaded_block.length ≤ TOTAL_DOWNLOAD_BLOCKS := by
        rw [(assign_fields env s).2.2.1]
        exact truncate_ring_length _
      omega
    | protect env who _ _ => exact h
    | scrub who _ _ =>
      have h1 : (scrub who s).m_who_downloaded_block.length ≤
          s.m_who_downloaded_block.length := by
        rw [(scrub_fields who s).2.2.1]
        exact List.length_filter_le _ _
      have h2 : (scrub who s).total_downloading_blocks ≤ s.total_downloading_blocks := by
        rw [(scrub_fields who s).2.1]
        omega
      omega
  | register env who _ hw _ =>
    unfold register
    dsimp only
    split <;> exact h
  | chain_timer_fired _ => exact h
  | request_more env who req _ _ _ _ _ => exact h
  | accept_chain env who req _ _ _ _ _ => exact h
  | receive env who rb bid cells dc _ hb htake hf hz ht =>
    show (s.m_who_downloaded_block ++ [who]).length + (s.total_downloading_blocks - 1) ≤ _
    rw [List.length_append, List.length_singleton]
    omega
  | collect _ =>
    unfold collect
    simp only [multicore, if_true]
    exact h
  | drained env budget _ => exact h
  | worker_take _ =>
    unfold worker_take
    split <;> exact h
  | worker_publish i _ =>
    unfold worker_publish
    split <;> exact h

theorem steps_ring_bound {chain_ok : Env → Peer → ChainResponse → DownloaderV11 → Prop}
    {incoming : Peer → Bool} {s t : DownloaderV11} (hst : Steps chain_ok incoming s t)
    (hcap : Capped s)
    (h : s.m_who_downloaded_block.length + s.total_downloading_blocks ≤
      2 * TOTAL_DOWNLOAD_BLOCKS) :
    Capped t ∧ t.m_who_downloaded_block.length + t.total_downloading_blocks ≤
      2 * TOTAL_DOWNLOAD_BLOCKS := by
  induction hst with
  | refl => exact ⟨hcap, h⟩
  | tail _ hp ih => exact ⟨capped_prim hp ih.1, prim_ring_bound hp ih.1 ih.2⟩

/-- A callback that runs while no import is active leaves at most 400 entries in the ring if it
found at most 400. -/
theorem handle_ring {incoming : Peer → Bool} {fuel : Nat} {env : Env} {input : Input}
    {s t : DownloaderV11} (hs : Reachable incoming s) (hinc : env.is_incoming = incoming)
    (himp : ¬ importing env)
    (hlen : s.m_who_downloaded_block.length ≤ TOTAL_DOWNLOAD_BLOCKS)
    (h : handle fuel env input s = .ok t) :
    t.m_who_downloaded_block.length ≤ TOTAL_DOWNLOAD_BLOCKS := by
  have had : ∀ (e : Env), e.is_incoming = incoming → ∀ u v, advance_download fuel e u = .ok v →
      v.m_who_downloaded_block.length ≤ u.m_who_downloaded_block.length :=
    fun e he u v huv => inner_steps_ring (advance_download_steps fuel e he u v huv)
  have hdisc : ∀ who u v, disconnect (advance_download fuel env) env who u = .ok v →
      v.m_who_downloaded_block.length ≤ u.m_who_downloaded_block.length :=
    fun who u v huv =>
      inner_steps_ring (disconnect_steps hinc (advance_download_steps fuel env hinc) huv)
  cases input with
  | connect who =>
    simp only [handle, on_connect] at h
    split at h
    · cases h; exact hlen
    · split at h
      · have := had env hinc _ _ h
        have h2 : (register env who s).m_who_downloaded_block = s.m_who_downloaded_block := by
          unfold register; dsimp only; split <;> rfl
        rw [h2] at this
        exact le_trans this hlen
      · cases h; exact hlen
  | disconnected who =>
    simp only [handle] at h
    exact le_trans
      (inner_steps_ring (on_disconnect_steps hinc (advance_download_steps fuel env hinc) h)) hlen
  | chain_response who req =>
    simp only [handle, on_msg_notify_request_chain] at h
    split at h
    · cases h; exact hlen
    · split at h
      · cases h; exact hlen
      · exact le_trans (had env hinc _ _ h) hlen
  | objects_response who blocks =>
    simp only [handle, on_msg_notify_request_objects, bind, Except.bind] at h
    split at h
    · cases h
    · rename_i s1 h1
      have st : Steps (fun _ _ _ _ => True) incoming s s1 :=
        objects_loop_steps
          (fun w a b hab => disconnect_steps hinc (advance_download_steps fuel env hinc) hab)
          who blocks s s1 h1
      exact advance_download_ring hinc himp (inv_steps st (reachable_inv hs))
        (capped_steps st (reachable_capped hs)) h
  | timed_sync =>
    simp only [handle, on_msg_timed_sync] at h
    exact le_trans (had env hinc _ _ h) hlen
  | idle budget =>
    simp only [handle, on_idle] at h
    have c1 : (drained env budget (collect s)).m_who_downloaded_block =
        s.m_who_downloaded_block := by
      simp [drained, log, collect, multicore]
    split at h
    · simp only [bind, Except.bind, Except.map] at h
      split at h
      · cases h
      · rename_i v hv
        split at hv
        · cases hv
        · rename_i s3 h3
          cases hv
          cases h
          have h4 := had _ (by exact hinc) _ _ h3
          have h5 : (sync_at_tip
              { env with bc := (drain env (collect s).m_download_chain budget env.bc).bc }
              s3).m_who_downloaded_block = s3.m_who_downloaded_block := by
            unfold sync_at_tip
            split
            · split <;> rfl
            · rfl
          rw [h5]
          refine le_trans h4 ?_
          show (drained env budget (collect s)).m_who_downloaded_block.length ≤ _
          rw [c1]
          exact hlen
    · simp only [Except.map, pure, Except.pure] at h
      cases h
      rw [c1]
      exact hlen
  | chain_timer =>
    simp only [handle, on_chain_timer] at h
    split at h
    · exact le_trans (hdisc _ _ _ h) hlen
    · cases h; exact hlen
  | download_timer =>
    simp only [handle, on_download_timer] at h
    split at h
    · cases h; exact hlen
    · split at h
      · cases h; exact hlen
      · split at h
        · exact le_trans (hdisc _ _ _ h) hlen
        · cases h; exact hlen
  | worker_take =>
    simp only [handle, pure, Except.pure] at h
    cases h
    unfold worker_take
    split <;> exact hlen
  | worker_publish i =>
    simp only [handle, pure, Except.pure] at h
    cases h
    unfold worker_publish
    split <;> exact hlen

/-- C19 (amended): the ring `m_who_downloaded_block` is bounded.  Every state that callbacks
produce while no bulk import is active holds at most `TOTAL_DOWNLOAD_BLOCKS = 400` entries, and
a callback that runs while no import is active keeps that bound; the assignment step of
`advance_download` keeps the newest 400 entries, dropping the oldest first.  In every reachable
state, imports included, the ring and the requests in flight together are at most 800. -/

theorem ring_bounded_outside_import (incoming : Peer → Bool) (s : DownloaderV11)
    (h : Reachable incoming s) :
    s.m_who_downloaded_block.length + s.total_downloading_blocks ≤ 2 * TOTAL_DOWNLOAD_BLOCKS ∧
      TOTAL_DOWNLOAD_BLOCKS = 400 ∧
      (ReachableAwake incoming s → s.m_who_downloaded_block.length ≤ TOTAL_DOWNLOAD_BLOCKS) ∧
      (∀ fuel env input t, env.is_incoming = incoming → ¬ importing env →
        s.m_who_downloaded_block.length ≤ TOTAL_DOWNLOAD_BLOCKS →
        handle fuel env input s = .ok t →
        t.m_who_downloaded_block.length ≤ TOTAL_DOWNLOAD_BLOCKS) ∧
      (∀ env, (assign env s).m_who_downloaded_block =
        s.m_who_downloaded_block.drop (s.m_who_downloaded_block.length - 400)) := by
  refine ⟨?_, rfl, ?_, ?_, ?_⟩
  · exact (steps_ring_bound (reachable_steps h) (Nat.zero_le _) (Nat.zero_le _)).2
  · intro ha
    clear h
    induction ha with
    | init => exact Nat.zero_le _
    | step fuel env input s t hs hinc himp hh ih =>
      exact handle_ring (awake_reachable hs) hinc himp ih hh
  · intro fuel env input t hinc himp hlen hh
    exact handle_ring h hinc himp hlen hh
  · intro env
    exact (assign_fields env s).2.2.1

theorem ring_bounded_outside_import_witness :
    demo_state.m_who_downloaded_block.length + demo_state.total_downloading_blocks ≤
        2 * TOTAL_DOWNLOAD_BLOCKS ∧
      TOTAL_DOWNLOAD_BLOCKS = 400 ∧
      (ReachableAwake demo_env.is_incoming demo_state →
        demo_state.m_who_downloaded_block.length ≤ TOTAL_DOWNLOAD_BLOCKS) ∧
      (∀ fuel env input t, env.is_incoming = demo_env.is_incoming → ¬ importing env →
        demo_state.m_who_downloaded_block.length ≤ TOTAL_DOWNLOAD_BLOCKS →
        handle fuel env input demo_state = .ok t →
        t.m_who_downloaded_block.length ≤ TOTAL_DOWNLOAD_BLOCKS) ∧
      (∀ env, (assign env demo_state).m_who_downloaded_block =
        demo_state.m_who_downloaded_block.drop
          (demo_state.m_who_downloaded_block.length - 400)) :=
  ring_bounded_outside_import demo_env.is_incoming demo_state demo_reachable

theorem assign_loop_skip (env : Env) (ring : List Peer) (rest : List DownloadCell)
    (clients : List (Peer × Nat)) (total : Nat) :
    ∀ (pre : List DownloadCell), (∀ dc ∈ pre, dc.status ≠ .DOWNLOADING) →
      assign_loop env ring (pre ++ rest) clients total =
        ⟨pre ++ (assign_loop env ring rest clients total).cells,
          (assign_loop env ring rest clients total).m_good_clients,
          (assign_loop env ring rest clients total).total_downloading_blocks,
          (assign_loop env ring rest clients total).sent⟩ := by
  intro pre
  induction pre with
  | nil => intro _; rfl
  | cons dc pre ih =>
    intro h
    have h1 : dc.status ≠ .DOWNLOADING := h dc (List.mem_cons_self _ _)
    rw [List.cons_append, assign_loop, if_pos (Or.inl h1),
      ih (fun c hc => h c (List.mem_cons_of_mem _ hc))]
    rfl

theorem take_cell_skip (who : Peer) (bid : Hash) (rb : RawBlock) (rest : List DownloadCell) :
    ∀ (pre : List DownloadCell), (∀ dc ∈ pre, dc.status ≠ .DOWNLOADING) →
      take_cell who bid rb (pre ++ rest) =
        (take_cell who bid rb rest).map (fun p => (pre ++ p.1, p.2)) := by
  intro pre
  induction pre with
  | nil =>
    intro _
    rw [List.nil_append]
    cases take_cell who bid rb rest with
    | none => rfl
    | some p => rfl
  | cons dc pre ih =>
    intro h
    have h1 : dc.status ≠ .DOWNLOADING := h dc (List.mem_cons_self _ _)
    rw [List.cons_append, take_cell, if_pos (Or.inl h1),
      ih (fun c hc => h c (List.mem_cons_of_mem _ hc))]
    cases take_cell who bid rb rest with
    | none => rfl
    | some p => rfl

theorem truncate_ring_small (ring : List Peer) (h : ring.length ≤ TOTAL_DOWNLOAD_BLOCKS) :
    truncate_ring ring = ring := by
  unfold truncate_ring
  rw [Nat.sub_eq_zero_of_le h, List.drop_zero]

theorem choose_single (env : Env) (ring : List Peer) (h : Height) (p : Peer) (n : Nat)
    (hn : n ≤ TOTAL_DOWNLOAD_BLOCKS) (hc : (env.sync_data p).current_height ≥ h) :
    choose_client env ring h [(p, n)] = some p := by
  have hb : ∀ e ∈ [(p, n)], e.2 ≤ TOTAL_DOWNLOAD_BLOCKS := by
    intro e he; simp at he; subst he; exact hn
  cases hcc : choose_client env ring h [(p, n)] with
  | none =>
    have := (choose_client_none_iff env ring h [(p, n)] hb).mp hcc
    exact absurd ⟨p, by simp [map_keys], hc⟩ this
  | some c =>
    have := choose_client_mem env ring h [(p, n)] c hcc
    simp [map_keys] at this
    rw [this]

theorem flood_request (k : Nat) (s : DownloaderV11) (h : Flooding k s)
    (hk : k ≤ TOTAL_DOWNLOAD_BLOCKS) :
    ∃ t, handle 3 demo_env_high (.chain_response 1 ⟨100, [k + 10]⟩) s = .ok t ∧
      Requested k t := by
  obtain ⟨hreg, htot, hpl, hch, hring, hlen, hcells⟩ := h
  unfold TOTAL_DOWNLOAD_BLOCKS at hk
  have hnew : ¬ (demo_env_high.bc.has_block (k + 10) ∨
      k + 10 ∈ s.m_download_chain.map (fun dc => dc.bid)) := by
    rintro (h1 | h1)
    · simp [demo_env_high, demo_env, demo_bc] at h1
    · obtain ⟨dc, hdc, hb⟩ := List.mem_map.mp h1
      have := (hcells dc hdc).2
      rw [hb] at this
      exact lt_irrefl _ this
  have himp : ¬ importing demo_env_high := by decide
  -- the state in which `advance_download` starts
  have hu : release_planner (store_chain demo_env_high 1 ⟨100, [k + 10]⟩ s) =
      { s with
        m_chain_start_height := 100, chain_source := 1001, m_chain := [k + 10],
        m_chain_client := none, m_chain_timer := false,
        trace := s.trace ++ [.chain_timer_cancel] } := by
    have hskip : ∀ start, skip_known demo_env_high (s.m_download_chain.map (fun dc => dc.bid))
        [k + 10] start = ([k + 10], start) := by
      intro start
      rw [skip_known, if_neg hnew]
    simp only [release_planner, log, store_chain, hskip]
    rfl
  have hlt : s.m_download_chain.length < TOTAL_DOWNLOAD_WINDOW := by
    rw [hlen]; unfold TOTAL_DOWNLOAD_WINDOW; omega
  -- the new cell
  have hp : promote (release_planner (store_chain demo_env_high 1 ⟨100, [k + 10]⟩ s)) =
      { s with
        m_chain_start_height := 101, chain_source := 1001, m_chain := [],
        m_chain_client := none, m_chain_timer := false,
        m_download_chain := s.m_download_chain ++
          [{ bid := k + 10, expected_height := 100, bid_source := 1001 }],
        trace := s.trace ++ [.chain_timer_cancel] ++
          [.promoted { bid := k + 10, expected_height := 100, bid_source := 1001 }] } := by
    rw [hu]
    simp only [promote, promote_loop, hlt, if_true]
    rfl
  have hac : ∀ disc, advance_chain disc demo_env_high
      (promote (release_planner (store_chain demo_env_high 1 ⟨100, [k + 10]⟩ s))) =
      .ok (elect demo_env_high 1
        (promote (release_planner (store_chain demo_env_high 1 ⟨100, [k + 10]⟩ s)))) := by
    intro disc
    rw [hp]
    have h5 : ¬ (5000 ≤ k + 1) := by omega
    simp [advance_chain, lagging_clients, sorted_clients, map_keys, hreg, is_lagging,
      demo_env_high, demo_env, demo_bc, GOOD_LAG, hlen, h5]
    rfl
  have hpre : ∀ dc ∈ s.m_download_chain, dc.status ≠ .DOWNLOADING := fun dc hdc => (hcells dc hdc).1
  have hasg : ∀ ring, assign_loop demo_env_high ring
      (s.m_download_chain ++ [{ bid := k + 10, expected_height := 100, bid_source := 1001 }])
      [(1, 0)] 0 =
      ⟨s.m_download_chain ++
          [{ bid := k + 10, expected_height := 100, bid_source := 1001,
             downloading_client := some 1, request_time := demo_env_high.now }],
        [(1, 1)], 1, [.send_request_get_objects 1 [k + 10]]⟩ := by
    intro ring
    rw [assign_loop_skip demo_env_high ring _ _ _ _ hpre]
    have hc := choose_single demo_env_high ring 100 1 0 (Nat.zero_le _) (by decide)
    have h1 : assign_loop demo_env_high ring
        [{ bid := k + 10, expected_height := 100, bid_source := 1001 }] [(1, 0)] 0 =
        ⟨[{ bid := k + 10, expected_height := 100, bid_source := 1001,
             downloading_client := some 1, request_time := demo_env_high.now }],
          [(1, 1)], 1, [.send_request_get_objects 1 [k + 10]]⟩ := by
      rw [assign_loop, if_neg (by simp), if_neg (by decide)]
      simp only [hc]
      rfl
    rw [h1]
  have hst : (store_chain demo_env_high 1 ⟨100, [k + 10]⟩ s).m_chain = [k + 10] := by
    have := congrArg DownloaderV11.m_chain hu
    exact this
  have e_reg : (elect demo_env_high 1 (promote (release_planner
      (store_chain demo_env_high 1 ⟨100, [k + 10]⟩ s)))).m_good_clients = [(1, 0)] := by
    rw [hp]; exact hreg
  have e_tot : (elect demo_env_high 1 (promote (release_planner
      (store_chain demo_env_high 1 ⟨100, [k + 10]⟩ s)))).total_downloading_blocks = 0 := by
    rw [hp]; exact htot
  have e_ring : (elect demo_env_high 1 (promote (release_planner
      (store_chain demo_env_high 1 ⟨100, [k + 10]⟩ s)))).m_who_downloaded_block =
      List.replicate k 1 := by
    rw [hp]; exact hring
  have e_cells : (elect demo_env_high 1 (promote (release_planner
      (store_chain demo_env_high 1 ⟨100, [k + 10]⟩ s)))).m_download_chain =
      s.m_download_chain ++ [{ bid := k + 10, expected_height := 100, bid_source := 1001 }] := by
    rw [hp]; rfl
  have e_pl : (elect demo_env_high 1 (promote (release_planner
      (store_chain demo_env_high 1 ⟨100, [k + 10]⟩ s)))).m_chain_client = some 1 := rfl
  have e_chain : (elect demo_env_high 1 (promote (release_planner
      (store_chain demo_env_high 1 ⟨100, [k + 10]⟩ s)))).m_chain = [] := by
    rw [hp]; rfl
  generalize elect demo_env_high 1 (promote (release_planner
      (store_chain demo_env_high 1 ⟨100, [k + 10]⟩ s))) = e
    at hac e_reg e_tot e_ring e_cells e_pl e_chain
  obtain ⟨f1, f2, f3, f4⟩ := assign_fields demo_env_high e
  obtain ⟨k1, k2, _, _⟩ := assign_keeps demo_env_high e
  rw [e_ring, truncate_ring_small _ (by rw [List.length_replicate]; exact hk)] at f1 f2 f3 f4
  rw [e_cells, e_reg, e_tot, hasg] at f1 f2 f4
  rw [e_pl] at k1
  rw [e_chain] at k2
  have h2000 : ¬ (TOTAL_DOWNLOAD_WINDOW ≤ k + 1) := by unfold TOTAL_DOWNLOAD_WINDOW; omega
  have hbad : ¬ (bad_relatively_slow (assign demo_env_high e) ∨
      bad_timeout demo_env_high (assign demo_env_high e)) := by
    rintro (hb | hb)
    · simp [bad_relatively_slow, f4, hlen, h2000] at hb
    · unfold bad_timeout at hb
      rw [f4] at hb
      cases hs : s.m_download_chain with
      | nil =>
        rw [hs] at hb
        simp [duration_seconds, demo_env_high, demo_env] at hb
      | cons c rest =>
        rw [hs] at hb
        have := hpre c (by rw [hs]; exact List.mem_cons_self _ _)
        simp [this] at hb
  refine ⟨assign demo_env_high e, ?_, f1, f2, k1, k2, f3, s.m_download_chain, _, f4, hlen, hcells,
    rfl, rfl, rfl⟩
  simp only [handle, on_msg_notify_request_chain]
  rw [if_neg (by simp [hpl, hch])]
  rw [if_neg (by unfold wants_more; rw [hst]; simp)]
  rw [advance_download, if_neg himp]
  simp only [bind, Except.bind, hac]
  rw [if_neg hbad]
  rfl

theorem assign_loop_idle (env : Env) (ring : List Peer) (clients : List (Peer × Nat))
    (total : Nat) :
    ∀ (cells : List DownloadCell), (∀ dc ∈ cells, dc.status ≠ .DOWNLOADING) →
      assign_loop env ring cells clients total = ⟨cells, clients, total, []⟩ := by
  intro cells
  induction cells with
  | nil => intro _; rfl
  | cons dc rest ih =>
    intro h
    rw [assign_loop, if_pos (Or.inl (h dc (List.mem_cons_self _ _))),
      ih (fun c hc => h c (List.mem_cons_of_mem _ hc))]

theorem flood_receive (k : Nat) (s : DownloaderV11) (h : Requested k s) (env : Env)
    (hh : env.block_hash [k + 10] = some (k + 10))
    (disc : Peer → DownloaderV11 → M DownloaderV11) :
    ∃ t, objects_loop disc env 1 [{ block := [k + 10] }] s = .ok t ∧ Flooding (k + 1) t := by
  obtain ⟨hreg, htot, hpl, hch, hring, pre, dc, hcells, hlen, hpre, hst, hcl, hbid⟩ := h
  have htake : take_cell 1 (k + 10) { block := [k + 10] } s.m_download_chain =
      some (pre ++ [received_cell { block := [k + 10] } dc], dc) := by
    rw [hcells, take_cell_skip 1 (k + 10) _ [dc] pre (fun c hc => (hpre c hc).1), take_cell,
      if_neg (by simp [hst, hcl, hbid])]
    rfl
  refine ⟨receive env 1 { block := [k + 10] } (pre ++ [received_cell { block := [k + 10] } dc])
    dc s, ?_, ?_, ?_, hpl, hch, ?_, ?_, ?_⟩
  · rw [objects_loop]
    simp only [hh, htake]
    rw [if_neg (by simp [hreg, htot, map_find])]
    rfl
  · show map_sub_one s.m_good_clients 1 = [(1, 0)]
    rw [hreg]
    rfl
  · show s.total_downloading_blocks - 1 = 0
    rw [htot]
  · show s.m_who_downloaded_block ++ [1] = List.replicate (k + 1) 1
    rw [hring, List.replicate_succ']
  · show (pre ++ [received_cell { block := [k + 10] } dc]).length = k + 1
    simp [hlen]
  · intro c hc
    have hc : c ∈ pre ++ [received_cell { block := [k + 10] } dc] := hc
    rcases List.mem_append.mp hc with hc | hc
    · have := hpre c hc
      exact ⟨this.1, Nat.lt_succ_of_lt this.2⟩
    · simp only [List.mem_singleton] at hc
      subst hc
      constructor
      · simp [received_cell, multicore]
      · show (received_cell { block := [k + 10] } dc).bid < k + 1 + 10
        have : (received_cell { block := [k + 10] } dc).bid = dc.bid := by
          simp [received_cell, multicore]
        rw [this, hbid]
        exact Nat.add_lt_add_right (Nat.lt_succ_self k) 10

/-- Between the rounds of the flood `advance_download` has nothing to do. -/
theorem flood_settled (j : Nat) (t : DownloaderV11) (h : Flooding j t)
    (hj : j ≤ TOTAL_DOWNLOAD_BLOCKS) : advance_download 3 demo_env_high t = .ok t := by
  obtain ⟨hreg, htot, hpl, hch, hring, hlen, hcells⟩ := h
  have hpre : ∀ dc ∈ t.m_download_chain, dc.status ≠ .DOWNLOADING := fun dc hdc => (hcells dc hdc).1
  apply settled_fix demo_env_high t _ 2
  refine ⟨Or.inl hch, Or.inl (by rw [hpl]; rfl), ?_, ?_⟩
  · unfold assign
    simp only [assign_loop_idle demo_env_high _ _ _ _ hpre, List.append_nil]
    rw [truncate_ring_small _ (by rw [hring, List.length_replicate]; exact hj)]
  · unfold TOTAL_DOWNLOAD_BLOCKS at hj
    have h2000 : ¬ (TOTAL_DOWNLOAD_WINDOW ≤ j) := by unfold TOTAL_DOWNLOAD_WINDOW; omega
    rintro (hb | hb)
    · simp [bad_relatively_slow, hlen, h2000] at hb
    · unfold bad_timeout at hb
      cases hs : t.m_download_chain with
      | nil => rw [hs] at hb; simp at hb
      | cons c rest =>
        rw [hs] at hb
        have := hpre c (by rw [hs]; exact List.mem_cons_self _ _)
        simp [this] at hb

theorem flood_deliver (k : Nat) (s : DownloaderV11) (h : Requested k s)
    (hk : k < TOTAL_DOWNLOAD_BLOCKS) :
    ∃ t, handle 3 demo_env_high (.objects_response 1 [{ block := [k + 10] }]) s = .ok t ∧
      Flooding (k + 1) t := by
  obtain ⟨t, h1, h2⟩ := flood_receive k s h demo_env_high rfl
    (disconnect (advance_download 3 demo_env_high) demo_env_high)
  refine ⟨t, ?_, h2⟩
  simp only [handle, on_msg_notify_request_objects, bind, Except.bind, h1]
  exact flood_settled (k + 1) t h2 hk

theorem flood_deliver_importing (k : Nat) (s : DownloaderV11) (h : Requested k s) :
    ∃ t, handle 3 demo_env_high_importing (.objects_response 1 [{ block := [k + 10] }]) s =
        .ok t ∧ Flooding (k + 1) t := by
  obtain ⟨t, h1, h2⟩ := flood_receive k s h demo_env_high_importing rfl
    (disconnect (advance_download 3 demo_env_high_importing) demo_env_high_importing)
  refine ⟨t, ?_, h2⟩
  simp only [handle, on_msg_notify_request_objects, bind, Except.bind, h1]
  rw [advance_download, if_pos (by decide)]
  rfl

/-- Every round of the flood is reachable: peer 1 connects and then, `k` times, announces one new
block as planner and delivers it. -/
theorem flood_reachable :
    ∀ k, k ≤ TOTAL_DOWNLOAD_BLOCKS → ∃ s, Reachable demo_env.is_incoming s ∧ Flooding k s := by
  intro k
  induction k with
  | zero =>
    intro _
    refine ⟨after 3 demo_env_high (.connect 1) init,
      Reachable.step 3 demo_env_high (.connect 1) init _ Reachable.init rfl rfl,
      rfl, rfl, rfl, rfl, rfl, rfl, ?_⟩
    intro dc hdc
    have : (after 3 demo_env_high (.connect 1) init).m_download_chain = [] := rfl
    rw [this] at hdc
    cases hdc
  | succ k ih =>
    intro hk
    obtain ⟨s, hs, hf⟩ := ih (Nat.le_of_succ_le hk)
    obtain ⟨t, ht, hr⟩ := flood_request k s hf (Nat.le_of_succ_le hk)
    obtain ⟨u, hu, hfu⟩ := flood_deliver k t hr hk
    exact ⟨u, Reachable.step 3 demo_env_high _ t u
      (Reachable.step 3 demo_env_high _ s t hs rfl ht) rfl hu, hfu⟩

/-- C19 (counterexample): peer 1 connects and, 400 times, announces one new block as planner and
delivers it, which fills the ring with 400 entries.  It announces one more block, which is
requested, and delivers it while a bulk import is running: the handler appends to the ring, the
`advance_download` that ends the callback returns at once, and the ring holds 401 entries when
the callback has returned. -/

theorem ring_overflows_during_import :
    ∃ s t, Reachable demo_env.is_incoming s ∧
      s.m_who_downloaded_block.length = TOTAL_DOWNLOAD_BLOCKS ∧ importing demo_env_high_importing ∧
      handle 3 demo_env_high_importing (.objects_response 1 [{ block := [410] }]) s = .ok t ∧
      Reachable demo_env.is_incoming t ∧
      t.m_who_downloaded_block.length = 401 ∧ TOTAL_DOWNLOAD_BLOCKS < 401 := by
  obtain ⟨s, hs, hf⟩ := flood_reachable 400 (le_refl _)
  obtain ⟨t, ht, hr⟩ := flood_request 400 s hf (le_refl _)
  obtain ⟨u, hu, hfu⟩ := flood_deliver_importing 400 t hr
  have hst : Reachable demo_env.is_incoming t := Reachable.step 3 demo_env_high _ s t hs rfl ht
  refine ⟨t, u, hst, ?_, by decide, hu, Reachable.step 3 demo_env_high_importing _ t u hst rfl hu,
    ?_, by decide⟩
  · rw [hr.2.2.2.2.1, List.length_replicate]
    rfl
  · rw [hfu.2.2.2.2.1, List.length_replicate]

theorem planner_inner {incoming : Peer → Bool} {s t : DownloaderV11} (hst : Inner incoming s t)
    (h : PlannerOk s) : PlannerOk t := by
  cases hst with
  | note _ es _ => exact h
  | promote env _ himp =>
    intro p hp
    obtain ⟨h1, h2⟩ := h p hp
    refine ⟨h1, ?_⟩
    simp only [promote]
    rw [h2]
    rfl
  | elect env best _ h1 h2 h3 hb hh =>
    intro p hp
    have hp : some best = some p := hp
    cases hp
    exact ⟨(mem_sorted_clients.mp (sorted_clients_last hb).1).1, h2⟩
  | assign env _ =>
    intro p hp
    obtain ⟨k1, k2, k3, _⟩ := assign_keeps env s
    rw [k1] at hp
    rw [k2, k3]
    exact h p hp
  | protect env who _ _ _ => exact h
  | scrub who _ hinc hno =>
    intro p hp
    have hne : s.m_chain_client = some p ∧ p ≠ who := by
      unfold scrub at hp
      dsimp only at hp
      split at hp
      · cases hp
      · rename_i hne
        exact ⟨hp, fun heq => hne (by rw [← heq]; exact hp)⟩
    obtain ⟨h1, h2⟩ := h p hne.1
    constructor
    · rw [(scrub_fields who s).1, map_keys_erase]
      exact List.mem_filter.mpr ⟨h1, by simpa using hne.2⟩
    · unfold scrub
      dsimp only
      split <;> exact h2

theorem planner_prim {chain_ok : Env → Peer → ChainResponse → DownloaderV11 → Prop}
    {incoming : Peer → Bool} {s t : DownloaderV11} (hst : Prim chain_ok incoming s t)
    (h : PlannerOk s) : PlannerOk t := by
  cases hst with
  | inner _ _ hi => exact planner_inner hi h
  | register env who _ hw hv =>
    intro p hp
    have hp' : s.m_chain_client = some p := by
      unfold register at hp
      dsimp only at hp
      split at hp <;> exact hp
    obtain ⟨h1, h2⟩ := h p hp'
    constructor
    · have : p ∈ map_keys (map_insert s.m_good_clients who 0) :=
        (map_keys_insert_mem _ _ _ _).mpr (Or.inr h1)
      unfold register
      dsimp only
      split <;> exact this
    · unfold register
      dsimp only
      split <;> exact h2
  | chain_timer_fired _ => exact h
  | request_more env who req _ h1 h2 _ hw =>
    intro p hp
    have hp' : s.m_chain_client = some p := hp
    exact ⟨(h p hp').1, hw.1⟩
  | accept_chain env who req _ h1 h2 _ hw =>
    intro p hp
    cases hp
  | receive env who rb bid cells dc _ hb htake hf hz ht =>
    intro p hp
    obtain ⟨h1, h2⟩ := h p hp
    refine ⟨?_, h2⟩
    show p ∈ map_keys (map_sub_one s.m_good_clients who)
    unfold map_sub_one
    rw [map_keys_update]
    exact h1
  | collect _ =>
    intro p hp
    have hp' : s.m_chain_client = some p := by
      unfold collect at hp
      simp only [multicore, if_true] at hp
      exact hp
    have := h p hp'
    unfold collect
    simp only [multicore, if_true]
    exact this
  | drained env budget _ => exact h
  | worker_take _ =>
    intro p hp
    have hp' : s.m_chain_client = some p := by
      unfold worker_take at hp
      split at hp <;> exact hp
    have := h p hp'
    unfold worker_take
    split <;> exact this
  | worker_publish i _ =>
    intro p hp
    have hp' : s.m_chain_client = some p := by
      unfold worker_publish at hp
      split at hp <;> exact hp
    have := h p hp'
    unfold worker_publish
    split <;> exact this

theorem planner_steps {chain_ok : Env → Peer → ChainResponse → DownloaderV11 → Prop}
    {incoming : Peer → Bool} {s t : DownloaderV11} (hst : Steps chain_ok incoming s t)
    (h : PlannerOk s) : PlannerOk t := by
  induction hst with
  | refl => exact h
  | tail _ hp ih => exact planner_prim hp ih

/-- C27: in every reachable state, if `m_chain_client` is not null then it is a key of
`m_good_clients` and `m_chain` is empty: the one slot for an outstanding chain request holds a
registered peer, and it is empty while ids wait for promotion. -/

theorem planner_is_registered (incoming : Peer → Bool) (s : DownloaderV11)
    (h : Reachable incoming s) (p : Peer) (hp : s.m_chain_client = some p) :
    p ∈ map_keys s.m_good_clients ∧ s.m_chain = [] :=
  planner_steps (reachable_steps h) (fun q hq => by cases hq) p hp

theorem planner_is_registered_witness :
    demo_state.m_chain_client = some 1 ∧
      (1 ∈ map_keys demo_state.m_good_clients ∧ demo_state.m_chain = []) :=
  ⟨by decide, planner_is_registered demo_env.is_incoming demo_state demo_reachable 1 (by decide)⟩

theorem bids_of_cellStep {l1 l2 : List DownloadCell} (h : List.Forall₂ CellStep l1 l2) :
    l2.map (fun dc => dc.bid) = l1.map (fun dc => dc.bid) := by
  induction h with
  | nil => rfl
  | cons hab _ ih =>
    have : _ = _ := congrArg (fun x => x.1) hab.1
    simp only [cell_id] at this
    simp [this, ih]

theorem promote_loop_ids (source : Address) (chain : List Hash) :
    ∀ (cells : List DownloadCell) (start : Height),
      (promote_loop source chain cells start).1.map (fun dc => dc.bid) ++
          (promote_loop source chain cells start).2.1 =
        cells.map (fun dc => dc.bid) ++ chain := by
  induction chain with
  | nil => intro cells start; rfl
  | cons bid rest ih =>
    intro cells start
    rw [promote_loop]
    split
    · dsimp only
      rw [ih]
      simp
    · rfl

theorem scheduled_prim {chain_ok : Env → Peer → ChainResponse → DownloaderV11 → Prop}
    {incoming : Peer → Bool} {s t : DownloaderV11} (hst : Prim chain_ok incoming s t)
    (hok : ∀ env who req u, chain_ok env who req u → fresh_tail env who req u)
    (h : (scheduled_ids s).Nodup) : (scheduled_ids t).Nodup := by
  rcases prim_frame hst with hq | rfl | ⟨env, budget, rfl⟩ | ⟨env, who, req, _, hc, rfl | rfl⟩
  · obtain ⟨h1, _, _, h4⟩ := hq
    unfold scheduled_ids at h ⊢
    rw [h1, bids_of_cellStep h4]
    exact h
  · unfold scheduled_ids at h ⊢
    simp only [promote]
    rw [promote_loop_ids]
    exact h
  · obtain ⟨dropped, d1, _, _⟩ := drain_spec env s.m_download_chain budget env.bc
    unfold scheduled_ids at h ⊢
    have hc : (drained env budget s).m_download_chain =
        (drain env s.m_download_chain budget env.bc).cells := rfl
    have hm : (drained env budget s).m_chain = s.m_chain := rfl
    rw [hc, hm]
    rw [d1, List.map_append, List.append_assoc] at h
    exact (List.nodup_append.mp h).2.1
  · exact hok env who req s hc
  · exact hok env who req s hc

/-- C28 (amended): the bids of the cells in `m_download_chain` are pairwise distinct, and distinct
from the ids waiting in `m_chain`, in every state reached by callbacks whose accepted chain
responses keep, after the skip loop, pairwise distinct ids none of which is the bid of a queued
cell; then at most one cell carries a given bid. -/

theorem bids_distinct_if_responses_fresh (incoming : Peer → Bool) (s : DownloaderV11)
    (h : ReachableIf fresh_tail incoming s) :
    (s.m_download_chain.map (fun dc => dc.bid) ++ s.m_chain).Nodup ∧
      (s.m_download_chain.map (fun dc => dc.bid)).Nodup ∧
      ∀ bid, (s.m_download_chain.filter (fun dc => decide (dc.bid = bid))).length ≤ 1 := by
  have hs := reachableIf_steps h
  have hall : (scheduled_ids s).Nodup := by
    clear h
    induction hs with
    | refl => exact List.nodup_nil
    | tail _ hp ih => exact scheduled_prim hp (fun _ _ _ _ hc => hc) ih
  have hn : (s.m_download_chain.map (fun dc => dc.bid)).Nodup :=
    (List.nodup_append.mp hall).1
  refine ⟨hall, hn, ?_⟩
  intro bid
  have hc := List.nodup_iff_count_le_one.mp hn bid
  rw [List.count, List.countP_map, List.countP_eq_length_filter] at hc
  have hf : s.m_download_chain.filter ((fun x => x == bid) ∘ fun dc => dc.bid) =
      s.m_download_chain.filter (fun dc => decide (dc.bid = bid)) := by
    apply List.filter_congr
    intro dc _
    by_cases hb : dc.bid = bid <;> simp [hb]
  rw [hf] at hc
  exact hc

theorem demo_reachable_fresh : ReachableIf fresh_tail demo_env.is_incoming demo_state := by
  have a1 : handle 3 demo_env (.connect 1) init = .ok (after 3 demo_env (.connect 1) init) := rfl
  have a2 : handle 3 demo_env (.connect 2) (after 3 demo_env (.connect 1) init) =
      .ok (after 3 demo_env (.connect 2) (after 3 demo_env (.connect 1) init)) := rfl
  have a3 : handle 3 demo_env (.chain_response 1 ⟨100, [7, 8, 9]⟩)
      (after 3 demo_env (.connect 2) (after 3 demo_env (.connect 1) init)) = .ok demo_state := rfl
  refine .step 3 demo_env _ _ _ (.step 3 demo_env _ _ _ (.step 3 demo_env _ _ _ .init rfl ?_ a1)
    rfl ?_ a2) rfl ?_ a3
  · intro who req h; cases h
  · intro who req h; cases h
  · intro who req h _; cases h; decide

theorem bids_distinct_if_responses_fresh_witness :
    (demo_state.m_download_chain.map (fun dc => dc.bid) ++ demo_state.m_chain).Nodup ∧
      (demo_state.m_download_chain.map (fun dc => dc.bid)).Nodup ∧
      ∀ bid, (demo_state.m_download_chain.filter (fun dc => decide (dc.bid = bid))).length ≤ 1 :=
  bids_distinct_if_responses_fresh demo_env.is_incoming demo_state demo_reachable_fresh

/-- C28 (counterexample): the planner, peer 1, answers with the id 7 twice.  The skip loop stops
at the first id, which is new, both ids are promoted and requested from peer 1, and the queue
holds two DOWNLOADING cells with the bid 7 assigned to the same peer. -/

theorem duplicate_bids_scheduled :
    Reachable demo_env.is_incoming demo_twin_state ∧
      demo_twin_state.m_download_chain.map (fun dc => dc.bid) = [7, 7] ∧
      ¬ (demo_twin_state.m_download_chain.map (fun dc => dc.bid)).Nodup ∧
      (demo_twin_state.m_download_chain.filter (fun dc =>
        decide (dc.status = .DOWNLOADING ∧ dc.downloading_client = some 1 ∧
          dc.bid = 7))).length = 2 :=
  ⟨Reachable.step 3 demo_env (.chain_response 1 ⟨100, [7, 7]⟩) demo_planner_state
      demo_twin_state demo_planner_reachable rfl rfl,
    by decide, by decide, by decide⟩

theorem slacker_due_iff (env : Env) (s : DownloaderV11) :
    (bad_relatively_slow s ∨ bad_timeout env s) ↔ slacker_due env s := by
  unfold slacker_due bad_relatively_slow bad_timeout
  cases hc : s.m_download_chain with
  | nil => simp
  | cons front rest =>
    constructor
    · intro h
      rcases h with hb | hb
      · simp only [Bool.and_eq_true, decide_eq_true_eq, Bool.not_eq_true',
          Option.isSome_iff_exists] at hb
        obtain ⟨⟨⟨h1, h2⟩, h3⟩, ⟨h4, who, h5⟩, h6⟩ := hb
        exact ⟨front, rest, who, rfl, h4, h5, h6, Or.inr ⟨h1, h2, h3⟩⟩
      · simp only [Bool.and_eq_true, decide_eq_true_eq, Bool.not_eq_true',
          Option.isSome_iff_exists] at hb
        obtain ⟨⟨⟨h4, who, h5⟩, h6⟩, h7⟩ := hb
        exact ⟨front, rest, who, rfl, h4, h5, h6, Or.inl h7⟩
    · rintro ⟨f, r, who, heq, h4, h5, h6, h7⟩
      cases heq
      rcases h7 with h7 | ⟨h1, h2, h3⟩
      · right
        simp only [Bool.and_eq_true, decide_eq_true_eq, Bool.not_eq_true',
          Option.isSome_iff_exists]
        exact ⟨⟨⟨h4, who, h5⟩, h6⟩, h7⟩
      · left
        simp only [Bool.and_eq_true, decide_eq_true_eq, Bool.not_eq_true',
          Option.isSome_iff_exists]
        exact ⟨⟨⟨h1, h2⟩, h3⟩, ⟨h4, who, h5⟩, h6⟩

/-- C22 (amended): the slacker step of `advance_download` disconnects the peer of the head cell,
after protecting its cells and delaying its next connection attempt, if and only if the queue is
not empty, the head cell is DOWNLOADING, assigned and not protected, and either the age of the
request, truncated to whole seconds as `duration_cast<seconds>` does, exceeds `2 * SYNC_TIMEOUT`
(hard timeout) or `total_downloading_blocks < 400`, `|m_download_chain| >= 2000` and
`|m_good_clients| > 1` (relative slowness); otherwise `advance_download` ends with the
assignment loop.  With exactly one registered peer relative slowness cannot trigger. -/

theorem slacker_fires_iff (fuel : Nat) (env : Env) (s s2 : DownloaderV11)
    (himp : ¬ importing env)
    (h2 : advance_chain (disconnect (advance_download fuel env) env) env (promote s) = .ok s2) :
    (slacker_due env (assign env s2) →
      ∃ who, front_client (assign env s2) = some who ∧
        advance_download (fuel + 1) env s =
          on_disconnect (advance_download fuel env) env who
            (log (protect env who (assign env s2)) [.disconnect who]) ∧
        (log (protect env who (assign env s2)) [.disconnect who]).trace =
          (assign env s2).trace ++
            [.delay_connection_attempt (env.get_address who) env.local_time,
              .disconnect who] ∧
        (log (protect env who (assign env s2)) [.disconnect who]).m_download_chain =
          (assign env s2).m_download_chain.map (protect_cell who)) ∧
    (¬ slacker_due env (assign env s2) →
      advance_download (fuel + 1) env s = .ok (assign env s2)) ∧
    (∀ u : DownloaderV11, u.m_good_clients.length = 1 → bad_relatively_slow u = false) := by
  refine ⟨?_, ?_, ?_⟩
  · intro hdue
    have hbad := (slacker_due_iff env (assign env s2)).mpr hdue
    obtain ⟨who, front, rest, hcells, hclient, hfront⟩ := slacker_front env _ hbad
    refine ⟨who, hfront, ?_, by simp [log, protect], rfl⟩
    rw [advance_download, if_neg himp]
    simp only [bind, Except.bind, h2]
    rw [if_pos hbad, hfront]
    rfl
  · intro hdue
    have hbad : ¬ (bad_relatively_slow (assign env s2) ∨ bad_timeout env (assign env s2)) :=
      fun h => hdue ((slacker_due_iff env (assign env s2)).mp h)
    rw [advance_download, if_neg himp]
    simp only [bind, Except.bind, h2]
    rw [if_neg hbad]
    rfl
  · intro u hu
    simp [bad_relatively_slow, hu]

theorem slacker_fires_iff_witness :
    (slacker_due demo_env_late (assign demo_env_late demo_state) →
      ∃ who, front_client (assign demo_env_late demo_state) = some who ∧
        advance_download (2 + 1) demo_env_late demo_state =
          on_disconnect (advance_download 2 demo_env_late) demo_env_late who
            (log (protect demo_env_late who (assign demo_env_late demo_state))
              [.disconnect who]) ∧
        (log (protect demo_env_late who (assign demo_env_late demo_state))
            [.disconnect who]).trace =
          (assign demo_env_late demo_state).trace ++
            [.delay_connection_attempt (demo_env_late.get_address who)
                demo_env_late.local_time,
              .disconnect who] ∧
        (log (protect demo_env_late who (assign demo_env_late demo_state))
            [.disconnect who]).m_download_chain =
          (assign demo_env_late demo_state).m_download_chain.map (protect_cell who)) ∧
    (¬ slacker_due demo_env_late (assign demo_env_late demo_state) →
      advance_download (2 + 1) demo_env_late demo_state =
        .ok (assign demo_env_late demo_state)) ∧
    (∀ u : DownloaderV11, u.m_good_clients.length = 1 → bad_relatively_slow u = false) :=
  slacker_fires_iff 2 demo_env_late demo_state demo_state (by decide) (by rfl)

/-- C25: in every state in which a piece of a callback runs, reachable states included, neither
`std::logic_error` can be thrown: `total_downloading_blocks` is never less than the count of a
peer, which is what `on_disconnect` tests, and whenever a block matches a cell that is
DOWNLOADING and assigned to its sender, the sender is registered with a count above 0 and
`total_downloading_blocks` is above 0, so that the three decrements never wrap below zero; and
every callback returns without an exception. -/

theorem no_logic_error (incoming : Peer → Bool) (s : DownloaderV11)
    (hs : Steps (fun _ _ _ _ => True) incoming init s) :
    (∀ who, ¬ s.total_downloading_blocks < map_count s.m_good_clients who) ∧
    (∀ who bid rb cells dc, take_cell who bid rb s.m_download_chain = some (cells, dc) →
      map_find s.m_good_clients who ≠ none ∧ map_find s.m_good_clients who ≠ some 0 ∧
        s.total_downloading_blocks ≠ 0) ∧
    (∀ who dc, dc ∈ s.m_download_chain → dc.status = .DOWNLOADING →
      dc.downloading_client = some who →
      who ∈ map_keys s.m_good_clients ∧ 0 < map_count s.m_good_clients who ∧
        0 < s.total_downloading_blocks) ∧
    (∀ env who fuel, env.is_incoming = incoming → s.m_good_clients.length < fuel →
      ∃ t, on_disconnect (advance_download fuel env) env who s = .ok t) ∧
    (∀ env input fuel, env.is_incoming = incoming → s.m_good_clients.length + 1 < fuel →
      ∃ t, handle fuel env input s = .ok t) := by
  have hinv : Inv incoming s := inv_steps hs (inv_init incoming)
  refine ⟨no_underflow hinv, ?_, ?_, ?_, ?_⟩
  · intro who bid rb cells dc htake
    have := receive_guard hinv who bid rb cells dc htake
    simp only [not_or] at this
    exact this
  · intro who dc hdc hst hcl
    have hreg := (hinv.owner dc hdc who hcl).2
    have hpos : 0 < assigned_to who s.m_download_chain := by
      unfold assigned_to
      exact List.countP_pos_iff.mpr ⟨dc, hdc, by simp [hcl]⟩
    have hcnt := hinv.counts who
    have hno := no_underflow hinv who
    refine ⟨hreg, by omega, by omega⟩
  · intro env who fuel hinc hlen
    apply on_disconnect_returns env _ who s hinv
    intro u hu hul
    exact advance_download_returns fuel env hinc u hu
      (lt_of_le_of_lt (le_trans hul (map_erase_length_le _ _)) hlen)
  · intro env input fuel hinc hlen
    exact handle_returns fuel env hinc input s hinv hlen

theorem no_logic_error_witness :
    (∀ who, ¬ demo_state.total_downloading_blocks < map_count demo_state.m_good_clients who) ∧
    (∀ who bid rb cells dc,
      take_cell who bid rb demo_state.m_download_chain = some (cells, dc) →
      map_find demo_state.m_good_clients who ≠ none ∧
        map_find demo_state.m_good_clients who ≠ some 0 ∧
        demo_state.total_downloading_blocks ≠ 0) ∧
    (∀ who dc, dc ∈ demo_state.m_download_chain → dc.status = .DOWNLOADING →
      dc.downloading_client = some who →
      who ∈ map_keys demo_state.m_good_clients ∧ 0 < map_count demo_state.m_good_clients who ∧
        0 < demo_state.total_downloading_blocks) ∧
    (∀ env who fuel, env.is_incoming = demo_env.is_incoming →
      demo_state.m_good_clients.length < fuel →
      ∃ t, on_disconnect (advance_download fuel env) env who demo_state = .ok t) ∧
    (∀ env input fuel, env.is_incoming = demo_env.is_incoming →
      demo_state.m_good_clients.length + 1 < fuel →
      ∃ t, handle fuel env input demo_state = .ok t) :=
  no_logic_error demo_env.is_incoming demo_state (reachable_steps demo_reachable)

theorem promote_loop_shortens (source : Address) (chain : List Hash) :
    ∀ (cells : List DownloadCell) (start : Height),
      (promote_loop source chain cells start).2.1.length +
          (promote_loop source chain cells start).2.2.2.length = chain.length := by
  induction chain with
  | nil => intro cells start; rfl
  | cons bid rest ih =>
    intro cells start
    rw [promote_loop]
    split
    · dsimp only
      have := ih (cells ++ [{ bid := bid, expected_height := start, bid_source := source }])
        ((start + 1) % HEIGHT_T)
      rw [List.length_cons, List.length_cons]
      omega
    · rfl

/-- C26: `advance_download` returns from every state in which a piece of a callback runs,
reachable states included, when `disconnect` calls `on_disconnect` before it returns: the fuel,
which bounds the depth of the nested calls, suffices as soon as it exceeds the size of the
registry.  Each nested disconnect targets a registered peer, the lagging one of `advance_chain`
or the peer of the head cell, `on_disconnect` erases it and so hands a strictly smaller registry
to the nested `advance_download`; the promotion loop and the skip loop of a chain response
consume one id of `m_chain` per iteration. -/

theorem advance_download_terminates (incoming : Peer → Bool) (s : DownloaderV11)
    (hs : Steps (fun _ _ _ _ => True) incoming init s) (env : Env)
    (hinc : env.is_incoming = incoming) :
    (∀ fuel, s.m_good_clients.length < fuel → ∃ t, advance_download fuel env s = .ok t) ∧
    (∀ who ∈ lagging_clients env s, who ∈ map_keys s.m_good_clients) ∧
    (∀ who, front_client s = some who → who ∈ map_keys s.m_good_clients) ∧
    (∀ who ∈ map_keys s.m_good_clients, ∀ ad : DownloaderV11 → M DownloaderV11,
      on_disconnect ad env who s = ad (scrub who s) ∧
        (scrub who s).m_good_clients.length < s.m_good_clients.length) ∧
    ((promote s).m_chain.length +
        ((promote s).m_download_chain.length - s.m_download_chain.length) =
      s.m_chain.length) ∧
    (∀ who req, (store_chain env who req s).m_chain.length ≤ req.m_block_ids.length) := by
  have hinv : Inv incoming s := inv_steps hs (inv_init incoming)
  refine ⟨?_, ?_, ?_, ?_, ?_, ?_⟩
  · intro fuel hlen
    exact advance_download_returns fuel env hinc s hinv hlen
  · intro who hw
    exact (List.mem_filter.mp hw).1
  · intro who hf
    unfold front_client at hf
    split at hf
    · cases hf
    · rename_i front rest hc
      exact (hinv.owner front (by rw [hc]; exact List.mem_cons_self _ _) who hf).2
  · intro who hw ad
    constructor
    · unfold on_disconnect
      have hout : env.is_incoming who = false := by rw [hinc]; exact hinv.outgoing who hw
      rw [hout]
      simp only [Bool.false_eq_true, if_false]
      rw [if_neg (no_underflow hinv who)]
    · rw [(scrub_fields who s).1]
      exact map_erase_length_lt _ _ hw
  · have h1 := promote_loop_shortens s.chain_source s.m_chain s.m_download_chain
      s.m_chain_start_height
    have h2 := (promote_loop_spec s.chain_source s.m_chain s.m_download_chain
      s.m_chain_start_height).1
    simp only [promote]
    rw [h2, List.length_append]
    omega
  · intro who req
    obtain ⟨k, _, _, _, h4⟩ := skip_known_spec env (s.m_download_chain.map (fun dc => dc.bid))
      req.m_block_ids (req.start_height % HEIGHT_T) (Nat.mod_lt _ (by decide))
    simp only [store_chain, h4, List.length_drop]
    omega

theorem advance_download_terminates_witness :
    (∀ fuel, demo_state.m_good_clients.length < fuel →
      ∃ t, advance_download fuel demo_env_late demo_state = .ok t) ∧
    (∀ who ∈ lagging_clients demo_env_late demo_state, who ∈ map_keys demo_state.m_good_clients) ∧
    (∀ who, front_client demo_state = some who → who ∈ map_keys demo_state.m_good_clients) ∧
    (∀ who ∈ map_keys demo_state.m_good_clients, ∀ ad : DownloaderV11 → M DownloaderV11,
      on_disconnect ad demo_env_late who demo_state = ad (scrub who demo_state) ∧
        (scrub who demo_state).m_good_clients.length < demo_state.m_good_clients.length) ∧
    ((promote demo_state).m_chain.length +
        ((promote demo_state).m_download_chain.length - demo_state.m_download_chain.length) =
      demo_state.m_chain.length) ∧
    (∀ who req, (store_chain demo_env_late who req demo_state).m_chain.length ≤
      req.m_block_ids.length) :=
  advance_download_terminates demo_env.is_incoming demo_state (reachable_steps demo_reachable)
    demo_env_late rfl

theorem promote_loop_exact (source : Address) (chain : List Hash) :
    ∀ (cells : List DownloadCell) (start : Height), start < HEIGHT_T →
      (promote_loop source chain cells start).2.2.2.length =
          min chain.length (TOTAL_DOWNLOAD_WINDOW - cells.length) ∧
        (promote_loop source chain cells start).2.1 =
          chain.drop (min chain.length (TOTAL_DOWNLOAD_WINDOW - cells.length)) ∧
        (promote_loop source chain cells start).2.2.1 =
          (start + min chain.length (TOTAL_DOWNLOAD_WINDOW - cells.length)) % HEIGHT_T ∧
        ∀ j b, j < min chain.length (TOTAL_DOWNLOAD_WINDOW - cells.length) →
          chain[j]? = some b →
          (promote_loop source chain cells start).2.2.2[j]? =
            some { bid := b, expected_height := (start + j) % HEIGHT_T, bid_source := source } := by
  induction chain with
  | nil =>
    intro cells start hs
    refine ⟨by simp [promote_loop], by simp [promote_loop], ?_, ?_⟩
    · simp only [promote_loop, List.length_nil, Nat.zero_min, Nat.add_zero]
      exact (Nat.mod_eq_of_lt hs).symm
    · intro j b hj; simp at hj
  | cons bid rest ih =>
    intro cells start hs
    rw [promote_loop]
    by_cases hlt : cells.length < TOTAL_DOWNLOAD_WINDOW
    · rw [if_pos hlt]
      dsimp only
      obtain ⟨i1, i2, i3, i4⟩ :=
        ih (cells ++ [{ bid := bid, expected_height := start, bid_source := source }])
          ((start + 1) % HEIGHT_T) (Nat.mod_lt _ (by decide))
      have hk : min (bid :: rest).length (TOTAL_DOWNLOAD_WINDOW - cells.length) =
          min rest.length (TOTAL_DOWNLOAD_WINDOW -
            (cells ++ [({ bid := bid, expected_height := start, bid_source := source } :
              DownloadCell)]).length) + 1 := by
        simp only [List.length_cons, List.length_append, List.length_nil, Nat.min_def]
        split <;> split <;> omega
      rw [hk]
      refine ⟨by rw [List.length_cons, i1], by rw [List.drop_succ_cons, i2], ?_, ?_⟩
      · rw [i3, Nat.add_mod, Nat.mod_mod, ← Nat.add_mod]
        congr 1
        omega
      · intro j b hj hb
        cases j with
        | zero =>
          simp only [List.getElem?_cons_zero, Option.some.injEq] at hb ⊢
          subst hb
          simp [Nat.mod_eq_of_lt hs]
        | succ j =>
          simp only [List.getElem?_cons_succ] at hb ⊢
          rw [i4 j b (by omega) hb, Nat.add_mod, Nat.mod_mod, ← Nat.add_mod]
          congr 3
          omega
    · rw [if_neg hlt]
      have hk : min (bid :: rest).length (TOTAL_DOWNLOAD_WINDOW - cells.length) = 0 := by
        rw [Nat.sub_eq_zero_of_le (Nat.le_of_not_lt hlt)]
        exact Nat.min_zero _
      rw [hk]
      refine ⟨rfl, rfl, ?_, ?_⟩
      · exact (Nat.mod_eq_of_lt hs).symm
      · intro j b hj; simp at hj

/-- The start height fits `uint32_t` and the queue fits the window. -/
theorem window_prim {chain_ok : Env → Peer → ChainResponse → DownloaderV11 → Prop}
    {incoming : Peer → Bool} {s t : DownloaderV11} (hst : Prim chain_ok incoming s t)
    (h : s.m_chain_start_height < HEIGHT_T ∧ s.m_download_chain.length ≤ TOTAL_DOWNLOAD_WINDOW) :
    t.m_chain_start_height < HEIGHT_T ∧ t.m_download_chain.length ≤ TOTAL_DOWNLOAD_WINDOW := by
  obtain ⟨h1, h2⟩ := h
  have hstore : ∀ env who req,
      (store_chain env who req s).m_chain_start_height < HEIGHT_T := by
    intro env who req
    obtain ⟨k, _, _, _, h4⟩ := skip_known_spec env (s.m_download_chain.map (fun dc => dc.bid))
      req.m_block_ids (req.start_height % HEIGHT_T) (Nat.mod_lt _ (by decide))
    simp only [store_chain, h4]
    exact Nat.mod_lt _ (by decide)
  rcases prim_frame hst with hq | rfl | ⟨env, budget, rfl⟩ | ⟨env, who, req, _, _, rfl | rfl⟩
  · obtain ⟨_, q2, _, q4⟩ := hq
    rw [q2, ← q4.length_eq]
    exact ⟨h1, h2⟩
  · obtain ⟨e1, _, e3, _⟩ := promote_loop_exact s.chain_source s.m_chain s.m_download_chain
      s.m_chain_start_height h1
    have e0 := (promote_loop_spec s.chain_source s.m_chain s.m_download_chain
      s.m_chain_start_height).1
    constructor
    · show (promote_loop s.chain_source s.m_chain s.m_download_chain
        s.m_chain_start_height).2.2.1 < HEIGHT_T
      rw [e3]
      exact Nat.mod_lt _ (by decide)
    · show (promote_loop s.chain_source s.m_chain s.m_download_chain
        s.m_chain_start_height).1.length ≤ TOTAL_DOWNLOAD_WINDOW
      rw [e0, List.length_append, e1]
      have := Nat.min_le_right s.m_chain.length (TOTAL_DOWNLOAD_WINDOW - s.m_download_chain.length)
      omega
  · obtain ⟨dropped, d1, _, _⟩ := drain_spec env s.m_download_chain budget env.bc
    refine ⟨h1, ?_⟩
    show (drain env s.m_download_chain budget env.bc).cells.length ≤ TOTAL_DOWNLOAD_WINDOW
    have := congrArg List.length d1
    rw [List.length_append] at this
    omega
  · exact ⟨hstore env who req, h2⟩
  · exact ⟨hstore env who req, h2⟩

theorem window_steps {chain_ok : Env → Peer → ChainResponse → DownloaderV11 → Prop}
    {incoming : Peer → Bool} {s : DownloaderV11} (hst : Steps chain_ok incoming init s) :
    s.m_chain_start_height < HEIGHT_T ∧ s.m_download_chain.length ≤ TOTAL_DOWNLOAD_WINDOW := by
  induction hst with
  | refl => exact ⟨by decide, Nat.zero_le _⟩
  | tail _ hp ih => exact window_prim hp ih

/-- C21 (amended): in every state in which a piece of a callback runs, reachable states included,
the promotion step of `advance_download` moves exactly
`k = min(|m_chain|, 2000 - |m_download_chain|)` ids, none when the queue holds 2000 cells, from
the front of `m_chain` to the back of `m_download_chain` in their order; the `j`-th promoted cell
has that id as bid, status DOWNLOADING, no `downloading_client` and the expected height
`(m_chain_start_height + j) mod 2^32`, which is `m_chain_start_height + j` unless the `uint32`
height wraps, and `m_chain_start_height` becomes `(m_chain_start_height + k) mod 2^32`.  The
queue never holds more than 2000 cells. -/

theorem promotion_moves_prefix (incoming : Peer → Bool) (s : DownloaderV11)
    (hs : Steps (fun _ _ _ _ => True) incoming init s) :
    ∃ added, (promote s).m_download_chain = s.m_download_chain ++ added ∧
      added.length = promotion_count s ∧
      (promote s).m_chain = s.m_chain.drop (promotion_count s) ∧
      (promote s).m_chain_start_height =
        (s.m_chain_start_height + promotion_count s) % 4294967296 ∧
      (s.m_chain_start_height + promotion_count s < 4294967296 →
        (promote s).m_chain_start_height = s.m_chain_start_height + promotion_count s) ∧
      (∀ j b, j < promotion_count s → s.m_chain[j]? = some b →
        ∃ dc, added[j]? = some dc ∧ dc.bid = b ∧ dc.status = .DOWNLOADING ∧
          dc.downloading_client = none ∧
          dc.expected_height = (s.m_chain_start_height + j) % 4294967296 ∧
          (s.m_chain_start_height + j < 4294967296 →
            dc.expected_height = s.m_chain_start_height + j)) ∧
      s.m_download_chain.length ≤ 2000 ∧ (promote s).m_download_chain.length ≤ 2000 := by
  obtain ⟨hstart, hlen⟩ := window_steps hs
  obtain ⟨e1, e2, e3, e4⟩ := promote_loop_exact s.chain_source s.m_chain s.m_download_chain
    s.m_chain_start_height hstart
  have e0 := (promote_loop_spec s.chain_source s.m_chain s.m_download_chain
    s.m_chain_start_height).1
  have e5 : (promote s).m_chain_start_height =
      (s.m_chain_start_height + promotion_count s) % 4294967296 := e3
  refine ⟨(promote_loop s.chain_source s.m_chain s.m_download_chain
    s.m_chain_start_height).2.2.2, e0, e1, e2, e5, ?_, ?_, hlen, ?_⟩
  · intro hlt
    rw [e5]
    exact Nat.mod_eq_of_lt hlt
  · intro j b hj hb
    refine ⟨_, e4 j b hj hb, rfl, rfl, rfl, rfl, ?_⟩
    intro hlt
    exact Nat.mod_eq_of_lt hlt
  · have := (window_prim (@Prim.inner (fun _ _ _ _ => True) incoming s (promote s)
      (.promote demo_env s (by decide))) ⟨hstart, hlen⟩).2
    exact this

theorem promotion_moves_prefix_witness :
    ∃ added, (promote demo_edge_accepted).m_download_chain = demo_edge_accepted.m_download_chain ++ added ∧
      added.length = promotion_count demo_edge_accepted ∧
      (promote demo_edge_accepted).m_chain = demo_edge_accepted.m_chain.drop (promotion_count demo_edge_accepted) ∧
      (promote demo_edge_accepted).m_chain_start_height =
        (demo_edge_accepted.m_chain_start_height + promotion_count demo_edge_accepted) % 4294967296 ∧
      (demo_edge_accepted.m_chain_start_height + promotion_count demo_edge_accepted < 4294967296 →
        (promote demo_edge_accepted).m_chain_start_height =
          demo_edge_accepted.m_chain_start_height + promotion_count demo_edge_accepted) ∧
      (∀ j b, j < promotion_count demo_edge_accepted → demo_edge_accepted.m_chain[j]? = some b →
        ∃ dc, added[j]? = some dc ∧ dc.bid = b ∧ dc.status = .DOWNLOADING ∧
          dc.downloading_client = none ∧
          dc.expected_height = (demo_edge_accepted.m_chain_start_height + j) % 4294967296 ∧
          (demo_edge_accepted.m_chain_start_height + j < 4294967296 →
            dc.expected_height = demo_edge_accepted.m_chain_start_height + j)) ∧
      demo_edge_accepted.m_download_chain.length ≤ 2000 ∧
      (promote demo_edge_accepted).m_download_chain.length ≤ 2000 :=
  promotion_moves_prefix demo_env.is_incoming demo_edge_accepted
    ((reachable_steps demo_planner_reachable).tail
      (Prim.accept_chain demo_env 1 ⟨4294967295, [7, 8]⟩ demo_planner_state (by decide)
        (by decide) trivial (by decide)))

/-- C21 (counterexample): the planner answers with the ids 7 and 8 from height `2^32 - 1`; both
are new.  The promotion step finds `m_chain = [7, 8]` and `m_chain_start_height = 2^32 - 1` and
promotes both ids, `k = 2`: the cell of 8, the one with `j = 1`, gets the expected height 0 and
not `2^32`, and `m_chain_start_height` is left at 1 and not at `2^32 + 1`. -/

theorem expected_height_wraps :
    Reachable demo_env.is_incoming demo_planner_state ∧
      accepts 1 demo_planner_state ∧
      demo_edge_accepted.m_chain = [7, 8] ∧
      demo_edge_accepted.m_chain_start_height = 4294967295 ∧
      promotion_count demo_edge_accepted = 2 ∧
      (promote demo_edge_accepted).m_download_chain.map
          (fun dc => (dc.bid, dc.expected_height)) = [(7, 4294967295), (8, 0)] ∧
      (promote demo_edge_accepted).m_chain_start_height = 1 ∧
      Reachable demo_env.is_incoming demo_edge_state ∧
      demo_edge_state.m_download_chain.map
          (fun dc => (dc.bid, dc.expected_height)) = [(7, 4294967295), (8, 0)] :=
  ⟨demo_planner_reachable, ⟨by decide, by decide⟩, by decide, by decide, by decide, by decide,
    by decide,
    Reachable.step 3 demo_env (.chain_response 1 ⟨4294967295, [7, 8]⟩) demo_planner_state
      demo_edge_state demo_planner_reachable rfl rfl,
    by decide⟩

/-- C23: when the slacker step of `advance_download` fires (the callback is not suspended by an
import, and after promotion, chain planning and assignment one of the two slacker tests holds),
it fires for the peer `who` of the head cell; every cell that `who` holds at that moment is, at
the same index of the queue when the callback returns, the same block with
`protect_from_disconnect = true` and no longer held by `who`.  The flag is sticky: across any
callback, a queued cell that is protected is afterwards still in the queue (shifted by the number
of applied blocks), the same block, and still protected. -/

theorem protect_flag_is_sticky (incoming : Peer → Bool) (s : DownloaderV11)
    (hs : Steps (fun _ _ _ _ => True) incoming init s) (fuel : Nat) (env : Env)
    (hinc : env.is_incoming = incoming) (himp : ¬ importing env) (s2 t : DownloaderV11)
    (h2 : advance_chain (disconnect (advance_download fuel env) env) env (promote s) = .ok s2)
    (hbad : bad_relatively_slow (assign env s2) ∨ bad_timeout env (assign env s2))
    (ht : advance_download (fuel + 1) env s = .ok t) :
    ∃ who, front_client (assign env s2) = some who ∧
      (∀ (i : Nat) (dc : DownloadCell), (assign env s2).m_download_chain[i]? = some dc →
        dc.downloading_client = some who →
        (∃ dc1, (protect env who (assign env s2)).m_download_chain[i]? = some dc1 ∧
          cell_id dc1 = cell_id dc ∧ dc1.protect_from_disconnect = true) ∧
        ∃ dc2, t.m_download_chain[i]? = some dc2 ∧ cell_id dc2 = cell_id dc ∧
          dc2.protect_from_disconnect = true ∧ dc2.downloading_client ≠ some who) ∧
      ∀ (fuel1 : Nat) (env1 : Env) (input : Input) (u v : DownloaderV11),
        handle fuel1 env1 input u = .ok v → ∀ (i : Nat) (a : DownloadCell),
        u.m_download_chain[i + ((applied v.trace).length - (applied u.trace).length)]? =
          some a →
        a.protect_from_disconnect = true →
        ∃ b, v.m_download_chain[i]? = some b ∧ cell_id b = cell_id a ∧
          b.protect_from_disconnect = true := by
  have st1 : InnerSteps incoming s (promote s) := .single (.promote env s himp)
  have st2 : InnerSteps incoming (promote s) s2 :=
    advance_chain_steps
      (fun who a b hab => disconnect_steps hinc (advance_download_steps fuel env hinc) hab) h2
  have st3 : InnerSteps incoming s (assign env s2) :=
    .trans st1 (.trans st2 (.single (.assign env s2)))
  have hinv : Inv incoming (assign env s2) :=
    inv_inner_steps st3 (inv_steps hs (inv_init incoming))
  obtain ⟨who, front, rest, hcells, hclient, hfront⟩ := slacker_front env _ hbad
  have hreg : who ∈ map_keys (assign env s2).m_good_clients :=
    (hinv.owner front (by rw [hcells]; exact List.mem_cons_self _ _) who hclient).2
  have hout : env.is_incoming who = false := by rw [hinc]; exact hinv.outgoing who hreg
  have heq : advance_download (fuel + 1) env s =
      on_disconnect (advance_download fuel env) env who
        (log (protect env who (assign env s2)) [.disconnect who]) := by
    rw [advance_download, if_neg himp]
    simp only [bind, Except.bind, h2]
    rw [if_pos hbad, hfront]
    rfl
  rw [heq] at ht
  unfold on_disconnect at ht
  rw [hout] at ht
  simp only [Bool.false_eq_true, if_false] at ht
  split at ht
  · cases ht
  · rename_i hno
    have stn := advance_download_steps fuel env hinc _ _ ht
    have hinvp : Inv incoming (log (protect env who (assign env s2)) [.disconnect who]) :=
      inv_inner_steps
        (.trans (.single (.protect env who _ hfront hbad))
          (.single (.note _ _ (by simp [Effect.is_mark])))) hinv
    have hinvs : Inv incoming
        (scrub who (log (protect env who (assign env s2)) [.disconnect who])) :=
      inv_inner (.scrub who _ (by rw [← hinc]; exact hout) hno) hinvp
    have hinvt : Inv incoming t := inv_inner_steps stn hinvs
    have hgone : who ∉ map_keys t.m_good_clients := by
      intro hmem
      have := inner_steps_keys stn who hmem
      rw [(scrub_fields who _).1, map_keys_erase] at this
      simpa using (List.mem_filter.mp this).2
    have stp : InnerSteps incoming (log (protect env who (assign env s2)) [.disconnect who]) t :=
      Relation.ReflTransGen.head (.scrub who _ (by rw [← hinc]; exact hout) hno) stn
    have hg : Grows (log (protect env who (assign env s2)) [.disconnect who]) t :=
      grows_steps (@inner_to_steps (fun _ _ _ _ => True) incoming _ _ stp)
    obtain ⟨es, e1, a1⟩ := inner_steps_trace stp
    have hshift : (applied t.trace).length -
        (applied (log (protect env who (assign env s2)) [.disconnect who]).trace).length = 0 := by
      rw [e1, applied_append, a1]; simp
    refine ⟨who, hfront, ?_, ?_⟩
    · intro i dc hdc hc
      have hp : (protect env who (assign env s2)).m_download_chain[i]? =
          some (protect_cell who dc) := by
        simp only [protect, log, List.getElem?_map, hdc, Option.map_some']
      have hflag : (protect_cell who dc).protect_from_disconnect = true := by
        unfold protect_cell; rw [if_pos hc]
      have hid : cell_id (protect_cell who dc) = cell_id dc := by
        unfold protect_cell; rw [if_pos hc]; rfl
      refine ⟨⟨_, hp, hid, hflag⟩, ?_⟩
      obtain ⟨b, hb, hab⟩ := grows_index hg i (protect_cell who dc)
        (by rw [hshift]; simpa [log] using hp)
      refine ⟨b, hb, hab.1.trans hid, hab.2.2 hflag, ?_⟩
      intro hbc
      exact hgone (hinvt.owner b (by obtain ⟨hlt, rfl⟩ := List.getElem?_eq_some.mp hb; exact List.getElem_mem hlt) who hbc).2
    · intro fuel1 env1 input u v h i a ha hflag
      have hsv : Steps (fun _ _ _ _ => True) env1.is_incoming u v :=
        handle_steps rfl (fun _ _ _ _ => trivial) h
      obtain ⟨b, hb, hab⟩ := grows_index (grows_steps hsv) i a ha
      exact ⟨b, hb, hab.1, hab.2.2 hflag⟩

theorem protect_flag_is_sticky_witness :
    ∃ who, front_client (assign demo_env_late demo_state) = some who ∧
      (∀ (i : Nat) (dc : DownloadCell), (assign demo_env_late demo_state).m_download_chain[i]? = some dc →
        dc.downloading_client = some who →
        (∃ dc1, (protect demo_env_late who
            (assign demo_env_late demo_state)).m_download_chain[i]? = some dc1 ∧
          cell_id dc1 = cell_id dc ∧ dc1.protect_from_disconnect = true) ∧
        ∃ dc2, demo_struck_state.m_download_chain[i]? = some dc2 ∧ cell_id dc2 = cell_id dc ∧
          dc2.protect_from_disconnect = true ∧ dc2.downloading_client ≠ some who) ∧
      ∀ (fuel1 : Nat) (env1 : Env) (input : Input) (u v : DownloaderV11),
        handle fuel1 env1 input u = .ok v → ∀ (i : Nat) (a : DownloadCell),
        u.m_download_chain[i + ((applied v.trace).length - (applied u.trace).length)]? =
          some a →
        a.protect_from_disconnect = true →
        ∃ b, v.m_download_chain[i]? = some b ∧ cell_id b = cell_id a ∧
          b.protect_from_disconnect = true :=
  protect_flag_is_sticky demo_env.is_incoming demo_state (reachable_steps demo_reachable) 2
    demo_env_late rfl (by decide) demo_state demo_struck_state (by rfl) (by decide) (by rfl)

theorem le_foldr_max (l : List Nat) : ∀ x ∈ l, x ≤ l.foldr max 0 := by
  induction l with
  | nil => intro x hx; cases hx
  | cons y ys ih =>
    intro x hx
    rw [List.foldr_cons]
    rcases List.mem_cons.mp hx with rfl | hx
    · exact le_max_left _ _
    · exact le_trans (ih x hx) (le_max_right _ _)

theorem foldr_max_mem (l : List Nat) (h : l ≠ []) : l.foldr max 0 ∈ l := by
  induction l with
  | nil => exact absurd rfl h
  | cons y ys ih =>
    rw [List.foldr_cons]
    by_cases hy : ys = []
    · subst hy; simp
    · rcases max_choice y (ys.foldr max 0) with hm | hm
      · rw [hm]; exact List.mem_cons_self _ _
      · rw [hm]; exact List.mem_cons_of_mem _ (ih hy)

theorem foldr_min_le (vs : List Nat) (v : Nat) :
    vs.foldr min v ≤ v ∧ ∀ x ∈ vs, vs.foldr min v ≤ x := by
  induction vs with
  | nil => exact ⟨le_refl _, fun x hx => by cases hx⟩
  | cons y ys ih =>
    rw [List.foldr_cons]
    refine ⟨le_trans (min_le_right _ _) ih.1, ?_⟩
    intro x hx
    rcases List.mem_cons.mp hx with rfl | hx
    · exact min_le_left _ _
    · exact le_trans (min_le_right _ _) (ih.2 x hx)

theorem foldr_min_mem (vs : List Nat) (v : Nat) : vs.foldr min v ∈ v :: vs := by
  induction vs with
  | nil => simp
  | cons y ys ih =>
    rw [List.foldr_cons]
    rcases min_choice y (ys.foldr min v) with hm | hm
    · rw [hm]; simp
    · rw [hm]
      rcases List.mem_cons.mp ih with h | h
      · rw [h]; simp
      · exact List.mem_cons_of_mem _ (List.mem_cons_of_mem _ h)

theorem spread_iff (m : List (Peer × Nat)) : Spread m ↔ count_max m - count_min m ≤ 1 := by
  cases m with
  | nil => simp [Spread, count_max, count_min]
  | cons e rest =>
    have hmax : count_max (e :: rest) = (e.2 :: rest.map Prod.snd).foldr max 0 := rfl
    have hmin : count_min (e :: rest) = (rest.map Prod.snd).foldr min e.2 := rfl
    rw [hmax, hmin]
    constructor
    · intro h
      have h1 : (e.2 :: rest.map Prod.snd).foldr max 0 ∈ (e :: rest).map Prod.snd :=
        foldr_max_mem (e.2 :: rest.map Prod.snd) (by simp)
      have h2 : (rest.map Prod.snd).foldr min e.2 ∈ (e :: rest).map Prod.snd :=
        foldr_min_mem (rest.map Prod.snd) e.2
      obtain ⟨a, ha, ea⟩ := List.mem_map.mp h1
      obtain ⟨b, hb, eb⟩ := List.mem_map.mp h2
      have := h a ha b hb
      rw [ea, eb] at this
      omega
    · intro h a ha b hb
      have h1 := le_foldr_max (e.2 :: rest.map Prod.snd) a.2
        (List.mem_map_of_mem Prod.snd ha)
      have h2 : (rest.map Prod.snd).foldr min e.2 ≤ b.2 := by
        rcases List.mem_cons.mp hb with rfl | hb
        · exact (foldr_min_le _ _).1
        · exact (foldr_min_le _ _).2 b.2 (List.mem_map_of_mem Prod.snd hb)
      omega

theorem visits_suffix {env : Env} {ring : List Peer} {cells0 : List DownloadCell}
    {clients0 : List (Peer × Nat)} {total0 : Nat} {cells : List DownloadCell}
    {clients : List (Peer × Nat)} {total : Nat}
    (hv : Visits env ring cells0 clients0 total0 cells clients total) :
    cells <:+ cells0 ∧ map_keys clients = map_keys clients0 := by
  induction hv with
  | start => exact ⟨List.suffix_refl _, rfl⟩
  | pass dc rest clients total _ _ ih =>
    exact ⟨(List.suffix_cons dc rest).trans ih.1, ih.2⟩
  | idle dc rest clients total _ _ _ _ ih =>
    exact ⟨(List.suffix_cons dc rest).trans ih.1, ih.2⟩
  | take dc rest clients total c _ _ _ hc ih =>
    refine ⟨(List.suffix_cons dc rest).trans ih.1, ?_⟩
    rw [map_add_one_of_mem clients c (choose_client_mem env ring _ clients c hc),
      map_keys_update]
    exact ih.2

theorem visits_end {env : Env} {ring : List Peer} {cells0 : List DownloadCell}
    {clients0 : List (Peer × Nat)} {total0 : Nat} (cells : List DownloadCell) :
    ∀ (clients : List (Peer × Nat)) (total : Nat),
      Visits env ring cells0 clients0 total0 cells clients total →
      ∃ cells1 total1, Visits env ring cells0 clients0 total0 cells1
        (assign_loop env ring cells clients total).m_good_clients total1 := by
  induction cells with
  | nil => intro clients total hv; exact ⟨[], total, hv⟩
  | cons dc rest ih =>
    intro clients total hv
    rw [assign_loop]
    by_cases h1 : dc.status ≠ .DOWNLOADING ∨ dc.downloading_client.isSome
    · rw [if_pos h1]
      exact ih clients total (.pass dc rest clients total hv h1)
    · rw [if_neg h1]
      by_cases h2 : total ≥ TOTAL_DOWNLOAD_BLOCKS
      · rw [if_pos h2]
        exact ⟨dc :: rest, total, hv⟩
      · rw [if_neg h2]
        cases hc : choose_client env ring dc.expected_height clients with
        | none => exact ih clients total (.idle dc rest clients total hv h1 h2 hc)
        | some c => exact ih _ _ (.take dc rest clients total c hv h1 h2 hc)

theorem mem_map_update (m : List (Peer × Nat)) (c : Peer) (g : Nat → Nat) :
    ∀ e ∈ map_update m c g, ∃ e0 ∈ m, e.1 = e0.1 ∧
      ((e0.1 = c ∧ e.2 = g e0.2) ∨ (e0.1 ≠ c ∧ e.2 = e0.2)) := by
  induction m with
  | nil => intro e he; simp [map_update] at he
  | cons x rest ih =>
    obtain ⟨k, v⟩ := x
    intro e he
    rw [map_update] at he
    by_cases hk : k = c
    · rw [if_pos hk] at he
      rcases List.mem_cons.mp he with rfl | he
      · exact ⟨(k, v), List.mem_cons_self _ _, rfl, Or.inl ⟨hk, rfl⟩⟩
      · obtain ⟨e0, h0, h1⟩ := ih e he
        exact ⟨e0, List.mem_cons_of_mem _ h0, h1⟩
    · rw [if_neg hk] at he
      rcases List.mem_cons.mp he with rfl | he
      · exact ⟨(k, v), List.mem_cons_self _ _, rfl, Or.inr ⟨hk, rfl⟩⟩
      · obtain ⟨e0, h0, h1⟩ := ih e he
        exact ⟨e0, List.mem_cons_of_mem _ h0, h1⟩

theorem spread_add_one (m : List (Peer × Nat)) (hn : (map_keys m).Nodup) (c : Peer) (n : Nat)
    (hc : (c, n) ∈ m) (hmin : ∀ q ∈ m, n ≤ q.2) (h : Spread m) :
    Spread (map_update m c (fun v => v + 1)) := by
  have hcn : map_count m c = n := mem_find_of_nodup m hn (c, n) hc
  have key : ∀ e ∈ map_update m c (fun v => v + 1), ∃ e0 ∈ m,
      (e.2 = n + 1 ∨ e.2 = e0.2) ∧ e0.2 ≤ e.2 := by
    intro e he
    obtain ⟨e0, h0, _, h1 | h1⟩ := mem_map_update m c _ e he
    · refine ⟨e0, h0, Or.inl ?_, by omega⟩
      have := mem_find_of_nodup m hn e0 h0
      rw [h1.1, hcn] at this
      omega
    · exact ⟨e0, h0, Or.inr h1.2, by omega⟩
  intro a ha b hb
  obtain ⟨a0, ha0, ha1, _⟩ := key a ha
  obtain ⟨b0, hb0, _, hb2⟩ := key b hb
  have := h a0 ha0 b0 hb0
  have := hmin b0 hb0
  omega

theorem visits_choice_min {env : Env} {ring : List Peer} {cells0 : List DownloadCell}
    {clients0 : List (Peer × Nat)} {total0 : Nat} {dc : DownloadCell}
    {rest : List DownloadCell} {clients : List (Peer × Nat)} {total : Nat} (sp : Nat)
    (hv : Visits env ring cells0 clients0 total0 (dc :: rest) clients total)
    (hb : CountBound clients0 total0)
    (hsp : ∀ p ∈ map_keys clients0, speed_of ring p = sp)
    (hh : ∀ dc ∈ cells0, dc.status = .DOWNLOADING → dc.downloading_client = none →
      ∀ p ∈ map_keys clients0, (env.sync_data p).current_height ≥ dc.expected_height)
    (h1 : ¬ (dc.status ≠ .DOWNLOADING ∨ dc.downloading_client.isSome)) (c : Peer)
    (hc : choose_client env ring dc.expected_height clients = some c) :
    ∃ n, (c, n) ∈ clients ∧ ∀ q ∈ clients, n ≤ q.2 := by
  obtain ⟨hsuf, hkeys⟩ := visits_suffix hv
  have hcb := visits_bound hv hb
  have hbound : ∀ e ∈ clients, e.2 ≤ TOTAL_DOWNLOAD_BLOCKS :=
    fun e he => le_trans (hcb.2 e he) hcb.1
  have hdc : dc ∈ cells0 := hsuf.subset (List.mem_cons_self _ _)
  have hd : dc.status = .DOWNLOADING := by
    by_contra hne; exact h1 (Or.inl hne)
  have hnone : dc.downloading_client = none := by
    cases hcl : dc.downloading_client with
    | none => rfl
    | some p => exact absurd (Or.inr (by rw [hcl]; rfl)) h1
  have hkey : ∀ q ∈ clients, q.1 ∈ map_keys clients0 := by
    intro q hq
    rw [← hkeys]
    exact List.mem_map_of_mem Prod.fst hq
  have hcand : ∀ q ∈ clients, candidate env dc.expected_height q :=
    fun q hq => hh dc hdc hd hnone q.1 (hkey q hq)
  have hch := choose_loop_chosen env ring dc.expected_height clients [] none SIZE_MAX 1
    (by simpa using hbound) (Or.inl ⟨rfl, rfl, rfl, by simp⟩)
  simp only [List.nil_append] at hch
  obtain ⟨n0, sp0, hch⟩ := hch
  rcases hch with ⟨hc0, _⟩ | ⟨c1, n, pre, post, hc1, _, _, hcl, _, hmin, _⟩
  · unfold choose_client at hc; rw [hc] at hc0; cases hc0
  · unfold choose_client at hc
    rw [hc] at hc1
    cases hc1
    have hmem : (c, n) ∈ clients := by rw [hcl]; simp
    have hspc : speed_of ring c = sp := hsp c (hkey (c, n) hmem)
    have hpos : 0 < sp := by rw [← hspc]; exact (speed_of_range ring c).1
    refine ⟨n, hmem, ?_⟩
    intro q hq
    have := hmin q hq (hcand q hq)
    rw [hsp q.1 (hkey q hq), hspc] at this
    exact Nat.le_of_mul_le_mul_right this hpos

theorem visits_spread {env : Env} {ring : List Peer} {cells0 : List DownloadCell}
    {clients0 : List (Peer × Nat)} {total0 : Nat} {cells : List DownloadCell}
    {clients : List (Peer × Nat)} {total : Nat} (sp : Nat)
    (hv : Visits env ring cells0 clients0 total0 cells clients total)
    (hb : CountBound clients0 total0) (hn : (map_keys clients0).Nodup)
    (hsp : ∀ p ∈ map_keys clients0, speed_of ring p = sp)
    (hh : ∀ dc ∈ cells0, dc.status = .DOWNLOADING → dc.downloading_client = none →
      ∀ p ∈ map_keys clients0, (env.sync_data p).current_height ≥ dc.expected_height)
    (h0 : Spread clients0) : Spread clients := by
  induction hv with
  | start => exact h0
  | pass dc rest clients total _ _ ih => exact ih
  | idle dc rest clients total _ _ _ _ ih => exact ih
  | take dc rest clients total c hv h1 h2 hc ih =>
    obtain ⟨n, hmem, hmin⟩ := visits_choice_min sp hv hb hsp hh h1 c hc
    rw [map_add_one_of_mem clients c (choose_client_mem env ring _ clients c hc)]
    exact spread_add_one clients (by rw [(visits_suffix hv).2]; exact hn) c n hmem hmin ih

theorem demo_pair_reachable : Reachable demo_env.is_incoming demo_pair_state :=
  Reachable.step 3 demo_env (.chain_response 1 ⟨2000, [7, 8, 9]⟩) _ demo_pair_state
    (Reachable.step 3 demo_env (.connect 2) demo_planner_state _ demo_planner_reachable rfl rfl)
    rfl rfl

/-- C24: let `advance_download` reach its assignment loop in a state in which every registered
peer has the same clamped speed, every registered peer advertises at least the expected height
of every unassigned DOWNLOADING cell, and the largest and the least in-flight count of the
registry differ by at most 1.  Then at every position of the loop, so after each single
assignment, the largest and the least count differ by at most 1, any two counts differ by at
most 1, and the total in flight is at most 400; each assignment goes to a peer whose count is
the least of the registry; and the registry that the loop leaves has the same property.  When
the ring is empty every speed is 1, and when every count is 0 the counts differ by at most 1. -/

theorem assignment_spreads_evenly (incoming : Peer → Bool) (s : DownloaderV11)
    (hs : Steps (fun _ _ _ _ => True) incoming init s) (env : Env) (sp : Nat)
    (hsp : ∀ e ∈ s.m_good_clients,
      speed_of (truncate_ring s.m_who_downloaded_block) e.1 = sp)
    (hh : ∀ dc ∈ s.m_download_chain, dc.status = .DOWNLOADING → dc.downloading_client = none →
      ∀ e ∈ s.m_good_clients, candidate env dc.expected_height e)
    (h0 : count_max s.m_good_clients - count_min s.m_good_clients ≤ 1) :
    (∀ cells clients total,
      Visits env (truncate_ring s.m_who_downloaded_block) s.m_download_chain s.m_good_clients
        s.total_downloading_blocks cells clients total →
      count_max clients - count_min clients ≤ 1 ∧
        (∀ a ∈ clients, ∀ b ∈ clients, a.2 ≤ b.2 + 1) ∧ total ≤ TOTAL_DOWNLOAD_BLOCKS) ∧
    (∀ dc rest clients total c,
      Visits env (truncate_ring s.m_who_downloaded_block) s.m_download_chain s.m_good_clients
        s.total_downloading_blocks (dc :: rest) clients total →
      dc.status = .DOWNLOADING → dc.downloading_client = none →
      total < TOTAL_DOWNLOAD_BLOCKS →
      choose_client env (truncate_ring s.m_who_downloaded_block) dc.expected_height clients =
        some c →
      (∃ n, (c, n) ∈ clients ∧ ∀ q ∈ clients, n ≤ q.2) ∧
        (assign_loop env (truncate_ring s.m_who_downloaded_block) (dc :: rest) clients
            total).m_good_clients =
          (assign_loop env (truncate_ring s.m_who_downloaded_block) rest
            (map_add_one clients c) (total + 1)).m_good_clients ∧
        count_max (map_add_one clients c) - count_min (map_add_one clients c) ≤ 1) ∧
    count_max (assign env s).m_good_clients - count_min (assign env s).m_good_clients ≤ 1 ∧
    (s.m_who_downloaded_block = [] →
      ∀ p, speed_of (truncate_ring s.m_who_downloaded_block) p = 1) ∧
    ((∀ e ∈ s.m_good_clients, e.2 = 0) →
      count_max s.m_good_clients - count_min s.m_good_clients ≤ 1) := by
  have hinv : Inv incoming s := inv_steps hs (inv_init incoming)
  have hb : CountBound s.m_good_clients s.total_downloading_blocks :=
    countBound_of_inv hinv (capped_steps hs (Nat.zero_le _))
  have hn : (map_keys s.m_good_clients).Nodup := sorted_nodup _ hinv.sorted
  have hsp1 : ∀ p ∈ map_keys s.m_good_clients,
      speed_of (truncate_ring s.m_who_downloaded_block) p = sp := by
    intro p hp
    obtain ⟨e, he, rfl⟩ := List.mem_map.mp hp
    exact hsp e he
  have hh1 : ∀ dc ∈ s.m_download_chain, dc.status = .DOWNLOADING →
      dc.downloading_client = none →
      ∀ p ∈ map_keys s.m_good_clients, (env.sync_data p).current_height ≥ dc.expected_height := by
    intro dc hdc hd hnone p hp
    obtain ⟨e, he, rfl⟩ := List.mem_map.mp hp
    exact hh dc hdc hd hnone e he
  have hs0 : Spread s.m_good_clients := (spread_iff _).mpr h0
  have hall : ∀ cells clients total,
      Visits env (truncate_ring s.m_who_downloaded_block) s.m_download_chain s.m_good_clients
        s.total_downloading_blocks cells clients total → Spread clients :=
    fun cells clients total hv => visits_spread sp hv hb hn hsp1 hh1 hs0
  refine ⟨?_, ?_, ?_, ?_, ?_⟩
  · intro cells clients total hv
    exact ⟨(spread_iff _).mp (hall _ _ _ hv), hall _ _ _ hv, (visits_bound hv hb).1⟩
  · intro dc rest clients total c hv hd hnone ht hc
    have h1 : ¬ (dc.status ≠ .DOWNLOADING ∨ dc.downloading_client.isSome) := by
      simp [hd, hnone]
    have h2 : ¬ total ≥ TOTAL_DOWNLOAD_BLOCKS := by omega
    refine ⟨visits_choice_min sp hv hb hsp1 hh1 h1 c hc, ?_, ?_⟩
    · rw [assign_loop, if_neg h1, if_neg h2, hc]
    · exact (spread_iff _).mp (hall _ _ _ (.take dc rest clients total c hv h1 h2 hc))
  · obtain ⟨cells1, total1, hv⟩ := visits_end s.m_download_chain s.m_good_clients
      s.total_downloading_blocks (@Visits.start env
        (truncate_ring s.m_who_downloaded_block) s.m_download_chain s.m_good_clients
        s.total_downloading_blocks)
    exact (spread_iff _).mp (hall _ _ _ hv)
  · intro hr p
    rw [hr]
    rfl
  · intro hz
    apply (spread_iff _).mp
    intro a ha b hb
    rw [hz a ha]
    exact Nat.zero_le _

theorem assignment_spreads_evenly_witness :
    (assign demo_env_high demo_pair_state).m_good_clients = [(1, 2), (2, 1)] ∧
    ((∀ cells clients total,
      Visits demo_env_high (truncate_ring demo_pair_state.m_who_downloaded_block)
        demo_pair_state.m_download_chain demo_pair_state.m_good_clients
        demo_pair_state.total_downloading_blocks cells clients total →
      count_max clients - count_min clients ≤ 1 ∧
        (∀ a ∈ clients, ∀ b ∈ clients, a.2 ≤ b.2 + 1) ∧ total ≤ TOTAL_DOWNLOAD_BLOCKS) ∧
    (∀ dc rest clients total c,
      Visits demo_env_high (truncate_ring demo_pair_state.m_who_downloaded_block)
        demo_pair_state.m_download_chain demo_pair_state.m_good_clients
        demo_pair_state.total_downloading_blocks (dc :: rest) clients total →
      dc.status = .DOWNLOADING → dc.downloading_client = none →
      total < TOTAL_DOWNLOAD_BLOCKS →
      choose_client demo_env_high (truncate_ring demo_pair_state.m_who_downloaded_block)
        dc.expected_height clients = some c →
      (∃ n, (c, n) ∈ clients ∧ ∀ q ∈ clients, n ≤ q.2) ∧
        (assign_loop demo_env_high (truncate_ring demo_pair_state.m_who_downloaded_block)
            (dc :: rest) clients total).m_good_clients =
          (assign_loop demo_env_high (truncate_ring demo_pair_state.m_who_downloaded_block)
            rest (map_add_one clients c) (total + 1)).m_good_clients ∧
        count_max (map_add_one clients c) - count_min (map_add_one clients c) ≤ 1) ∧
    count_max (assign demo_env_high demo_pair_state).m_good_clients -
      count_min (assign demo_env_high demo_pair_state).m_good_clients ≤ 1 ∧
    (demo_pair_state.m_who_downloaded_block = [] →
      ∀ p, speed_of (truncate_ring demo_pair_state.m_who_downloaded_block) p = 1) ∧
    ((∀ e ∈ demo_pair_state.m_good_clients, e.2 = 0) →
      count_max demo_pair_state.m_good_clients - count_min demo_pair_state.m_good_clients ≤
        1)) :=
  ⟨by decide, assignment_spreads_evenly demo_env.is_incoming demo_pair_state
    (reachable_steps demo_pair_reachable) demo_env_high 1 (by decide) (by decide) (by decide)⟩

/-- C22 (counterexample): in `demo_state` the head cell is DOWNLOADING, held by peer 1 and not
protected, and 40.9 seconds after its request `now - request_time` exceeds
`2 * SYNC_TIMEOUT = 40` seconds.  No import is running, and yet a timed sync, which only calls
`advance_download`, returns the state as it was: nothing is protected or disconnected and peer 1
stays registered, because the code compares the whole seconds of the age, 40, with 40. -/

theorem slacker_ignores_fraction_of_second :
    Reachable demo_env.is_incoming demo_state ∧
      (∃ front rest, demo_state.m_download_chain = front :: rest ∧
        front.status = .DOWNLOADING ∧ front.downloading_client = some 1 ∧
        front.protect_from_disconnect = false ∧
        demo_env_tardy.now - front.request_time >
          2 * (demo_env_tardy.SYNC_TIMEOUT : Int) * 1000000000 ∧
        duration_seconds (demo_env_tardy.now - front.request_time) = 40) ∧
      demo_env_tardy.is_incoming = demo_env.is_incoming ∧
      ¬ importing demo_env_tardy ∧
      advance_download 3 demo_env_tardy demo_state = .ok demo_state ∧
      handle 3 demo_env_tardy .timed_sync demo_state = .ok demo_state ∧
      bad_timeout demo_env_tardy (assign demo_env_tardy demo_state) = false ∧
      1 ∈ map_keys demo_state.m_good_clients :=
  ⟨demo_reachable, ⟨_, _, rfl, by decide, by decide, by decide, by decide, by decide⟩, rfl,
    by decide, by rfl, by rfl, by decide, by decide⟩

end Jetcash
